import Mathlib

/-! A verification development for `queue.c`.

The queue of `queue.c` is an intrusive circular doubly-linked list anchored
at a sentinel `struct list_head`.  The embedding keeps the pointer structure:
a heap maps every address to the `next` and `prev` fields of the
`struct list_head` stored there and to the payload of the `element_t` that
embeds it.  Every function of `queue.c` is translated statement by statement
into a function on heaps; loops take a fuel argument and return `none` when
the fuel runs out.
-/

namespace Queue

/-- Addresses; `0` is the null pointer. -/
abbrev Ptr := Nat

/-- The memory the queue functions work on.  `next p` and `prev p` are the two
fields of the `struct list_head` at address `p`.  An `element_t` is identified
with the address of the `list` member it embeds (`list_entry` is the identity),
`value p` is the string its `value` member points to, as the list of its bytes
before the terminating zero, and `alive p` tells whether the block at `p` (an
`element_t`, or a sentinel made by `q_new`) is currently allocated. -/
structure Heap where
  next : Ptr → Ptr
  prev : Ptr → Ptr
  value : Ptr → List Nat
  alive : Ptr → Bool

namespace Heap

/-- The assignment `p->next = v`. -/
def setNext (h : Heap) (p v : Ptr) : Heap :=
  { h with next := fun q => if q = p then v else h.next q }

/-- The assignment `p->prev = v`. -/
def setPrev (h : Heap) (p v : Ptr) : Heap :=
  { h with prev := fun q => if q = p then v else h.prev q }

/-- The assignment `list_entry(p, element_t, list)->value = s`. -/
def setValue (h : Heap) (p : Ptr) (s : List Nat) : Heap :=
  { h with value := fun q => if q = p then s else h.value q }

/-- The effect of `free` on the element at `p`. -/
def release (h : Heap) (p : Ptr) : Heap :=
  { h with alive := fun q => if q = p then false else h.alive q }

/-- The effect of a successful `malloc` of the element at `p`. -/
def allocate (h : Heap) (p : Ptr) : Heap :=
  { h with alive := fun q => if q = p then true else h.alive q }

end Heap

/-! ## The primitives of `list.h` -/

/-- Modelled from the spec: `list.h` is not among the sources.  "Create
sentinel: ... set both pointers to self": `head->next = head; head->prev = head`. -/
def INIT_LIST_HEAD (h : Heap) (head : Ptr) : Heap :=
  (h.setNext head head).setPrev head head

/-- Modelled from the spec: `list.h` is not among the sources.  "Link-after(node,
new): splice new immediately after node in O(1); updates four pointers". -/
def list_add (h : Heap) (node head : Ptr) : Heap :=
  let next := h.next head
  let h := h.setPrev next node
  let h := h.setNext node next
  let h := h.setPrev node head
  h.setNext head node

/-- Modelled from the spec: `list.h` is not among the sources.  "Link-before(node,
new): symmetric, splice immediately before node". -/
def list_add_tail (h : Heap) (node head : Ptr) : Heap :=
  let prev := h.prev head
  let h := h.setNext prev node
  let h := h.setNext node head
  let h := h.setPrev node prev
  h.setPrev head node

/-- Modelled from the spec: `list.h` is not among the sources.  "Unlink(node):
remove node from its list in O(1)". -/
def list_del (h : Heap) (node : Ptr) : Heap :=
  let next := h.next node
  let prev := h.prev node
  let h := h.setPrev next prev
  h.setNext prev next

/-- Modelled from the spec: `list.h` is not among the sources.
"Unlink-and-reinit(node): ... re-initializes node into a self-loop". -/
def list_del_init (h : Heap) (node : Ptr) : Heap :=
  INIT_LIST_HEAD (list_del h node) node

/-- Modelled from the spec: `list.h` is not among the sources.  "Emptiness test:
O(1), sentinel's next == sentinel". -/
def list_empty (h : Heap) (head : Ptr) : Bool :=
  decide (h.next head = head)

/-- Modelled from the spec: `list.h` is not among the sources.  "Splice-range":
all nodes of `list` are linked in before `head`, that is at the tail of the
list anchored at `head`; nothing happens when `list` is empty. -/
def list_splice_tail (h : Heap) (list head : Ptr) : Heap :=
  let head_last := h.prev head
  let list_first := h.next list
  let list_last := h.prev list
  if list_empty h list then h
  else
    let h := h.setPrev head list_last
    let h := h.setNext list_last head
    let h := h.setPrev list_first head_last
    h.setNext head_last list_first

/-- Modelled from the spec: `list.h` is not among the sources.  The "remainder
flush" of the merge step: `list_splice_tail` followed by re-initialising the
emptied sentinel. -/
def list_splice_tail_init (h : Heap) (list head : Ptr) : Heap :=
  INIT_LIST_HEAD (list_splice_tail h list head) list

/-- Modelled from the spec: `list.h` is not among the sources.  The divide step of
the sort is to "cut the list into two sublists at that boundary using
splice-range into a freshly initialized secondary sentinel, leaving the
original sentinel with the front half", where splice-range is to "move a
contiguous run [first, last] out of its current list and insert it immediately
after dst_anchor".  The run moved to `head_to` goes from the node after `node`
to the last node of `head_from`, and `head_from` keeps the nodes up to and
including `node`; nothing is moved when no node follows `node`. -/
def list_cut_position (h : Heap) (head_to head_from node : Ptr) : Heap :=
  let first := h.next node
  let last := h.prev head_from
  if first = head_from then h
  else
    let h := h.setNext node head_from
    let h := h.setPrev head_from node
    let after := h.next head_to
    let h := h.setNext head_to first
    let h := h.setPrev first head_to
    let h := h.setNext last after
    h.setPrev after last

/-- Modelled from the spec: `string.h` is not among the sources.  "byte-wise
string comparison": the first differing byte decides, a proper prefix is
smaller.  Only the sign of the result of `strcmp` is specified; the model
returns `-1`, `0` or `1`. -/
def strcmp : List Nat → List Nat → Int
  | [], [] => 0
  | [], _ :: _ => -1
  | _ :: _, [] => 1
  | a :: as, b :: bs => if a < b then -1 else if b < a then 1 else strcmp as bs

/-- Modelled from the spec: `string.h` is not among the sources.
`strncpy(dst, src, n)` writes exactly `n` bytes to `dst`: the bytes of `src`,
then zeros once `src` is exhausted.  A buffer is the map from offsets to
bytes. -/
def strncpy (dst : Nat → Nat) (src : List Nat) (n : Nat) : Nat → Nat :=
  fun i => if i < n then src.getD i 0 else dst i

/-! ## The functions of `queue.c` -/

/-- The function `list_free_node`: unlink the node, then free the payload and the element. -/
def list_free_node (h : Heap) (li : Ptr) : Heap :=
  if li = 0 then h
  else (list_del_init h li).release li

/-- The loop `list_for_each (li, head) ++len;` of `q_size`. -/
def q_size_loop : Nat → Heap → Ptr → Ptr → Nat → Option Nat
  | 0, _, _, _, _ => none
  | fuel + 1, h, head, li, len =>
    if li = head then some len
    else q_size_loop fuel h head (h.next li) (len + 1)

/-- The function `q_size`. -/
def q_size (fuel : Nat) (h : Heap) (head : Ptr) : Option Nat :=
  if head = 0 then some 0
  else q_size_loop fuel h head (h.next head) 0

/-- The loop of `list_get_mid`, on the cursors `left` and `right`. -/
def list_get_mid_loop : Nat → Heap → Ptr → Ptr → Option Ptr
  | 0, _, _, _ => none
  | fuel + 1, h, left, right =>
    if h.prev right = left ∨ h.prev right = h.next left then some (h.prev right)
    else list_get_mid_loop fuel h (h.next left) (h.prev right)

/-- The function `list_get_mid`. -/
def list_get_mid (fuel : Nat) (h : Heap) (head : Ptr) : Option Ptr :=
  list_get_mid_loop fuel h head head

/-- The function `q_delete_mid`; the result is the returned flag and the heap after the call. -/
def q_delete_mid (fuel : Nat) (h : Heap) (head : Ptr) : Option (Bool × Heap) :=
  if head = 0 ∨ list_empty h head = true then some (false, h)
  else
    match list_get_mid fuel h head with
    | none => none
    | some mid => some (true, list_free_node h mid)

/-- The inner `while` loop of `q_delete_dup`: as long as `cur` has a successor in
the list with an equal payload, `cur` is freed and `cur` moves to that
successor.  The result is the heap and the final `cur`. -/
def q_delete_dup_run : Nat → Heap → Ptr → Ptr → Option (Heap × Ptr)
  | 0, _, _, _ => none
  | fuel + 1, h, head, cur =>
    if h.next cur ≠ head ∧ strcmp (h.value cur) (h.value (h.next cur)) = 0 then
      let safe := h.next cur
      let h := list_free_node h cur
      q_delete_dup_run fuel h head safe
    else some (h, cur)

/-- The outer `while (li != head)` loop of `q_delete_dup`. -/
def q_delete_dup_loop : Nat → Heap → Ptr → Ptr → Option Heap
  | 0, _, _, _ => none
  | fuel + 1, h, head, li =>
    if li = head then some h
    else
      let cur := li
      if h.next cur ≠ head ∧ strcmp (h.value cur) (h.value (h.next cur)) = 0 then
        match q_delete_dup_run fuel h head cur with
        | none => none
        | some (h, cur) =>
          let safe := h.next cur
          let h := list_free_node h cur
          let cur := safe
          q_delete_dup_loop fuel h head (h.next cur)
      else q_delete_dup_loop fuel h head (h.next cur)

/-- The function `q_delete_dup`; the result is the returned flag and the heap after the call. -/
def q_delete_dup (fuel : Nat) (h : Heap) (head : Ptr) : Option (Bool × Heap) :=
  if head = 0 then some (false, h)
  else
    match q_delete_dup_loop fuel h head (h.next head) with
    | none => none
    | some h => some (true, h)

/-- The `for (i = 0; i < pairs; ++i)` loop of `q_swap`; the first argument is the
number `pairs - i` of iterations still to run. -/
def q_swap_loop : Nat → Heap → Ptr → Heap
  | 0, h, _ => h
  | k + 1, h, li =>
    let cur := li
    let next := h.next li
    let tmp := h.value cur
    let h := h.setValue cur (h.value next)
    let h := h.setValue next tmp
    q_swap_loop k h (h.next (h.next li))

/-- The function `q_swap`. -/
def q_swap (fuel : Nat) (h : Heap) (head : Ptr) : Option Heap :=
  if head = 0 then some h
  else
    match q_size fuel h head with
    | none => none
    | some n =>
      if n ≤ 1 then some h
      else
        match q_size fuel h head with
        | none => none
        | some m => some (q_swap_loop (m / 2) h (h.next head))

/-- The `list_for_each_safe (li, safe, head)` loop of `q_reverse`; the result is
the heap and the values of `li` and `safe` when the loop is left. -/
def q_reverse_loop : Nat → Heap → Ptr → Ptr → Ptr → Option (Heap × Ptr × Ptr)
  | 0, _, _, _, _ => none
  | fuel + 1, h, head, li, safe =>
    if li = head then some (h, li, safe)
    else
      let h := h.setNext li (h.prev li)
      let h := h.setPrev li safe
      q_reverse_loop fuel h head safe (h.next safe)

/-- The function `q_reverse`. -/
def q_reverse (fuel : Nat) (h : Heap) (head : Ptr) : Option Heap :=
  if head = 0 then some h
  else
    match q_size fuel h head with
    | none => none
    | some n =>
      if n ≤ 1 then some h
      else
        match q_reverse_loop fuel h head (h.next head) (h.next (h.next head)) with
        | none => none
        | some (h, li, _) =>
          let safe := h.next head
          let h := h.setNext head (h.prev li)
          some (h.setPrev head safe)

/-- The inner `while` loop of `merge`: `i_head` advances as long as it is not the
sentinel and its payload is strictly smaller than that of `i_head2`. -/
def merge_advance : Nat → Heap → Ptr → Ptr → Ptr → Option Ptr
  | 0, _, _, _, _ => none
  | fuel + 1, h, head, i_head, i_head2 =>
    if i_head ≠ head ∧ strcmp (h.value i_head) (h.value i_head2) < 0 then
      merge_advance fuel h head (h.next i_head) i_head2
    else some i_head

/-- The `for` loop of `merge`, on the variables `i_head`, `i_head2` and `next`. -/
def merge_loop : Nat → Heap → Ptr → Ptr → Ptr → Ptr → Ptr → Option Heap
  | 0, _, _, _, _, _, _ => none
  | fuel + 1, h, head, head2, i_head, i_head2, next =>
    if list_empty h head2 = true then some h
    else
      match merge_advance fuel h head i_head i_head2 with
      | none => none
      | some i_head =>
        if i_head = head then
          merge_loop fuel (list_splice_tail_init h head2 i_head) head head2 i_head next next
        else
          let next := h.next i_head2
          let h := list_del_init h i_head2
          let h := list_add_tail h i_head2 i_head
          merge_loop fuel h head head2 i_head next next

/-- The function `merge`.  The local `next` is not initialised in the source; it
is read only after the sentinel `head2` has become empty, and the model starts
it at the null pointer. -/
def merge (fuel : Nat) (h : Heap) (head head2 : Ptr) : Option Heap :=
  merge_loop fuel h head head2 (h.next head) (h.next head2) 0

/-- The function `q_sort`.  The local sentinel `head2` of `LIST_HEAD(head2)` lives
in the stack frame of the call: `sp` is its address, and the frames of the
calls made from this one start at `sp + 1`. -/
def q_sort : Nat → Heap → Ptr → Ptr → Option Heap
  | 0, _, _, _ => none
  | fuel + 1, h, head, sp =>
    if head = 0 then some h
    else
      match q_size fuel h head with
      | none => none
      | some n =>
        if n ≤ 1 then some h
        else
          let head2 := sp
          let h := INIT_LIST_HEAD h head2
          match list_get_mid fuel h head with
          | none => none
          | some mid =>
            let h := list_cut_position h head2 head mid
            match q_sort fuel h head (sp + 1) with
            | none => none
            | some h =>
              match q_sort fuel h head2 (sp + 1) with
              | none => none
              | some h => merge fuel h head head2

/-- The value of `bufsize - 1` in `size_t` arithmetic (64 bits). -/
def sizeMinusOne (bufsize : Nat) : Nat := (bufsize + 2 ^ 64 - 1) % 2 ^ 64

/-- The statements `strncpy(sp, target->value, bufsize - 1); sp[bufsize - 1] = 0;`
of `q_remove_head` and `q_remove_tail` on the buffer `sp`. -/
def copyOut (sp : Nat → Nat) (value : List Nat) (bufsize : Nat) : Nat → Nat :=
  let sp := strncpy sp value (sizeMinusOne bufsize)
  fun i => if i = sizeMinusOne bufsize then 0 else sp i

/-- The function `q_remove_head`; `sp` is `none` for a null buffer and the
contents of the buffer otherwise.  The result is the returned element (`none`
for `NULL`), the heap and the buffer after the call. -/
def q_remove_head (h : Heap) (head : Ptr) (sp : Option (Nat → Nat)) (bufsize : Nat) :
    Option Ptr × Heap × Option (Nat → Nat) :=
  if head = 0 ∨ list_empty h head = true then (none, h, sp)
  else
    let target := h.next head
    let h := list_del_init h target
    (some target, h, sp.map fun buf => copyOut buf (h.value target) bufsize)

/-- The function `q_remove_tail`, with the conventions of `q_remove_head`. -/
def q_remove_tail (h : Heap) (head : Ptr) (sp : Option (Nat → Nat)) (bufsize : Nat) :
    Option Ptr × Heap × Option (Nat → Nat) :=
  if head = 0 ∨ list_empty h head = true then (none, h, sp)
  else
    let target := h.prev head
    let h := list_del_init h target
    (some target, h, sp.map fun buf => copyOut buf (h.value target) bufsize)

/-- The bytes of the string stored in a buffer of `n` bytes: those before the first
zero byte. -/
def readString (buf : Nat → Nat) (n : Nat) : List Nat :=
  ((List.range n).map buf).takeWhile fun b => decide (b ≠ 0)

/-- The function `q_new`; `p` is the result of `malloc` (`0` when it fails).  The
result is the returned pointer (`none` for `NULL`) and the heap after the call. -/
def q_new (h : Heap) (p : Ptr) : Option Ptr × Heap :=
  if p = 0 then (none, h)
  else (some p, INIT_LIST_HEAD (h.allocate p) p)

/-- The loop `list_for_each_safe (li, safe, l) list_free_node(li);` of `q_free`. -/
def q_free_loop : Nat → Heap → Ptr → Ptr → Ptr → Option Heap
  | 0, _, _, _, _ => none
  | fuel + 1, h, l, li, safe =>
    if li = l then some h
    else
      let h := list_free_node h li
      q_free_loop fuel h l safe (h.next safe)

/-- The function `q_free`. -/
def q_free (fuel : Nat) (h : Heap) (l : Ptr) : Option Heap :=
  if l = 0 then some h
  else
    match q_free_loop fuel h l (h.next l) (h.next (h.next l)) with
    | none => none
    | some h => some (h.release l)

/-- The function `q_insert_head`.  `new` is the result of `malloc(sizeof(element_t))`
(`0` when it fails) and `vbuf` the result of `malloc(strlen(s) + 1)`: `none`
when it fails, otherwise the contents the fresh buffer happens to have.  The
payload of the new element is the string `strncpy` leaves in that buffer.  The
result is the returned flag and the heap after the call. -/
def q_insert_head (h : Heap) (head : Ptr) (s : List Nat) (new : Ptr)
    (vbuf : Option (Nat → Nat)) : Bool × Heap :=
  if head = 0 then (false, h)
  else if new = 0 then (false, h)
  else
    let h := h.allocate new
    match vbuf with
    | none => (false, h.release new)
    | some buf =>
      let h := INIT_LIST_HEAD h new
      let h := h.setValue new (readString (strncpy buf s (s.length + 1)) (s.length + 1))
      (true, list_add h new head)

/-- The function `q_insert_tail`, with the conventions of `q_insert_head`. -/
def q_insert_tail (h : Heap) (head : Ptr) (s : List Nat) (new : Ptr)
    (vbuf : Option (Nat → Nat)) : Bool × Heap :=
  if head = 0 then (false, h)
  else if new = 0 then (false, h)
  else
    let h := h.allocate new
    match vbuf with
    | none => (false, h.release new)
    | some buf =>
      let h := INIT_LIST_HEAD h new
      let h := h.setValue new (readString (strncpy buf s (s.length + 1)) (s.length + 1))
      (true, list_add_tail h new head)

/-! ## Well-formed queues -/

/-- The nodes `a` and `b` are linked: `a->next == b` and `b->prev == a`. -/
def Linked (h : Heap) (a b : Ptr) : Prop := h.next a = b ∧ h.prev b = a

/-- The nodes `ns` are linked one after the other between `a` and `b`. -/
def Seg (h : Heap) : Ptr → List Ptr → Ptr → Prop
  | a, [], b => Linked h a b
  | a, n :: ns, b => Linked h a n ∧ Seg h n ns b

/-- The nodes of the list form a cycle: each is linked to the following one and
the last one to the first. -/
def Cyc (h : Heap) : List Ptr → Prop
  | [] => True
  | a :: ns => Seg h a ns a

/-- The heap holds at the sentinel `head` a well-formed queue whose element
nodes are, front to back, `ns`: no node is null, the sentinel and the nodes are
pairwise distinct, and they form a cycle of symmetric links. -/
def IsQueue (h : Heap) (head : Ptr) (ns : List Ptr) : Prop :=
  (∀ p ∈ head :: ns, p ≠ 0) ∧ (head :: ns).Nodup ∧ Cyc h (head :: ns)

instance Linked.instDecidable (h : Heap) (a b : Ptr) : Decidable (Linked h a b) := by
  unfold Linked; infer_instance

instance Seg.instDecidable (h : Heap) : (a : Ptr) → (ns : List Ptr) → (b : Ptr) →
    Decidable (Seg h a ns b)
  | a, [], b => by unfold Seg; infer_instance
  | a, n :: ns, b => by
    unfold Seg
    exact @instDecidableAnd _ _ _ (Seg.instDecidable h n ns b)

instance Cyc.instDecidable (h : Heap) : (ns : List Ptr) → Decidable (Cyc h ns)
  | [] => by unfold Cyc; infer_instance
  | a :: ns => by unfold Cyc; infer_instance

instance IsQueue.instDecidable (h : Heap) (head : Ptr) (ns : List Ptr) :
    Decidable (IsQueue h head ns) := by
  unfold IsQueue; infer_instance

/-- The payloads of the nodes `ns`, in order. -/
def payloads (h : Heap) (ns : List Ptr) : List (List Nat) := ns.map h.value

/-- Ascending order of payloads under `strcmp`. -/
def Ascending (h : Heap) (ns : List Ptr) : Prop :=
  ns.Pairwise fun a b => strcmp (h.value a) (h.value b) ≤ 0

instance Ascending.instDecidable (h : Heap) (ns : List Ptr) : Decidable (Ascending h ns) := by
  unfold Ascending; infer_instance

/-- The node sequence `merge` leaves at `head`, read off its loops: for each node
`x` of the second list in turn, the nodes of the first list with a payload
strictly below that of `x` are passed over and `x` is linked in before the
first node that is not. -/
def mergeNodes (val : Ptr → List Nat) : List Ptr → List Ptr → List Ptr
  | l₁, [] => l₁
  | l₁, x :: l₂ =>
    l₁.takeWhile (fun y => decide (strcmp (val y) (val x) < 0)) ++
      x :: mergeNodes val (l₁.dropWhile fun y => decide (strcmp (val y) (val x) < 0)) l₂

/-- The walk along `next` from `li` until the sentinel, at most `fuel` nodes. -/
def walk : Nat → Heap → Ptr → Ptr → List Ptr
  | 0, _, _, _ => []
  | fuel + 1, h, head, li => if li = head then [] else li :: walk fuel h head (h.next li)

/-- The element nodes met from the sentinel along `next`, with their payloads. -/
def q_view (fuel : Nat) (h : Heap) (head : Ptr) : List (Ptr × List Nat) :=
  (walk fuel h head (h.next head)).map fun p => (p, h.value p)

/-- A heap without any list: all fields zero, nothing allocated. -/
def Heap.blank : Heap := ⟨fun _ => 0, fun _ => 0, fun _ => [], fun _ => false⟩

/-- The heap holding at `head` the queue of the given elements (address and
payload), appended one by one at the tail of an empty queue. -/
def mkQueue (head : Ptr) (es : List (Ptr × List Nat)) : Heap :=
  es.foldl (fun h e => list_add_tail ((h.setValue e.1 e.2).allocate e.1) e.1 head)
    (INIT_LIST_HEAD Heap.blank head)

/-- The walk along `prev` from `li` until the sentinel, at most `fuel` nodes. -/
def walkPrev : Nat → Heap → Ptr → Ptr → List Ptr
  | 0, _, _, _ => []
  | fuel + 1, h, head, li => if li = head then [] else li :: walkPrev fuel h head (h.prev li)

/-- Link symmetry at the nodes `c`: `a->next->prev == a` and `a->prev->next == a`. -/
def LinkSymmetric (h : Heap) (c : List Ptr) : Prop :=
  ∀ a ∈ c, h.prev (h.next a) = a ∧ h.next (h.prev a) = a

/-- A call of one of the five operations that change the size of a queue, with the
results of the calls of `malloc` it makes and with its buffer arguments. -/
inductive Op where
  | insertHead (s : List Nat) (new : Ptr) (vbuf : Option (Nat → Nat))
  | insertTail (s : List Nat) (new : Ptr) (vbuf : Option (Nat → Nat))
  | removeHead (sp : Option (Nat → Nat)) (bufsize : Nat)
  | removeTail (sp : Option (Nat → Nat)) (bufsize : Nat)
  | deleteMid

/-- The heap after the call `op` on the queue at `head`, and what the call counts
for: `1` for an insertion that returned true, `-1` for a removal that returned
an element or a deletion that returned true, `0` for a call that failed. -/
def applyOp (fuel : Nat) (h : Heap) (head : Ptr) : Op → Option (Heap × Int)
  | .insertHead s new vbuf =>
    let r := q_insert_head h head s new vbuf
    some (r.2, if r.1 = true then 1 else 0)
  | .insertTail s new vbuf =>
    let r := q_insert_tail h head s new vbuf
    some (r.2, if r.1 = true then 1 else 0)
  | .removeHead sp bufsize =>
    let r := q_remove_head h head sp bufsize
    some (r.2.1, if r.1.isSome = true then -1 else 0)
  | .removeTail sp bufsize =>
    let r := q_remove_tail h head sp bufsize
    some (r.2.1, if r.1.isSome = true then -1 else 0)
  | .deleteMid =>
    match q_delete_mid fuel h head with
    | none => none
    | some r => some (r.2, if r.1 = true then -1 else 0)

/-- The heap after a sequence of calls, and the number of successful insertions
minus the number of successful removals and deletions. -/
def runOps (fuel : Nat) (h : Heap) (head : Ptr) : List Op → Option (Heap × Int)
  | [] => some (h, 0)
  | op :: ops =>
    match applyOp fuel h head op with
    | none => none
    | some r =>
      match runOps fuel r.1 head ops with
      | none => none
      | some r' => some (r'.1, r.2 + r'.2)

/-- What `malloc` may return for the element of an insertion: the null pointer, or
the address of a block that is not allocated at the time of the call. -/
def MallocOk (h : Heap) : Op → Prop
  | .insertHead _ new _ => new = 0 ∨ h.alive new = false
  | .insertTail _ new _ => new = 0 ∨ h.alive new = false
  | _ => True

/-- Every call of `malloc` made along the sequence of calls returns as `MallocOk`
allows at the time of the call. -/
def RunOk (fuel : Nat) (h : Heap) (head : Ptr) : List Op → Prop
  | [] => True
  | op :: ops =>
    MallocOk h op ∧
      match applyOp fuel h head op with
      | none => True
      | some r => RunOk fuel r.1 head ops

/-- The nodes `ns` are those met from the sentinel along `next` before it is met
again, none of them nor the sentinel is null, and link symmetry holds at the
sentinel and at each of them. -/
def WellLinked (h : Heap) (head : Ptr) (ns : List Ptr) : Prop :=
  (∀ p ∈ head :: ns, p ≠ 0) ∧ walk (ns.length + 1) h head (h.next head) = ns ∧
    LinkSymmetric h (head :: ns)

instance LinkSymmetric.instDecidable (h : Heap) (c : List Ptr) :
    Decidable (LinkSymmetric h c) := by
  unfold LinkSymmetric; infer_instance

instance WellLinked.instDecidable (h : Heap) (head : Ptr) (ns : List Ptr) :
    Decidable (WellLinked h head ns) := by
  unfold WellLinked; infer_instance

instance MallocOk.instDecidable (h : Heap) : (op : Op) → Decidable (MallocOk h op)
  | .insertHead _ _ _ => by unfold MallocOk; infer_instance
  | .insertTail _ _ _ => by unfold MallocOk; infer_instance
  | .removeHead _ _ => by unfold MallocOk; infer_instance
  | .removeTail _ _ => by unfold MallocOk; infer_instance
  | .deleteMid => by unfold MallocOk; infer_instance

instance RunOk.instDecidable (fuel : Nat) : (h : Heap) → (head : Ptr) → (ops : List Op) →
    Decidable (RunOk fuel h head ops)
  | _, _, [] => by unfold RunOk; infer_instance
  | h, head, op :: ops =>
    match hr : applyOp fuel h head op with
    | none => decidable_of_iff (MallocOk h op) (by simp [RunOk, hr])
    | some r =>
      @decidable_of_iff _ (MallocOk h op ∧ RunOk fuel r.1 head ops) (by simp [RunOk, hr])
        (@instDecidableAnd _ _ _ (RunOk.instDecidable fuel r.1 head ops))

/-- The queue at `head` is well linked and its traversal along `prev` is the
reverse of its traversal along `next`. -/
def Symmetric (h : Heap) (head : Ptr) : Prop :=
  ∃ ns, WellLinked h head ns ∧ walkPrev (ns.length + 1) h head (h.prev head) = ns.reverse

/-- The heap holding at the sentinel `1` the queue of the given payloads, the
element nodes at the addresses `2`, `3`, ... -/
def sampleQueue (ps : List (List Nat)) : Heap :=
  mkQueue 1 (ps.enum.map fun e => (e.1 + 2, e.2))

/-- The heap holding two queues: at the sentinel `1` the queue of the payloads `ps`
with the element nodes at `2`, `3`, ..., and at the sentinel `50` the queue of
the payloads `qs` with the element nodes at `51`, `52`, ... -/
def sampleTwoQueues (ps qs : List (List Nat)) : Heap :=
  (qs.enum.map fun e => (e.1 + 51, e.2)).foldl
    (fun h e => list_add_tail ((h.setValue e.1 e.2).allocate e.1) e.1 50)
    (INIT_LIST_HEAD (sampleQueue ps) 50)

/-! ## Reading a heap after an assignment -/

@[simp] theorem Heap.setNext_next (h : Heap) (p v q : Ptr) :
    (h.setNext p v).next q = if q = p then v else h.next q := rfl
@[simp] theorem Heap.setNext_prev (h : Heap) (p v : Ptr) : (h.setNext p v).prev = h.prev := rfl
@[simp] theorem Heap.setNext_value (h : Heap) (p v : Ptr) : (h.setNext p v).value = h.value := rfl
@[simp] theorem Heap.setNext_alive (h : Heap) (p v : Ptr) : (h.setNext p v).alive = h.alive := rfl
@[simp] theorem Heap.setPrev_prev (h : Heap) (p v q : Ptr) :
    (h.setPrev p v).prev q = if q = p then v else h.prev q := rfl
@[simp] theorem Heap.setPrev_next (h : Heap) (p v : Ptr) : (h.setPrev p v).next = h.next := rfl
@[simp] theorem Heap.setPrev_value (h : Heap) (p v : Ptr) : (h.setPrev p v).value = h.value := rfl
@[simp] theorem Heap.setPrev_alive (h : Heap) (p v : Ptr) : (h.setPrev p v).alive = h.alive := rfl
@[simp] theorem Heap.setValue_value (h : Heap) (p : Ptr) (s : List Nat) (q : Ptr) :
    (h.setValue p s).value q = if q = p then s else h.value q := rfl
@[simp] theorem Heap.setValue_next (h : Heap) (p : Ptr) (s : List Nat) :
    (h.setValue p s).next = h.next := rfl
@[simp] theorem Heap.setValue_prev (h : Heap) (p : Ptr) (s : List Nat) :
    (h.setValue p s).prev = h.prev := rfl
@[simp] theorem Heap.setValue_alive (h : Heap) (p : Ptr) (s : List Nat) :
    (h.setValue p s).alive = h.alive := rfl
@[simp] theorem Heap.release_next (h : Heap) (p : Ptr) : (h.release p).next = h.next := rfl
@[simp] theorem Heap.release_prev (h : Heap) (p : Ptr) : (h.release p).prev = h.prev := rfl
@[simp] theorem Heap.release_value (h : Heap) (p : Ptr) : (h.release p).value = h.value := rfl
@[simp] theorem Heap.release_alive (h : Heap) (p q : Ptr) :
    (h.release p).alive q = if q = p then false else h.alive q := rfl

/-! ## Ends of lists -/

theorem getLastD_append_cons (l₁ : List Ptr) (a : Ptr) (l₂ : List Ptr) (d : Ptr) :
    (l₁ ++ a :: l₂).getLastD d = l₂.getLastD a := by
  induction l₁ generalizing d with
  | nil => simp only [List.nil_append, List.getLastD_cons]
  | cons x xs ih => simp only [List.cons_append, List.getLastD_cons]; exact ih x

theorem headD_append_cons (l₁ : List Ptr) (a : Ptr) (l₂ : List Ptr) (d : Ptr) :
    (l₁ ++ a :: l₂).headD d = l₁.headD a := by
  cases l₁ <;> simp

/-! ## Segments and cycles -/

theorem seg_append (h : Heap) (a : Ptr) (xs : List Ptr) (y : Ptr) (ys : List Ptr) (b : Ptr) :
    Seg h a (xs ++ y :: ys) b ↔ Seg h a xs y ∧ Seg h y ys b := by
  induction xs generalizing a with
  | nil => simp [Seg]
  | cons x xs ih => simp [Seg, ih, and_assoc]

theorem seg_snoc (h : Heap) (a : Ptr) (xs : List Ptr) (y b : Ptr) :
    Seg h a (xs ++ [y]) b ↔ Seg h a xs y ∧ Linked h y b := by
  rw [seg_append]; simp [Seg]

/-- A segment only depends on the `next` fields of its nodes but the last end, and
on the `prev` fields of its nodes but the first end. -/
theorem seg_frame {h h' : Heap} {a : Ptr} {ns : List Ptr} {b : Ptr}
    (hn : ∀ p ∈ a :: ns, h'.next p = h.next p) (hp : ∀ p ∈ ns ++ [b], h'.prev p = h.prev p)
    (hs : Seg h a ns b) : Seg h' a ns b := by
  induction ns generalizing a with
  | nil =>
    simp only [Seg, Linked] at hs ⊢
    rw [hn a (by simp), hp b (by simp)]; exact hs
  | cons n ns ih =>
    simp only [Seg, Linked] at hs ⊢
    refine ⟨⟨?_, ?_⟩, ih ?_ ?_ hs.2⟩
    · rw [hn a (by simp)]; exact hs.1.1
    · rw [hp n (by simp)]; exact hs.1.2
    · intro p hp'; exact hn p (List.mem_cons_of_mem _ hp')
    · intro p hp'; exact hp p (by simpa using Or.inr (by simpa using hp'))

theorem seg_next_first {h : Heap} {a : Ptr} {ns : List Ptr} {b : Ptr} (hs : Seg h a ns b) :
    h.next a = ns.headD b := by
  cases ns with
  | nil => exact hs.1
  | cons n ns => exact hs.1.1

theorem seg_prev_last {h : Heap} {a : Ptr} {ns : List Ptr} {b : Ptr} (hs : Seg h a ns b) :
    h.prev b = ns.getLastD a := by
  induction ns generalizing a with
  | nil => exact hs.2
  | cons n ns ih =>
    have := ih hs.2
    cases ns with
    | nil => simpa using this
    | cons m ms => simpa using this

theorem cyc_rotate (h : Heap) (l₁ l₂ : List Ptr) : Cyc h (l₁ ++ l₂) ↔ Cyc h (l₂ ++ l₁) := by
  cases l₁ with
  | nil => simp
  | cons a xs =>
    cases l₂ with
    | nil => simp
    | cons b ys =>
      simp only [List.cons_append, Cyc]
      rw [seg_append, seg_append]
      exact and_comm

theorem cyc_frame {h h' : Heap} {c : List Ptr}
    (hn : ∀ p ∈ c, h'.next p = h.next p) (hp : ∀ p ∈ c, h'.prev p = h.prev p)
    (hc : Cyc h c) : Cyc h' c := by
  cases c with
  | nil => trivial
  | cons a ns =>
    refine seg_frame hn ?_ hc
    intro p hp'
    apply hp
    simp only [List.mem_append, List.mem_singleton] at hp'
    rcases hp' with hp' | rfl
    · exact List.mem_cons_of_mem _ hp'
    · exact List.mem_cons_self _ _

/-- In a cycle every node is linked to its successor. -/
theorem cyc_next {h : Heap} {xs : List Ptr} {x : Ptr} {ys : List Ptr}
    (hc : Cyc h (xs ++ x :: ys)) : h.next x = (ys ++ xs).headD x := by
  rw [cyc_rotate] at hc
  simp only [List.cons_append, Cyc] at hc
  exact seg_next_first hc

theorem cyc_prev {h : Heap} {xs : List Ptr} {x : Ptr} {ys : List Ptr}
    (hc : Cyc h (xs ++ x :: ys)) : h.prev x = (ys ++ xs).getLastD x := by
  rw [cyc_rotate] at hc
  simp only [List.cons_append, Cyc] at hc
  exact seg_prev_last hc

/-! ## Well-formed queues -/

theorem IsQueue.frame {h h' : Heap} {head : Ptr} {ns : List Ptr} (hq : IsQueue h head ns)
    (hn : ∀ p ∈ head :: ns, h'.next p = h.next p)
    (hp : ∀ p ∈ head :: ns, h'.prev p = h.prev p) : IsQueue h' head ns :=
  ⟨hq.1, hq.2.1, cyc_frame hn hp hq.2.2⟩

theorem isQueue_nil_iff (h : Heap) (head : Ptr) :
    IsQueue h head [] ↔ head ≠ 0 ∧ h.next head = head ∧ h.prev head = head := by
  simp [IsQueue, Cyc, Seg, Linked]

theorem IsQueue.head_ne_zero {h : Heap} {head : Ptr} {ns : List Ptr} (hq : IsQueue h head ns) :
    head ≠ 0 := hq.1 head (List.mem_cons_self _ _)

theorem IsQueue.head_not_mem {h : Heap} {head : Ptr} {ns : List Ptr} (hq : IsQueue h head ns) :
    head ∉ ns := (List.nodup_cons.1 hq.2.1).1

theorem IsQueue.nodup {h : Heap} {head : Ptr} {ns : List Ptr} (hq : IsQueue h head ns) :
    ns.Nodup := (List.nodup_cons.1 hq.2.1).2

theorem IsQueue.next_head {h : Heap} {head : Ptr} {ns : List Ptr} (hq : IsQueue h head ns) :
    h.next head = ns.headD head := seg_next_first hq.2.2

theorem IsQueue.prev_head {h : Heap} {head : Ptr} {ns : List Ptr} (hq : IsQueue h head ns) :
    h.prev head = ns.getLastD head := seg_prev_last hq.2.2

theorem IsQueue.next_mid {h : Heap} {head : Ptr} {pre : List Ptr} {x : Ptr} {post : List Ptr}
    (hq : IsQueue h head (pre ++ x :: post)) : h.next x = post.headD head := by
  have := @cyc_next h (head :: pre) x post hq.2.2
  rw [this, headD_append_cons]

theorem IsQueue.prev_mid {h : Heap} {head : Ptr} {pre : List Ptr} {x : Ptr} {post : List Ptr}
    (hq : IsQueue h head (pre ++ x :: post)) : h.prev x = pre.getLastD head := by
  have := @cyc_prev h (head :: pre) x post hq.2.2
  rw [this, getLastD_append_cons]

theorem IsQueue.seg {h : Heap} {head : Ptr} {ns : List Ptr} (hq : IsQueue h head ns) :
    Seg h head ns head := hq.2.2

/-! ## `q_size` -/

theorem q_size_loop_seg {h : Heap} {head : Ptr} (ns : List Ptr) (a : Ptr) (len fuel : Nat)
    (hs : Seg h a ns head) (hm : head ∉ ns) (hf : ns.length < fuel) :
    q_size_loop fuel h head (h.next a) len = some (len + ns.length) := by
  induction ns generalizing a len fuel with
  | nil =>
    obtain ⟨fuel, rfl⟩ : ∃ k, fuel = k + 1 := ⟨fuel - 1, by simp at hf; omega⟩
    simp [q_size_loop, hs.1]
  | cons n ns ih =>
    obtain ⟨fuel, rfl⟩ : ∃ k, fuel = k + 1 := ⟨fuel - 1, by simp at hf; omega⟩
    simp only [List.mem_cons, not_or] at hm
    have hn : h.next a = n := hs.1.1
    rw [q_size_loop, hn, if_neg (Ne.symm hm.1), ih n (len + 1) fuel hs.2 hm.2 (by simpa using hf)]
    simp; omega

theorem q_size_eq {h : Heap} {head : Ptr} {ns : List Ptr} (hq : IsQueue h head ns)
    {fuel : Nat} (hf : ns.length < fuel) : q_size fuel h head = some ns.length := by
  rw [q_size, if_neg hq.head_ne_zero, q_size_loop_seg ns head 0 fuel hq.seg hq.head_not_mem hf]
  simp

/-! ## Moving the ends of a segment -/

theorem getLastD_mem (l : List Ptr) (d : Ptr) : l.getLastD d ∈ d :: l := by
  induction l generalizing d with
  | nil => simp
  | cons x xs ih =>
    simp only [List.getLastD_cons]
    exact List.mem_cons_of_mem _ (ih x)

theorem headD_mem (l : List Ptr) (d : Ptr) : l.headD d ∈ d :: l := by
  cases l <;> simp

theorem getLastD_concat (m : List Ptr) (e d : Ptr) : (m ++ [e]).getLastD d = e := by
  rw [getLastD_append_cons]; rfl

theorem seg_retarget_end {h h' : Heap} {a : Ptr} {ns : List Ptr} {b b' e : Ptr}
    (hs : Seg h a ns b) (hnd : (a :: ns).Nodup) (hl : ns.getLastD a = e)
    (he : Linked h' e b')
    (hn : ∀ p ∈ a :: ns, p ≠ e → h'.next p = h.next p)
    (hp : ∀ p ∈ ns, h'.prev p = h.prev p) : Seg h' a ns b' := by
  rcases List.eq_nil_or_concat ns with rfl | ⟨m, e', rfl⟩
  · cases hl; exact he
  · simp only [List.concat_eq_append] at *
    rw [seg_snoc] at hs ⊢
    rw [getLastD_concat] at hl
    subst hl
    refine ⟨seg_frame ?_ ?_ hs.1, he⟩
    · intro p hp'
      apply hn p
      · simp only [List.mem_cons, List.mem_append, List.mem_singleton] at hp' ⊢; tauto
      · rintro rfl
        rw [← List.cons_append, List.nodup_append] at hnd
        exact hnd.2.2 hp' (List.mem_singleton_self _)
    · intro p hp'; exact hp p hp'

theorem seg_retarget_start {h h' : Heap} {a a' : Ptr} {ns : List Ptr} {b f : Ptr}
    (hs : Seg h a ns b) (hnd : (ns ++ [b]).Nodup) (hf : ns.headD b = f)
    (he : Linked h' a' f)
    (hn : ∀ p ∈ ns, h'.next p = h.next p)
    (hp : ∀ p ∈ ns ++ [b], p ≠ f → h'.prev p = h.prev p) : Seg h' a' ns b := by
  cases ns with
  | nil => cases hf; exact he
  | cons n ns =>
    simp only [List.headD_cons] at hf
    subst hf
    refine ⟨he, seg_frame hn ?_ hs.2⟩
    intro p hp'
    apply hp p (List.mem_cons_of_mem _ hp')
    rintro rfl
    simp only [List.cons_append, List.nodup_cons] at hnd
    exact hnd.1 hp'

/-- A cycle is closed under `next` and `prev`. -/
theorem cyc_next_mem {h : Heap} {c : List Ptr} (hc : Cyc h c) {x : Ptr} (hx : x ∈ c) :
    h.next x ∈ c := by
  obtain ⟨xs, ys, rfl⟩ := List.append_of_mem hx
  rw [cyc_next hc]
  have := headD_mem (ys ++ xs) x
  simp only [List.mem_cons, List.mem_append] at this ⊢
  tauto

theorem cyc_prev_mem {h : Heap} {c : List Ptr} (hc : Cyc h c) {x : Ptr} (hx : x ∈ c) :
    h.prev x ∈ c := by
  obtain ⟨xs, ys, rfl⟩ := List.append_of_mem hx
  rw [cyc_prev hc]
  have := getLastD_mem (ys ++ xs) x
  simp only [List.mem_cons, List.mem_append] at this ⊢
  tauto

/-! ## `list_del` and `list_del_init` -/

theorem list_del_next (h : Heap) (x p : Ptr) (hp : p ≠ h.prev x) :
    (list_del h x).next p = h.next p := by
  simp [list_del, hp]

theorem list_del_prev (h : Heap) (x p : Ptr) (hp : p ≠ h.next x) :
    (list_del h x).prev p = h.prev p := by
  simp [list_del, hp]

@[simp] theorem list_del_value (h : Heap) (x : Ptr) : (list_del h x).value = h.value := rfl
@[simp] theorem list_del_alive (h : Heap) (x : Ptr) : (list_del h x).alive = h.alive := rfl

@[simp] theorem INIT_LIST_HEAD_value (h : Heap) (x : Ptr) :
    (INIT_LIST_HEAD h x).value = h.value := rfl
@[simp] theorem INIT_LIST_HEAD_alive (h : Heap) (x : Ptr) :
    (INIT_LIST_HEAD h x).alive = h.alive := rfl
@[simp] theorem INIT_LIST_HEAD_next (h : Heap) (x p : Ptr) :
    (INIT_LIST_HEAD h x).next p = if p = x then x else h.next p := by
  simp [INIT_LIST_HEAD]
@[simp] theorem INIT_LIST_HEAD_prev (h : Heap) (x p : Ptr) :
    (INIT_LIST_HEAD h x).prev p = if p = x then x else h.prev p := by
  simp [INIT_LIST_HEAD]

@[simp] theorem list_del_init_value (h : Heap) (x : Ptr) :
    (list_del_init h x).value = h.value := rfl
@[simp] theorem list_del_init_alive (h : Heap) (x : Ptr) :
    (list_del_init h x).alive = h.alive := rfl

/-- Unlinking the first node of a cycle leaves the cycle of the other nodes. -/
theorem cyc_list_del {h : Heap} {x : Ptr} {rest : List Ptr} (hc : Cyc h (x :: rest))
    (hnd : (x :: rest).Nodup) : Cyc (list_del h x) rest := by
  cases rest with
  | nil => trivial
  | cons q t =>
    have hs : Seg h q t x := hc.2
    have hnx : h.next x = q := hc.1.1
    have hpx : t.getLastD q = h.prev x := by
      have := seg_prev_last (show Seg h x (q :: t) x from hc)
      rw [this, List.getLastD_cons]
    have hnd' : (q :: t).Nodup := (List.nodup_cons.1 hnd).2
    have hq : q ∉ t := (List.nodup_cons.1 hnd').1
    refine seg_retarget_end hs hnd' hpx ⟨?_, ?_⟩ ?_ ?_
    · simp [list_del, hnx]
    · simp [list_del, hnx]
    · intro p _ hp
      exact list_del_next h x p hp
    · intro p hp
      apply list_del_prev h x p
      rw [hnx]; rintro rfl; exact hq hp

theorem list_del_frame {h : Heap} {c : List Ptr} (hc : Cyc h c) {x : Ptr} (hx : x ∈ c)
    {p : Ptr} (hp : p ∉ c) :
    (list_del h x).next p = h.next p ∧ (list_del h x).prev p = h.prev p := by
  constructor
  · apply list_del_next; rintro rfl; exact hp (cyc_prev_mem hc hx)
  · apply list_del_prev; rintro rfl; exact hp (cyc_next_mem hc hx)

theorem isQueue_rotate_nodup {head : Ptr} {pre : List Ptr} {x : Ptr} {post : List Ptr}
    (hnd : (head :: (pre ++ x :: post)).Nodup) : (x :: (post ++ head :: pre)).Nodup := by
  have hperm : List.Perm (x :: (post ++ head :: pre)) (head :: (pre ++ x :: post)) := by
    have : x :: (post ++ head :: pre) = (x :: post) ++ (head :: pre) := rfl
    rw [this]
    have h2 : head :: (pre ++ x :: post) = (head :: pre) ++ (x :: post) := rfl
    rw [h2]
    exact List.perm_append_comm
  exact hperm.nodup_iff.2 hnd

/-- Unlinking a node of a queue leaves the queue of the other nodes. -/
theorem IsQueue.del {h : Heap} {head : Ptr} {pre : List Ptr} {x : Ptr} {post : List Ptr}
    (hq : IsQueue h head (pre ++ x :: post)) : IsQueue (list_del h x) head (pre ++ post) := by
  obtain ⟨h0, hnd, hc⟩ := hq
  refine ⟨?_, ?_, ?_⟩
  · intro p hp; apply h0 p
    simp only [List.mem_cons, List.mem_append] at hp ⊢; tauto
  · have hsub : List.Sublist (head :: (pre ++ post)) (head :: (pre ++ x :: post)) :=
      (List.Sublist.append_left (List.sublist_cons_self x post) pre).cons₂ head
    exact hnd.sublist hsub
  · have hc' : Cyc h (x :: (post ++ head :: pre)) := by
      have := (cyc_rotate h (head :: pre) (x :: post)).1 hc
      simpa using this
    have := cyc_list_del hc' (isQueue_rotate_nodup hnd)
    have := (cyc_rotate (list_del h x) post (head :: pre)).1 this
    simpa using this

theorem IsQueue.del_init {h : Heap} {head : Ptr} {pre : List Ptr} {x : Ptr}
    {post : List Ptr} (hq : IsQueue h head (pre ++ x :: post)) :
    IsQueue (list_del_init h x) head (pre ++ post) := by
  have hx : x ∉ head :: (pre ++ post) := by
    have hnd := hq.2.1
    intro hx
    have h1 : x ≠ head := by
      rintro rfl
      exact (List.nodup_cons.1 hnd).1 (by simp)
    have h2 : (pre ++ x :: post).Nodup := (List.nodup_cons.1 hnd).2
    rw [List.nodup_append] at h2
    simp only [List.mem_cons, List.mem_append] at hx
    rcases hx with hx | hx | hx
    · exact h1 hx
    · exact h2.2.2 hx (List.mem_cons_self _ _)
    · exact (List.nodup_cons.1 h2.2.1).1 hx
  refine hq.del.frame ?_ ?_
  · intro p hp
    have : p ≠ x := by rintro rfl; exact hx hp
    simp [list_del_init, this]
  · intro p hp
    have : p ≠ x := by rintro rfl; exact hx hp
    simp [list_del_init, this]

theorem list_del_init_self (h : Heap) (x : Ptr) :
    (list_del_init h x).next x = x ∧ (list_del_init h x).prev x = x := by
  simp [list_del_init]

/-- The fields outside the queue are left alone by `list_del_init`. -/
theorem IsQueue.del_init_frame {h : Heap} {head : Ptr} {ns : List Ptr}
    (hq : IsQueue h head ns) {x : Ptr} (hx : x ∈ ns) {p : Ptr} (hp : p ∉ head :: ns) :
    (list_del_init h x).next p = h.next p ∧ (list_del_init h x).prev p = h.prev p := by
  have hpx : p ≠ x := by rintro rfl; exact hp (List.mem_cons_of_mem _ hx)
  have := list_del_frame hq.2.2 (List.mem_cons_of_mem _ hx) hp
  simp [list_del_init, hpx, this]

/-! ## `list_add_tail` -/

@[simp] theorem list_add_tail_value (h : Heap) (x a : Ptr) :
    (list_add_tail h x a).value = h.value := rfl
@[simp] theorem list_add_tail_alive (h : Heap) (x a : Ptr) :
    (list_add_tail h x a).alive = h.alive := rfl

theorem list_add_tail_next (h : Heap) (x a p : Ptr) :
    (list_add_tail h x a).next p = if p = x then a else if p = h.prev a then x else h.next p := by
  simp [list_add_tail]

theorem list_add_tail_prev (h : Heap) (x a p : Ptr) :
    (list_add_tail h x a).prev p = if p = a then x else if p = x then h.prev a else h.prev p := by
  simp [list_add_tail]

/-- Linking a new node before the first node of a cycle. -/
theorem cyc_list_add_tail {h : Heap} {a : Ptr} {rest : List Ptr} {x : Ptr}
    (hc : Cyc h (a :: rest)) (hnd : (a :: rest).Nodup) (hx : x ∉ a :: rest) :
    Cyc (list_add_tail h x a) (x :: a :: rest) := by
  have hs : Seg h a rest a := hc
  have hpa : rest.getLastD a = h.prev a := (seg_prev_last hs).symm
  have hxa : x ≠ a := by rintro rfl; exact hx (List.mem_cons_self _ _)
  have hmem : h.prev a ∈ a :: rest := hpa ▸ getLastD_mem rest a
  have hxe : h.prev a ≠ x := by rintro h1; exact hx (h1 ▸ hmem)
  refine ⟨⟨?_, ?_⟩, seg_retarget_end hs hnd hpa ⟨?_, ?_⟩ ?_ ?_⟩
  · simp [list_add_tail_next]
  · simp [list_add_tail_prev]
  · simp [list_add_tail_next, hxe]
  · simp [list_add_tail_prev, hxa]
  · intro p hp hpe
    have : p ≠ x := by rintro rfl; exact hx hp
    simp [list_add_tail_next, this, hpe]
  · intro p hp
    have h1 : p ≠ x := by rintro rfl; exact hx (List.mem_cons_of_mem _ hp)
    have h2 : p ≠ a := by rintro rfl; exact (List.nodup_cons.1 hnd).1 hp
    simp [list_add_tail_prev, h1, h2]

/-- Linking a new node into a queue before the node `post.headD head`. -/
theorem IsQueue.add_tail {h : Heap} {head : Ptr} {pre post : List Ptr} {x : Ptr}
    (hq : IsQueue h head (pre ++ post)) (hx : x ∉ head :: (pre ++ post)) (hx0 : x ≠ 0) :
    IsQueue (list_add_tail h x (post.headD head)) head (pre ++ x :: post) := by
  obtain ⟨h0, hnd, hc⟩ := hq
  have hperm : List.Perm (head :: (pre ++ x :: post)) (x :: head :: (pre ++ post)) := by
    refine List.Perm.trans (List.Perm.cons head List.perm_middle) (List.Perm.swap _ _ _)
  refine ⟨?_, ?_, ?_⟩
  · intro p hp
    have := hperm.mem_iff.1 hp
    rcases List.mem_cons.1 this with rfl | hp'
    · exact hx0
    · exact h0 p hp'
  · exact hperm.nodup_iff.2 (List.nodup_cons.2 ⟨hx, hnd⟩)
  · cases post with
    | nil =>
      simp only [List.append_nil, List.headD_nil] at hc hx hnd ⊢
      have := cyc_list_add_tail hc hnd hx
      have := (cyc_rotate _ [x] (head :: pre)).1 this
      simpa using this
    | cons b post =>
      simp only [List.headD_cons]
      have hc' : Cyc h (b :: (post ++ head :: pre)) := by
        have := (cyc_rotate h (head :: pre) (b :: post)).1 hc
        simpa using this
      have hnd' := isQueue_rotate_nodup hnd
      have hx' : x ∉ b :: (post ++ head :: pre) := by
        simp only [List.mem_cons, List.mem_append] at hx ⊢; tauto
      have := cyc_list_add_tail hc' hnd' hx'
      have := (cyc_rotate _ (x :: b :: post) (head :: pre)).1 this
      simpa using this

theorem IsQueue.add_tail_frame {h : Heap} {head : Ptr} {ns : List Ptr}
    (hq : IsQueue h head ns) {a : Ptr} (ha : a ∈ head :: ns) {x p : Ptr} (hpx : p ≠ x)
    (hp : p ∉ head :: ns) :
    (list_add_tail h x a).next p = h.next p ∧ (list_add_tail h x a).prev p = h.prev p := by
  have h1 : p ≠ a := by rintro rfl; exact hp ha
  have h2 : p ≠ h.prev a := by rintro rfl; exact hp (cyc_prev_mem hq.2.2 ha)
  simp [list_add_tail_next, list_add_tail_prev, hpx, h1, h2]

/-! ## `list_get_mid` -/

theorem nodup_concat_of_cons {head : Ptr} {ns : List Ptr} (hnd : (head :: ns).Nodup) :
    (ns ++ [head]).Nodup :=
  (List.perm_append_comm : List.Perm (ns ++ [head]) ([head] ++ ns)).nodup_iff.2 hnd

theorem getLastD_ne_of_nodup {a : Ptr} {m : Ptr} {ms : List Ptr} (hnd : (a :: m :: ms).Nodup) :
    (m :: ms).getLastD a ≠ a := by
  intro he
  have hmem := getLastD_mem ms m
  rw [List.getLastD_cons] at he
  rw [he] at hmem
  exact (List.nodup_cons.1 hnd).1 hmem

theorem getD_mid_shrink (m₁ : Ptr) (M : List Ptr) (m₂ d : Ptr) :
    (m₁ :: (M ++ [m₂])).getD ((M.length + 2 - 1) / 2) d = M.getD ((M.length - 1) / 2) m₁ := by
  cases M with
  | nil => simp
  | cons x xs =>
    have hk : (xs.length + 1 + 2 - 1) / 2 = (xs.length + 1 - 1) / 2 + 1 := by omega
    have hlt : (xs.length + 1 - 1) / 2 < (x :: xs).length := by simp; omega
    simp only [List.length_cons, hk, List.getD_cons_succ]
    rw [List.getD_eq_getElem _ _ (by simp; omega), List.getD_eq_getElem _ _ hlt]
    exact List.getElem_append_left hlt

theorem list_get_mid_loop_spec {h : Heap} (n : Nat) : ∀ (M : List Ptr) (left right : Ptr)
    (fuel : Nat), M.length = n → Seg h left M right → (left :: M).Nodup →
    (M ++ [right]).Nodup → M.length < fuel →
    list_get_mid_loop fuel h left right = some (M.getD ((M.length - 1) / 2) left) := by
  induction n using Nat.strong_induction_on with
  | _ n ih =>
    intro M left right fuel hn hs hl hr hf
    obtain ⟨fuel, rfl⟩ : ∃ k, fuel = k + 1 := ⟨fuel - 1, by omega⟩
    have hpr : h.prev right = M.getLastD left := seg_prev_last hs
    have hnl : h.next left = M.headD right := seg_next_first hs
    cases M with
    | nil =>
      simp only [List.getLastD_nil] at hpr
      simp [list_get_mid_loop, hpr]
    | cons m₁ t =>
      rcases List.eq_nil_or_concat t with rfl | ⟨M', m₂, rfl⟩
      · simp only [List.getLastD_cons, List.getLastD_nil, List.headD_cons] at hpr hnl
        simp [list_get_mid_loop, hpr, hnl]
      · simp only [List.concat_eq_append] at *
        have hpr' : h.prev right = m₂ := by
          rw [hpr, List.getLastD_cons, getLastD_concat]
        simp only [List.headD_cons] at hnl
        have h1 : m₂ ≠ left := by
          rintro rfl
          have := (List.nodup_cons.1 hl).1
          exact this (by simp)
        have h2 : m₂ ≠ m₁ := by
          rintro rfl
          have := (List.nodup_cons.1 (List.nodup_cons.1 hl).2).1
          exact this (by simp)
        have hs' : Seg h m₁ M' m₂ := by
          have := hs.2
          rw [seg_snoc] at this
          exact this.1
        have hl' : (m₁ :: M').Nodup := by
          have := (List.nodup_cons.1 hl).2
          rw [← List.cons_append] at this
          exact (List.nodup_append.1 this).1
        have hr' : (M' ++ [m₂]).Nodup := (List.nodup_cons.1 hl).2.of_cons
        rw [list_get_mid_loop, hpr', hnl, if_neg (by simp [h1, h2])]
        rw [ih M'.length (by simp at hn; omega) M' m₁ m₂ fuel rfl hs' hl' hr'
          (by simp at hf; omega)]
        have := getD_mid_shrink m₁ M' m₂ left
        have hlen : (m₁ :: (M' ++ [m₂])).length = M'.length + 2 := by simp
        rw [hlen, this]

theorem list_get_mid_eq {h : Heap} {head : Ptr} {ns : List Ptr} (hq : IsQueue h head ns)
    {fuel : Nat} (hf : ns.length < fuel) :
    list_get_mid fuel h head = some (ns.getD ((ns.length - 1) / 2) head) :=
  list_get_mid_loop_spec ns.length ns head head fuel rfl hq.seg hq.2.1
    (nodup_concat_of_cons hq.2.1) hf

/-! ## `list_empty` and `list_free_node` -/

theorem IsQueue.list_empty_iff {h : Heap} {head : Ptr} {ns : List Ptr} (hq : IsQueue h head ns) :
    list_empty h head = true ↔ ns = [] := by
  simp only [list_empty, decide_eq_true_eq, hq.next_head]
  cases ns with
  | nil => simp
  | cons n ns =>
    simp only [List.headD_cons, reduceCtorEq, iff_false]
    rintro rfl
    exact hq.head_not_mem (List.mem_cons_self _ _)

theorem IsQueue.mem_ne_zero {h : Heap} {head : Ptr} {ns : List Ptr} (hq : IsQueue h head ns)
    {x : Ptr} (hx : x ∈ ns) : x ≠ 0 := hq.1 x (List.mem_cons_of_mem _ hx)

@[simp] theorem list_free_node_value (h : Heap) (x : Ptr) :
    (list_free_node h x).value = h.value := by
  unfold list_free_node; split <;> rfl

theorem list_free_node_alive (h : Heap) {x : Ptr} (hx : x ≠ 0) (p : Ptr) :
    (list_free_node h x).alive p = if p = x then false else h.alive p := by
  simp [list_free_node, hx]

/-- Freeing a node of a queue leaves the queue of the other nodes. -/
theorem IsQueue.free_node {h : Heap} {head : Ptr} {pre : List Ptr} {x : Ptr} {post : List Ptr}
    (hq : IsQueue h head (pre ++ x :: post)) :
    IsQueue (list_free_node h x) head (pre ++ post) := by
  have hx : x ≠ 0 := hq.mem_ne_zero (by simp)
  rw [list_free_node, if_neg hx]
  exact hq.del_init.frame (fun _ _ => rfl) (fun _ _ => rfl)

theorem IsQueue.free_node_frame {h : Heap} {head : Ptr} {ns : List Ptr}
    (hq : IsQueue h head ns) {x : Ptr} (hx : x ∈ ns) {p : Ptr} (hp : p ∉ head :: ns) :
    (list_free_node h x).next p = h.next p ∧ (list_free_node h x).prev p = h.prev p := by
  rw [list_free_node, if_neg (hq.mem_ne_zero hx)]
  exact hq.del_init_frame hx hp

/-! ## `q_delete_mid` -/

theorem eraseIdx_split (ns : List Ptr) (k : Nat) (hk : k < ns.length) :
    ns = ns.take k ++ ns[k] :: ns.drop (k + 1) ∧ ns.eraseIdx k = ns.take k ++ ns.drop (k + 1) := by
  constructor
  · conv_lhs => rw [← List.take_append_drop k ns]
    rw [List.drop_eq_getElem_cons hk]
  · exact List.eraseIdx_eq_take_drop_succ ns k

/-- What `q_delete_mid` does to a well-formed queue: on the empty queue it returns
false and leaves the heap alone; otherwise it returns true, and unlinks and
frees the node at index `(n - 1) / 2`, nothing else. -/
theorem q_delete_mid_spec {h : Heap} {head : Ptr} {ns : List Ptr} (hq : IsQueue h head ns)
    {fuel : Nat} (hf : ns.length < fuel) :
    (ns = [] → q_delete_mid fuel h head = some (false, h)) ∧
    (ns ≠ [] → ∃ h', q_delete_mid fuel h head = some (true, h') ∧
      IsQueue h' head (ns.eraseIdx ((ns.length - 1) / 2)) ∧ h'.value = h.value ∧
      ∀ p, h'.alive p = if p = ns.getD ((ns.length - 1) / 2) head then false else h.alive p) := by
  constructor
  · intro hn
    have := hq.list_empty_iff.2 hn
    simp [q_delete_mid, this]
  · intro hn
    have he : ¬ (list_empty h head = true) := fun he => hn (hq.list_empty_iff.1 he)
    have hk : (ns.length - 1) / 2 < ns.length := by
      have : 0 < ns.length := List.length_pos.2 hn
      omega
    obtain ⟨hsplit, herase⟩ := eraseIdx_split ns _ hk
    have hmid : ns.getD ((ns.length - 1) / 2) head = ns[(ns.length - 1) / 2] :=
      List.getD_eq_getElem _ _ hk
    refine ⟨list_free_node h (ns[(ns.length - 1) / 2]), ?_, ?_, ?_, ?_⟩
    · rw [q_delete_mid, if_neg (by simp [hq.head_ne_zero, he]), list_get_mid_eq hq hf, hmid]
    · rw [herase]
      rw [hsplit] at hq
      exact hq.free_node
    · simp
    · intro p
      rw [hmid]
      exact list_free_node_alive h (hq.mem_ne_zero (List.getElem_mem _)) p

/-! ## `q_remove_head` and `q_remove_tail` -/

theorem q_remove_head_null (h : Heap) (sp : Option (Nat → Nat)) (bufsize : Nat) :
    q_remove_head h 0 sp bufsize = (none, h, sp) := by
  simp [q_remove_head]

theorem q_remove_tail_null (h : Heap) (sp : Option (Nat → Nat)) (bufsize : Nat) :
    q_remove_tail h 0 sp bufsize = (none, h, sp) := by
  simp [q_remove_tail]

theorem q_remove_head_empty {h : Heap} {head : Ptr} (hq : IsQueue h head [])
    (sp : Option (Nat → Nat)) (bufsize : Nat) :
    q_remove_head h head sp bufsize = (none, h, sp) := by
  simp [q_remove_head, hq.list_empty_iff.2 rfl]

theorem q_remove_tail_empty {h : Heap} {head : Ptr} (hq : IsQueue h head [])
    (sp : Option (Nat → Nat)) (bufsize : Nat) :
    q_remove_tail h head sp bufsize = (none, h, sp) := by
  simp [q_remove_tail, hq.list_empty_iff.2 rfl]

theorem q_remove_head_cons {h : Heap} {head x : Ptr} {rest : List Ptr}
    (hq : IsQueue h head (x :: rest)) (sp : Option (Nat → Nat)) (bufsize : Nat) :
    q_remove_head h head sp bufsize =
      (some x, list_del_init h x, sp.map fun buf => copyOut buf (h.value x) bufsize) := by
  have he : ¬ (list_empty h head = true) := fun he => by
    have := hq.list_empty_iff.1 he
    exact List.cons_ne_nil _ _ this
  have hn : h.next head = x := hq.next_head
  simp [q_remove_head, hq.head_ne_zero, he, hn]

theorem q_remove_tail_concat {h : Heap} {head x : Ptr} {rest : List Ptr}
    (hq : IsQueue h head (rest ++ [x])) (sp : Option (Nat → Nat)) (bufsize : Nat) :
    q_remove_tail h head sp bufsize =
      (some x, list_del_init h x, sp.map fun buf => copyOut buf (h.value x) bufsize) := by
  have he : ¬ (list_empty h head = true) := fun he => by
    have := hq.list_empty_iff.1 he
    simp at this
  have hn : h.prev head = x := by rw [hq.prev_head, getLastD_concat]
  simp [q_remove_tail, hq.head_ne_zero, he, hn]

theorem IsQueue.del_init_head {h : Heap} {head x : Ptr} {rest : List Ptr}
    (hq : IsQueue h head (x :: rest)) : IsQueue (list_del_init h x) head rest := by
  have := @IsQueue.del_init h head [] x rest (by simpa using hq)
  simpa using this

theorem IsQueue.del_init_last {h : Heap} {head x : Ptr} {rest : List Ptr}
    (hq : IsQueue h head (rest ++ [x])) : IsQueue (list_del_init h x) head rest := by
  have := @IsQueue.del_init h head rest x [] hq
  simpa using this

/-! ## The copy into the caller's buffer -/

theorem sizeMinusOne_eq {c : Nat} (h1 : 1 ≤ c) (h2 : c ≤ 2 ^ 64) : sizeMinusOne c = c - 1 := by
  unfold sizeMinusOne
  have : c + 2 ^ 64 - 1 = (c - 1) + 2 ^ 64 := by omega
  rw [this, Nat.add_mod_right]
  exact Nat.mod_eq_of_lt (by omega)

theorem copyOut_apply (buf : Nat → Nat) (p : List Nat) {c : Nat} (h1 : 1 ≤ c) (h2 : c ≤ 2 ^ 64)
    (i : Nat) :
    copyOut buf p c i = if i = c - 1 then 0 else if i < c - 1 then p.getD i 0 else buf i := by
  simp [copyOut, strncpy, sizeMinusOne_eq h1 h2]

theorem copyOut_leading (buf : Nat → Nat) (p : List Nat) {c : Nat} (h1 : 1 ≤ c) (h2 : c ≤ 2 ^ 64) :
    (List.range (min p.length (c - 1) + 1)).map (copyOut buf p c) = p.take (c - 1) ++ [0] := by
  apply List.ext_getElem
  · simp [List.length_take, Nat.min_comm]
  · intro i hi1 hi2
    simp only [List.length_map, List.length_range] at hi1
    simp only [List.getElem_map, List.getElem_range]
    rw [copyOut_apply buf p h1 h2]
    by_cases hlt : i < min p.length (c - 1)
    · have hi3 : i < (p.take (c - 1)).length := by simp [List.length_take]; omega
      rw [List.getElem_append_left hi3, List.getElem_take]
      have hic : i < c - 1 := by omega
      have hip : i < p.length := by omega
      rw [if_neg (by omega), if_pos hic, List.getD_eq_getElem _ _ hip]
    · have hie : i = min p.length (c - 1) := by omega
      have hlen : (p.take (c - 1)).length = i := by simp [List.length_take, hie, Nat.min_comm]
      rw [List.getElem_append_right (by omega)]
      simp only [hlen, Nat.sub_self, List.getElem_cons_zero]
      by_cases hc : i = c - 1
      · rw [if_pos hc]
      · have hic : i < c - 1 := by omega
        have hip : p.length ≤ i := by omega
        rw [if_neg hc, if_pos hic, List.getD_eq_default _ _ hip]

/-! ## `q_reverse` -/

theorem linked_swap {h h' : Heap} {a b : Ptr}
    (ha : h'.prev a = h.next a) (hb : h'.next b = h.prev b) (hl : Linked h a b) :
    Linked h' b a := by
  unfold Linked at *
  rw [ha, hb]; exact ⟨hl.2, hl.1⟩

/-- Exchanging the two links of every node turns a segment around. -/
theorem seg_reverse {h h' : Heap} {a : Ptr} {ns : List Ptr} {b : Ptr}
    (hn : ∀ p ∈ ns ++ [b], h'.next p = h.prev p) (hp : ∀ p ∈ a :: ns, h'.prev p = h.next p)
    (hs : Seg h a ns b) : Seg h' b ns.reverse a := by
  induction ns generalizing a with
  | nil =>
    exact linked_swap (hp a (by simp)) (hn b (by simp)) hs
  | cons n ns ih =>
    rw [List.reverse_cons, seg_snoc]
    refine ⟨ih ?_ ?_ hs.2, linked_swap (hp a (by simp)) (hn n (by simp)) hs.1⟩
    · intro p hp'; exact hn p (by simp at hp' ⊢; tauto)
    · intro p hp'; exact hp p (by simp at hp' ⊢; tauto)

theorem headD_mem_append (l : List Ptr) (d : Ptr) : l.headD d ∈ l ++ [d] := by
  cases l <;> simp

theorem q_reverse_loop_spec {h0 : Heap} {head : Ptr} : ∀ (rest : List Ptr) (hc : Heap) (a : Ptr)
    (fuel : Nat), Seg h0 a rest head → head ∉ rest → rest.Nodup → rest.length < fuel →
    (∀ p ∈ head :: rest, hc.next p = h0.next p) → (∀ p ∈ rest, hc.prev p = h0.prev p) →
    ∃ h' s, q_reverse_loop fuel hc head (rest.headD head) (h0.next (rest.headD head))
        = some (h', head, s) ∧
      (∀ p ∈ rest, h'.next p = h0.prev p ∧ h'.prev p = h0.next p) ∧
      (∀ p, p ∉ rest → h'.next p = hc.next p ∧ h'.prev p = hc.prev p) ∧
      h'.value = hc.value ∧ h'.alive = hc.alive := by
  intro rest
  induction rest with
  | nil =>
    intro hc a fuel _ _ _ hf _ _
    obtain ⟨fuel, rfl⟩ : ∃ k, fuel = k + 1 := ⟨fuel - 1, by simp at hf; omega⟩
    exact ⟨hc, h0.next head, by simp [q_reverse_loop], by simp, by simp, rfl, rfl⟩
  | cons n rest ih =>
    intro hc a fuel hs hm hnd hf hcn hcp
    obtain ⟨fuel, rfl⟩ : ∃ k, fuel = k + 1 := ⟨fuel - 1, by simp at hf; omega⟩
    simp only [List.mem_cons, not_or] at hm
    have hnn : n ∉ rest := (List.nodup_cons.1 hnd).1
    have hsafe : h0.next n = rest.headD head := seg_next_first hs.2
    have hsn : rest.headD head ≠ n := by
      intro he
      have := headD_mem_append rest head
      rw [he] at this
      simp only [List.mem_append, List.mem_singleton] at this
      rcases this with h1 | h1
      · exact hnn h1
      · exact hm.1 h1.symm
    have hsm : rest.headD head ∈ head :: n :: rest := by
      have := headD_mem rest head
      simp only [List.mem_cons] at this ⊢; tauto
    obtain ⟨h', s, hrun, hin, hout, hv, hal⟩ :=
      ih ((hc.setNext n (hc.prev n)).setPrev n (rest.headD head)) n fuel hs.2 hm.2
        (List.nodup_cons.1 hnd).2 (by simpa using hf)
        (by
          intro p hp
          have hpn : p ≠ n := by
            rintro rfl
            simp only [List.mem_cons] at hp
            rcases hp with h1 | h1
            · exact hm.1 h1.symm
            · exact hnn h1
          have : p ∈ head :: n :: rest := by simp only [List.mem_cons] at hp ⊢; tauto
          simp [hpn, hcn p this])
        (by
          intro p hp
          have hpn : p ≠ n := by rintro rfl; exact hnn hp
          simp [hpn, hcp p (List.mem_cons_of_mem _ hp)])
    refine ⟨h', s, ?_, ?_, ?_, ?_, ?_⟩
    · rw [List.headD_cons, q_reverse_loop, if_neg (Ne.symm hm.1)]
      simp only [hsafe]
      have : ((hc.setNext n (hc.prev n)).setPrev n (rest.headD head)).next (rest.headD head)
          = h0.next (rest.headD head) := by
        show (if rest.headD head = n then _ else hc.next (rest.headD head)) = _
        rw [if_neg hsn, hcn _ hsm]
      rw [this]
      exact hrun
    · intro p hp
      rcases List.mem_cons.1 hp with rfl | hp
      · have := hout p hnn
        simp only [Heap.setPrev_next, Heap.setNext_next, if_true, Heap.setPrev_prev] at this
        rw [this.1, this.2, hcp p (List.mem_cons_self _ _), hsafe]
        exact ⟨rfl, rfl⟩
      · exact hin p hp
    · intro p hp
      simp only [List.mem_cons, not_or] at hp
      have := hout p hp.2
      simp only [Heap.setPrev_next, Heap.setNext_next, Heap.setPrev_prev, Heap.setNext_prev,
        if_neg hp.1] at this
      exact this
    · rw [hv]; rfl
    · rw [hal]; rfl

/-- What `q_reverse` does to a well-formed queue. -/
theorem q_reverse_spec {h : Heap} {head : Ptr} {ns : List Ptr} (hq : IsQueue h head ns)
    {fuel : Nat} (hf : ns.length < fuel) :
    ∃ h', q_reverse fuel h head = some h' ∧ IsQueue h' head ns.reverse ∧
      h'.value = h.value ∧ h'.alive = h.alive ∧ (ns.length ≤ 1 → h' = h) ∧
      (∀ p ∈ head :: ns, h'.next p = h.prev p ∧ h'.prev p = h.next p) ∧
      (∀ p, p ∉ head :: ns → h'.next p = h.next p ∧ h'.prev p = h.prev p) := by
  have hswap : ∀ h' : Heap, (∀ p ∈ head :: ns, h'.next p = h.prev p ∧ h'.prev p = h.next p) →
      IsQueue h' head ns.reverse := by
    intro h' hsw
    refine ⟨?_, ?_, ?_⟩
    · intro p hp; apply hq.1 p; simpa using hp
    · have : List.Perm (head :: ns.reverse) (head :: ns) :=
        List.Perm.cons head (List.reverse_perm ns)
      exact this.nodup_iff.2 hq.2.1
    · refine seg_reverse (a := head) (b := head) ?_ ?_ hq.seg
      · intro p hp; exact (hsw p (by simp at hp ⊢; tauto)).1
      · intro p hp; exact (hsw p hp).2
  by_cases hn : ns.length ≤ 1
  · refine ⟨h, ?_, ?_, rfl, rfl, fun _ => rfl, ?_, fun _ _ => ⟨rfl, rfl⟩⟩
    · simp [q_reverse, hq.head_ne_zero, q_size_eq hq hf, hn]
    · have : ns.reverse = ns := by
        match ns, hn with
        | [], _ => rfl
        | [_], _ => rfl
      rw [this]; exact hq
    · have hc := hq.seg
      match ns, hn, hc with
      | [], _, hc =>
        intro p hp
        simp only [List.mem_singleton] at hp
        subst hp
        exact ⟨hc.1.trans hc.2.symm, hc.2.trans hc.1.symm⟩
      | [x], _, hc =>
        intro p hp
        have h1 : h.next head = x := hc.1.1
        have h2 : h.prev x = head := hc.1.2
        have h3 : h.next x = head := hc.2.1
        have h4 : h.prev head = x := hc.2.2
        simp only [List.mem_cons, List.mem_singleton, List.not_mem_nil, or_false] at hp
        rcases hp with rfl | rfl
        · exact ⟨h1.trans h4.symm, h4.trans h1.symm⟩
        · exact ⟨h3.trans h2.symm, h2.trans h3.symm⟩
  · obtain ⟨h', s, hrun, hin, hout, hv, hal⟩ :=
      @q_reverse_loop_spec h head ns h head fuel hq.seg hq.head_not_mem hq.nodup hf
        (fun _ _ => rfl) (fun _ _ => rfl)
    have hhead := hout head hq.head_not_mem
    have key : ∀ p ∈ head :: ns,
        ((h'.setNext head (h'.prev head)).setPrev head (h'.next head)).next p = h.prev p ∧
        ((h'.setNext head (h'.prev head)).setPrev head (h'.next head)).prev p = h.next p := by
      intro p hp
      rcases List.mem_cons.1 hp with hp1 | hp1
      · subst hp1; simp [hhead]
      · have hph : p ≠ head := by rintro rfl; exact hq.head_not_mem hp1
        simp [hph, hin p hp1]
    refine ⟨(h'.setNext head (h'.prev head)).setPrev head (h'.next head), ?_, hswap _ key, ?_, ?_,
      fun h1 => absurd h1 hn, key, ?_⟩
    · simp only [q_reverse, if_neg hq.head_ne_zero, q_size_eq hq hf, if_neg hn]
      rw [← hq.next_head] at hrun
      rw [hrun]
    · simp [hv]
    · simp [hal]
    · intro p hp
      simp only [List.mem_cons, not_or] at hp
      simp [hp.1, hout p hp.2]

theorem q_reverse_null (fuel : Nat) (h : Heap) : q_reverse fuel h 0 = some h := by
  simp [q_reverse]

/-! ## `q_swap` -/

theorem seg_of_fields_eq {h h' : Heap} (hn : h'.next = h.next) (hp : h'.prev = h.prev)
    {a : Ptr} {ns : List Ptr} {b : Ptr} (hs : Seg h a ns b) : Seg h' a ns b :=
  seg_frame (fun _ _ => by rw [hn]) (fun _ _ => by rw [hp]) hs

theorem getD_mem_of_lt (l : List Ptr) (i : Nat) (d : Ptr) (hi : i < l.length) :
    l.getD i d ∈ l := by
  rw [List.getD_eq_getElem _ _ hi]; exact List.getElem_mem _

theorem getElem_not_mem_take {l : List Ptr} (hnd : l.Nodup) (i : Nat) (hi : i < l.length) :
    l[i] ∉ l.take i := by
  obtain ⟨hsplit, _⟩ := eraseIdx_split l i hi
  rw [hsplit] at hnd
  intro hmem
  exact (List.nodup_append.1 hnd).2.2 hmem (List.mem_cons_self _ _)

theorem q_swap_loop_spec {head : Ptr} : ∀ (k : Nat) (rest : List Ptr) (hc : Heap) (a : Ptr),
    Seg hc a rest head → rest.Nodup → 2 * k ≤ rest.length →
    (q_swap_loop k hc (rest.headD head)).next = hc.next ∧
    (q_swap_loop k hc (rest.headD head)).prev = hc.prev ∧
    (q_swap_loop k hc (rest.headD head)).alive = hc.alive ∧
    (∀ i, i < k →
      (q_swap_loop k hc (rest.headD head)).value (rest.getD (2 * i) head)
        = hc.value (rest.getD (2 * i + 1) head) ∧
      (q_swap_loop k hc (rest.headD head)).value (rest.getD (2 * i + 1) head)
        = hc.value (rest.getD (2 * i) head)) ∧
    (∀ p, p ∉ rest.take (2 * k) → (q_swap_loop k hc (rest.headD head)).value p = hc.value p) := by
  intro k
  induction k with
  | zero =>
    intro rest hc a _ _ _
    simp [q_swap_loop]
  | succ k ih =>
    intro rest hc a hs hnd hlen
    match rest, hs, hnd, hlen with
    | [], _, _, hlen => simp at hlen
    | [_], _, _, hlen => simp at hlen; omega
    | x :: y :: rest', hs, hnd, hlen =>
      have hxy : x ≠ y := by
        rintro rfl
        exact (List.nodup_cons.1 hnd).1 (List.mem_cons_self _ _)
      have hx : x ∉ rest' := fun hm => (List.nodup_cons.1 hnd).1 (List.mem_cons_of_mem _ hm)
      have hy : y ∉ rest' := (List.nodup_cons.1 (List.nodup_cons.1 hnd).2).1
      have hnd' : rest'.Nodup := (List.nodup_cons.1 (List.nodup_cons.1 hnd).2).2
      have hnx : hc.next x = y := hs.2.1.1
      have hny : hc.next y = rest'.headD head := seg_next_first hs.2.2
      have hlen' : 2 * k ≤ rest'.length := by simp at hlen; omega
      have hstep : q_swap_loop (k + 1) hc ((x :: y :: rest').headD head)
          = q_swap_loop k ((hc.setValue x (hc.value y)).setValue y (hc.value x))
              (rest'.headD head) := by
        simp only [List.headD_cons, q_swap_loop, Heap.setValue_next, hnx, hny]
      obtain ⟨i1, i2, i3, i4, i5⟩ :=
        ih rest' ((hc.setValue x (hc.value y)).setValue y (hc.value x)) y
          (@seg_of_fields_eq hc ((hc.setValue x (hc.value y)).setValue y (hc.value x)) rfl rfl
            y rest' head hs.2.2) hnd' hlen'
      rw [hstep]
      have hxt : x ∉ rest'.take (2 * k) := fun hm => hx (List.mem_of_mem_take hm)
      have hyt : y ∉ rest'.take (2 * k) := fun hm => hy (List.mem_of_mem_take hm)
      refine ⟨i1, i2, i3, ?_, ?_⟩
      · intro i hi
        cases i with
        | zero =>
          simp only [Nat.mul_zero, List.getD_cons_zero, Nat.zero_add, List.getD_cons_succ]
          rw [i5 x hxt, i5 y hyt]
          simp [hxy]
        | succ j =>
          have e1 : 2 * (j + 1) = (2 * j + 1) + 1 := by omega
          have e2 : 2 * (j + 1) + 1 = (2 * j + 1 + 1) + 1 := by omega
          rw [e2, e1]
          simp only [List.getD_cons_succ]
          obtain ⟨j1, j2⟩ := i4 j (by omega)
          have m1 : rest'.getD (2 * j) head ∈ rest' := getD_mem_of_lt _ _ _ (by omega)
          have m2 : rest'.getD (2 * j + 1) head ∈ rest' := getD_mem_of_lt _ _ _ (by omega)
          have n1 : ∀ q ∈ rest', q ≠ x ∧ q ≠ y := fun q hq =>
            ⟨fun e => hx (e ▸ hq), fun e => hy (e ▸ hq)⟩
          rw [j1, j2]
          obtain ⟨a1, a2⟩ := n1 _ m1
          obtain ⟨b1, b2⟩ := n1 _ m2
          generalize rest'.getD (2 * j) head = q1 at a1 a2
          generalize rest'.getD (2 * j + 1) head = q2 at b1 b2
          simp [a1, a2, b1, b2]
      · intro p hp
        have e : 2 * (k + 1) = (2 * k + 1) + 1 := by omega
        rw [e] at hp
        simp only [List.take_succ_cons, List.mem_cons, not_or] at hp
        rw [i5 p hp.2.2]
        simp [hp.1, hp.2.1]

/-- What `q_swap` does to a well-formed queue. -/
theorem q_swap_spec {h : Heap} {head : Ptr} {ns : List Ptr} (hq : IsQueue h head ns)
    {fuel : Nat} (hf : ns.length < fuel) :
    ∃ h', q_swap fuel h head = some h' ∧ IsQueue h' head ns ∧
      h'.next = h.next ∧ h'.prev = h.prev ∧ h'.alive = h.alive ∧
      (∀ i, i < ns.length / 2 →
        h'.value (ns.getD (2 * i) head) = h.value (ns.getD (2 * i + 1) head) ∧
        h'.value (ns.getD (2 * i + 1) head) = h.value (ns.getD (2 * i) head)) ∧
      (∀ p, p ∉ ns.take (2 * (ns.length / 2)) → h'.value p = h.value p) := by
  by_cases hn : ns.length ≤ 1
  · refine ⟨h, ?_, hq, rfl, rfl, rfl, ?_, fun _ _ => rfl⟩
    · simp [q_swap, hq.head_ne_zero, q_size_eq hq hf, hn]
    · intro i hi
      have : ns.length / 2 = 0 := by omega
      omega
  · obtain ⟨i1, i2, i3, i4, i5⟩ :=
      @q_swap_loop_spec head (ns.length / 2) ns h head hq.seg hq.nodup (by omega)
    rw [← hq.next_head] at i1 i2 i3 i4 i5
    refine ⟨q_swap_loop (ns.length / 2) h (h.next head), ?_, ?_, i1, i2, i3, i4, i5⟩
    · simp [q_swap, hq.head_ne_zero, q_size_eq hq hf, hn]
    · exact hq.frame (fun _ _ => by rw [i1]) (fun _ _ => by rw [i2])

theorem q_swap_null (fuel : Nat) (h : Heap) : q_swap fuel h 0 = some h := by
  simp [q_swap]

/-! ## `strcmp` -/

theorem strcmp_eq_zero_iff (a b : List Nat) : strcmp a b = 0 ↔ a = b := by
  induction a generalizing b with
  | nil => cases b <;> simp [strcmp]
  | cons x xs ih =>
    cases b with
    | nil => simp [strcmp]
    | cons y ys =>
      simp only [strcmp]
      split_ifs with h1 h2
      · simp; omega
      · simp; omega
      · have : x = y := by omega
        simp [ih, this]

/-! ## `q_delete_dup` -/

theorem IsQueue.headD_ne_head_iff {h : Heap} {head : Ptr} {pre post : List Ptr}
    (hq : IsQueue h head (pre ++ post)) : post.headD head ≠ head ↔ post ≠ [] := by
  cases post with
  | nil => simp
  | cons y ys =>
    simp only [List.headD_cons, ne_eq, reduceCtorEq, not_false_eq_true, iff_true]
    rintro rfl
    exact hq.head_not_mem (by simp)

theorem q_delete_dup_run_spec {head : Ptr} : ∀ (post : List Ptr) (cur : Ptr) (h : Heap)
    (pre : List Ptr) (fuel : Nat), IsQueue h head (pre ++ cur :: post) → post.length < fuel →
    ∃ h' del c' post', q_delete_dup_run fuel h head cur = some (h', c') ∧
      cur :: post = del ++ c' :: post' ∧ IsQueue h' head (pre ++ c' :: post') ∧
      h'.value = h.value ∧ (∀ d ∈ del, h.value d = h.value c') ∧
      (∀ p, p ∉ del → h'.alive p = h.alive p) ∧
      (∀ z rest, post' = z :: rest → h.value c' ≠ h.value z) := by
  intro post
  induction post with
  | nil =>
    intro cur h pre fuel hq hf
    obtain ⟨fuel, rfl⟩ : ∃ k, fuel = k + 1 := ⟨fuel - 1, by simp at hf; omega⟩
    have hn : h.next cur = head := hq.next_mid
    refine ⟨h, [], cur, [], ?_, rfl, hq, rfl, by simp, fun _ _ => rfl, by simp⟩
    simp [q_delete_dup_run, hn]
  | cons y post ih =>
    intro cur h pre fuel hq hf
    obtain ⟨fuel, rfl⟩ : ∃ k, fuel = k + 1 := ⟨fuel - 1, by simp at hf; omega⟩
    have hn : h.next cur = y := hq.next_mid
    have hyh : y ≠ head := by rintro rfl; exact hq.head_not_mem (by simp)
    by_cases hv : h.value cur = h.value y
    · have hq1 : IsQueue (list_free_node h cur) head (pre ++ y :: post) := hq.free_node
      obtain ⟨h', del, c', post', hrun, hsplit, hq', hval, hdel, halive, hexit⟩ :=
        ih y (list_free_node h cur) pre fuel hq1 (by simpa using hf)
      have hcur0 : cur ≠ 0 := hq.mem_ne_zero (by simp)
      have hyv : h.value y = h.value c' := by
        cases del with
        | nil => simp at hsplit; rw [hsplit.1]
        | cons e del =>
          simp at hsplit
          rw [hsplit.1]
          simpa using hdel e (by simp)
      refine ⟨h', cur :: del, c', post', ?_, by rw [hsplit]; rfl, hq', by simpa using hval, ?_,
        ?_, by simpa using hexit⟩
      · rw [q_delete_dup_run, hn, if_pos ⟨hyh, (strcmp_eq_zero_iff _ _).2 hv⟩]
        exact hrun
      · intro d hd
        rcases List.mem_cons.1 hd with rfl | hd
        · rw [hv, hyv]
        · simpa using hdel d hd
      · intro p hp
        simp only [List.mem_cons, not_or] at hp
        rw [halive p hp.2, list_free_node_alive h hcur0, if_neg hp.1]
    · refine ⟨h, [], cur, y :: post, ?_, rfl, hq, rfl, by simp, fun _ _ => rfl, ?_⟩
      · rw [q_delete_dup_run, hn, if_neg]
        rintro ⟨_, h2⟩
        exact hv ((strcmp_eq_zero_iff _ _).1 h2)
      · intro z rest hz
        simp only [List.cons.injEq] at hz
        rw [← hz.1]; exact hv

theorem sq_add_two_le {P t : Nat} (ht : P + 2 ≤ t) : P * P + 4 * P + 4 ≤ t * t := by
  have h1 : (P + 2) * (P + 2) ≤ t * t := Nat.mul_le_mul ht ht
  have h2 : (P + 2) * (P + 2) = P * P + 4 * P + 4 := by ring
  omega

theorem q_delete_dup_loop_spec {head : Ptr} : ∀ (fuel : Nat) (pre rest : List Ptr) (h : Heap),
    IsQueue h head (pre ++ rest) →
    (pre.length + rest.length) * (pre.length + rest.length) + rest.length + 1 ≤ fuel →
    ∃ h' ns', q_delete_dup_loop fuel h head (rest.headD head) = some h' ∧
      IsQueue h' head ns' ∧ ns'.Sublist (pre ++ rest) ∧ h'.value = h.value ∧
      (∀ d ∈ pre ++ rest, d ∉ ns' → ∃ d' ∈ pre ++ rest, d' ≠ d ∧ h.value d' = h.value d) ∧
      (∀ p ∈ ns', h'.alive p = h.alive p) := by
  intro fuel
  induction fuel with
  | zero => intro pre rest h _ hf; omega
  | succ fuel ih =>
    intro pre rest h hq hf
    cases rest with
    | nil =>
      refine ⟨h, pre, ?_, by simpa using hq, by simp, rfl, ?_, fun _ _ => rfl⟩
      · simp [q_delete_dup_loop]
      · intro d hd hd'
        simp only [List.append_nil] at hd
        exact absurd hd hd'
    | cons x rest1 =>
      have hxh : x ≠ head := by rintro rfl; exact hq.head_not_mem (by simp)
      have hn : h.next x = rest1.headD head := hq.next_mid
      by_cases hc : rest1.headD head ≠ head ∧
          strcmp (h.value x) (h.value (rest1.headD head)) = 0
      · have hfr : rest1.length < fuel := by
          simp only [List.length_cons] at hf
          generalize (pre.length + (rest1.length + 1)) * (pre.length + (rest1.length + 1)) = T
            at hf
          omega
        obtain ⟨h1, del, c', post', hrun, hsplit, hq1, hval1, hdel, halive1, hexit⟩ :=
          q_delete_dup_run_spec rest1 x h pre fuel hq hfr
        have hdne : del ≠ [] := by
          rintro rfl
          simp only [List.nil_append, List.cons.injEq] at hsplit
          obtain ⟨rfl, rfl⟩ := hsplit
          cases rest1 with
          | nil => exact hc.1 rfl
          | cons z r => exact hexit z r rfl ((strcmp_eq_zero_iff _ _).1 hc.2)
        have hq2 : IsQueue (list_free_node h1 c') head (pre ++ post') := hq1.free_node
        have hn1 : h1.next c' = post'.headD head := hq1.next_mid
        have hlen : rest1.length + 1 = del.length + (post'.length + 1) := by
          have := congrArg List.length hsplit
          simpa using this
        have hdl : 1 ≤ del.length := List.length_pos.2 hdne
        have hnd : (pre ++ (del ++ c' :: post')).Nodup := by
          rw [← hsplit]; exact hq.nodup
        have n1 := List.nodup_append.1 hnd
        have n2 := List.nodup_append.1 n1.2.1
        have hc'del : c' ∉ del := fun hm => n2.2.2 hm (List.mem_cons_self _ _)
        have hc'post : c' ∉ post' := (List.nodup_cons.1 n2.2.1).1
        have hc'pre : c' ∉ pre := fun hm => n1.2.2 hm (by simp)
        have hdelpre : ∀ d ∈ del, d ∉ pre := fun d hd hm => n1.2.2 hm (by simp [hd])
        have hdelpost : ∀ d ∈ del, d ∉ post' := fun d hd hm =>
          n2.2.2 hd (List.mem_cons_of_mem _ hm)
        have hc'0 : c' ≠ 0 := hq1.mem_ne_zero (by simp)
        have key : ∃ pre2 rest2, pre2 ++ rest2 = pre ++ post' ∧
            (list_free_node h1 c').next (h1.next c') = rest2.headD head ∧
            (pre2.length + rest2.length) * (pre2.length + rest2.length) + rest2.length + 1
              ≤ fuel := by
          cases post' with
          | nil =>
            refine ⟨[], pre, by simp, ?_, ?_⟩
            · rw [hn1, List.headD_nil, hq2.next_head, List.append_nil]
            · simp only [List.length_cons, List.length_nil] at hf hlen ⊢
              have := @sq_add_two_le pre.length (pre.length + (rest1.length + 1)) (by omega)
              generalize (pre.length + (rest1.length + 1)) * (pre.length + (rest1.length + 1))
                = T at hf this
              have e : (0 + pre.length) * (0 + pre.length) = pre.length * pre.length := by
                rw [Nat.zero_add]
              rw [e]
              generalize pre.length * pre.length = S at this ⊢
              omega
          | cons z post2 =>
            refine ⟨pre ++ [z], post2, by simp, ?_, ?_⟩
            · rw [hn1, List.headD_cons]
              exact hq2.next_mid
            · simp only [List.length_cons, List.length_append, List.length_nil] at hf hlen ⊢
              have hle : pre.length + (0 + 1) + post2.length ≤ pre.length + (rest1.length + 1) := by
                omega
              have := Nat.mul_le_mul hle hle
              generalize (pre.length + (rest1.length + 1)) * (pre.length + (rest1.length + 1))
                = T at hf this
              generalize (pre.length + (0 + 1) + post2.length) *
                (pre.length + (0 + 1) + post2.length) = S at this ⊢
              omega
        obtain ⟨pre2, rest2, hsp2, hnext2, hfuel2⟩ := key
        obtain ⟨h', ns', hrun', hq', hsub, hval, htw, hal⟩ :=
          ih pre2 rest2 (list_free_node h1 c') (by rw [hsp2]; exact hq2) hfuel2
        rw [hsp2] at hsub htw
        have hsubL : (pre ++ post').Sublist (pre ++ x :: rest1) := by
          rw [hsplit]
          refine List.Sublist.append_left ?_ pre
          exact (List.sublist_cons_self c' post').trans (List.sublist_append_right del _)
        have hval2 : (list_free_node h1 c').value = h.value := by simp [hval1]
        refine ⟨h', ns', ?_, hq', hsub.trans hsubL, by rw [hval, hval2], ?_, ?_⟩
        · rw [List.headD_cons, q_delete_dup_loop, if_neg hxh]
          simp only []
          rw [hn, if_pos hc, hrun]
          simp only []
          rw [hnext2]
          exact hrun'
        · intro d hd hdn
          by_cases hdL : d ∈ pre ++ post'
          · obtain ⟨d', hd', hne, hv⟩ := htw d hdL hdn
            exact ⟨d', hsubL.subset hd', hne, by rw [← hval2]; exact hv⟩
          · rw [hsplit] at hd ⊢
            simp only [List.mem_append, List.mem_cons, not_or] at hd hdL
            have hdd : d ∈ del ∨ d = c' := by tauto
            rcases hdd with hdd | rfl
            · refine ⟨c', by simp, ?_, (hdel d hdd).symm⟩
              rintro rfl; exact hc'del hdd
            · obtain ⟨e, hemem⟩ := List.exists_mem_of_ne_nil del hdne
              refine ⟨e, by simp [hemem], ?_, hdel e hemem⟩
              rintro rfl; exact hc'del hemem
        · intro p hp
          have hpL : p ∈ pre ++ post' := hsub.subset hp
          have hpc : p ≠ c' := by
            rintro rfl
            simp only [List.mem_append] at hpL
            rcases hpL with h1 | h1
            · exact hc'pre h1
            · exact hc'post h1
          have hpd : p ∉ del := by
            intro hm
            simp only [List.mem_append] at hpL
            rcases hpL with h1 | h1
            · exact hdelpre p hm h1
            · exact hdelpost p hm h1
          rw [hal p hp, list_free_node_alive h1 hc'0, if_neg hpc, halive1 p hpd]
      · have hq' : IsQueue h head ((pre ++ [x]) ++ rest1) := by simpa using hq
        obtain ⟨h', ns', hrun, hq'', hsub, hval, htw, hal⟩ :=
          ih (pre ++ [x]) rest1 h hq' (by
            simp only [List.length_cons, List.length_append, List.length_nil] at hf ⊢
            have e : pre.length + (0 + 1) + rest1.length = pre.length + (rest1.length + 1) := by
              omega
            rw [e]
            generalize (pre.length + (rest1.length + 1)) * (pre.length + (rest1.length + 1)) = T
              at hf ⊢
            omega)
        refine ⟨h', ns', ?_, hq'', by simpa using hsub, hval, by simpa using htw, hal⟩
        rw [List.headD_cons, q_delete_dup_loop, if_neg hxh]
        simp only []
        rw [hn, if_neg hc]
        exact hrun

/-! ## `list_cut_position` -/

@[simp] theorem list_cut_position_value (h : Heap) (head_to head_from node : Ptr) :
    (list_cut_position h head_to head_from node).value = h.value := by
  unfold list_cut_position; simp only []; split_ifs <;> rfl

@[simp] theorem list_cut_position_alive (h : Heap) (head_to head_from node : Ptr) :
    (list_cut_position h head_to head_from node).alive = h.alive := by
  unfold list_cut_position; simp only []; split_ifs <;> rfl

theorem list_cut_position_next (h : Heap) (head_to head node : Ptr)
    (he : h.next node ≠ head) (hto : h.next head_to = head_to) (htn : head_to ≠ node)
    (p : Ptr) :
    (list_cut_position h head_to head node).next p =
      if p = h.prev head then head_to else if p = head_to then h.next node
      else if p = node then head else h.next p := by
  simp [list_cut_position, he, hto, htn]

theorem list_cut_position_prev (h : Heap) (head_to head node : Ptr)
    (he : h.next node ≠ head) (hto : h.next head_to = head_to) (htn : head_to ≠ node)
    (p : Ptr) :
    (list_cut_position h head_to head node).prev p =
      if p = head_to then h.prev head else if p = h.next node then head_to
      else if p = head then node else h.prev p := by
  simp [list_cut_position, he, hto, htn]

set_option maxHeartbeats 1000000 in
/-- The cut of `q_sort`: the nodes up to and including `node` stay at `head`, the
nodes after `node` move to the freshly initialised `head_to`. -/
theorem IsQueue.cut_position {h : Heap} {head : Ptr} {pre : List Ptr} {node : Ptr}
    {post : List Ptr} (hq : IsQueue h head (pre ++ node :: post)) {head_to : Ptr}
    (hto : head_to ∉ head :: (pre ++ node :: post)) (hto0 : head_to ≠ 0)
    (hself : h.next head_to = head_to ∧ h.prev head_to = head_to) :
    IsQueue (list_cut_position h head_to head node) head (pre ++ [node]) ∧
    IsQueue (list_cut_position h head_to head node) head_to post := by
  obtain ⟨h0, hnd, hc⟩ := hq
  have hq : IsQueue h head (pre ++ node :: post) := ⟨h0, hnd, hc⟩
  have hs : Seg h head (pre ++ node :: post) head := hc
  rw [seg_append] at hs
  have hnx : h.next node = post.headD head := hq.next_mid
  have hhn : head ≠ node := by rintro rfl; exact hq.head_not_mem (by simp)
  have hth : head_to ≠ head := by rintro rfl; exact hto (by simp)
  have htn : head_to ≠ node := by rintro rfl; exact hto (by simp)
  have n1 := List.nodup_cons.1 hnd
  have n2 := List.nodup_append.1 n1.2
  have n3 := List.nodup_cons.1 n2.2.1
  have hfront : IsQueue h head (pre ++ [node]) → IsQueue h head_to [] →
      post = [] → IsQueue (list_cut_position h head_to head node) head (pre ++ [node]) ∧
        IsQueue (list_cut_position h head_to head node) head_to post := by
    intro h1 h2 hp
    subst hp
    have : list_cut_position h head_to head node = h := by
      simp [list_cut_position, hnx]
    rw [this]; exact ⟨h1, h2⟩
  cases post with
  | nil =>
    exact hfront hq ((isQueue_nil_iff h head_to).2 ⟨hto0, hself.1, hself.2⟩) rfl
  | cons f m =>
    have he : h.next node ≠ head := by
      rw [hnx]; simp only [List.headD_cons]
      rintro rfl; exact hq.head_not_mem (by simp)
    have hN := list_cut_position_next h head_to head node he hself.1 htn
    have hP := list_cut_position_prev h head_to head node he hself.1 htn
    simp only [List.headD_cons] at hnx
    rw [hnx] at hN hP
    have hlast : m.getLastD f = h.prev head := by
      rw [hq.prev_head, getLastD_append_cons, List.getLastD_cons]
    have hgm : h.prev head ∈ f :: m := hlast ▸ getLastD_mem m f
    have hsf : Seg h f m head := hs.2.2
    have hfh : f ≠ head := by rintro rfl; exact hq.head_not_mem (by simp)
    have hft : f ≠ head_to := by rintro rfl; exact hto (by simp)
    have dfm : ∀ p ∈ f :: m, p ≠ head ∧ p ≠ node ∧ p ≠ head_to ∧ p ∉ pre := by
      intro p hp
      refine ⟨?_, ?_, ?_, ?_⟩
      · rintro rfl; exact n1.1 (by simp only [List.mem_append, List.mem_cons] at hp ⊢; tauto)
      · rintro rfl; exact n3.1 hp
      · rintro rfl; exact hto (by simp only [List.mem_append, List.mem_cons] at hp ⊢; tauto)
      · intro hm; exact n2.2.2 hm (List.mem_cons_of_mem _ hp)
    generalize list_cut_position h head_to head node = h' at hN hP ⊢
    generalize h.prev head = g at *
    refine ⟨⟨?_, ?_, ?_⟩, ⟨?_, ?_, ?_⟩⟩
    · intro p hp; apply h0
      simp only [List.mem_cons, List.mem_append, List.mem_singleton, List.not_mem_nil,
        or_false] at hp ⊢
      tauto
    · refine List.nodup_cons.2 ⟨fun hm => n1.1 ?_, ?_⟩
      · simp only [List.mem_append, List.mem_singleton, List.mem_cons] at hm ⊢; tauto
      · exact nodup_concat_of_cons
          (List.nodup_cons.2 ⟨fun hm => n2.2.2 hm (List.mem_cons_self _ _), n2.1⟩)
    · show Seg h' head (pre ++ [node]) head
      rw [seg_snoc]
      refine ⟨seg_frame ?_ ?_ hs.1, ⟨?_, ?_⟩⟩
      · intro p hp
        have h1 : p ≠ g := by
          rintro rfl
          have := dfm p hgm
          simp only [List.mem_cons] at hp
          rcases hp with hp | hp
          · exact this.1 hp
          · exact this.2.2.2 hp
        have h2 : p ≠ head_to := by
          rintro rfl; exact hto (by simp only [List.mem_append, List.mem_cons] at hp ⊢; tauto)
        have h3 : p ≠ node := by
          rintro rfl
          simp only [List.mem_cons] at hp
          rcases hp with hp | hp
          · exact hhn hp.symm
          · exact n2.2.2 hp (List.mem_cons_self _ _)
        rw [hN]; simp [h1, h2, h3]
      · intro p hp
        have h1 : p ≠ head_to := by
          rintro rfl
          exact hto (by
            simp only [List.mem_append, List.mem_cons, List.mem_singleton] at hp ⊢; tauto)
        have h2 : p ≠ f := by
          rintro rfl
          simp only [List.mem_append, List.mem_singleton] at hp
          rcases hp with hp | hp
          · exact (dfm p (List.mem_cons_self _ _)).2.2.2 hp
          · exact (dfm p (List.mem_cons_self _ _)).2.1 hp
        have h3 : p ≠ head := by
          rintro rfl
          exact n1.1 (by
            simp only [List.mem_append, List.mem_cons, List.mem_singleton] at hp ⊢; tauto)
        rw [hP]; simp [h1, h2, h3]
      · have h1 : node ≠ g := fun e => (dfm g hgm).2.1 e.symm
        rw [hN]; simp [h1, Ne.symm htn]
      · rw [hP]; simp [Ne.symm hth, Ne.symm hfh]
    · intro p hp
      rcases List.mem_cons.1 hp with rfl | hp
      · exact hto0
      · exact h0 p (List.mem_cons_of_mem _
          (List.mem_append_right _ (List.mem_cons_of_mem _ hp)))
    · exact List.nodup_cons.2 ⟨fun hm => hto (List.mem_cons_of_mem _
        (List.mem_append_right _ (List.mem_cons_of_mem _ hm))), n3.2⟩
    · show Seg h' head_to (f :: m) head_to
      refine ⟨⟨?_, ?_⟩, seg_retarget_end hsf n3.2 hlast ⟨?_, ?_⟩ ?_ ?_⟩
      · have h1 : head_to ≠ g := fun e => (dfm g hgm).2.2.1 e.symm
        rw [hN]; simp [h1]
      · rw [hP]; simp [hft]
      · rw [hN]; simp
      · rw [hP]; simp
      · intro p hp hpg
        have := dfm p hp
        rw [hN]; simp [hpg, this.2.2.1, this.2.1]
      · intro p hp
        have := dfm p (List.mem_cons_of_mem _ hp)
        have h2 : p ≠ f := by rintro rfl; exact (List.nodup_cons.1 n3.2).1 hp
        rw [hP]; simp [this.2.2.1, h2, this.1]

theorem IsQueue.cut_position_frame {h : Heap} {head : Ptr} {pre : List Ptr} {node : Ptr}
    {post : List Ptr} (hq : IsQueue h head (pre ++ node :: post)) {head_to : Ptr}
    (hto : head_to ∉ head :: (pre ++ node :: post))
    (hself : h.next head_to = head_to) {p : Ptr} (hp : p ∉ head :: (pre ++ node :: post))
    (hpt : p ≠ head_to) :
    (list_cut_position h head_to head node).next p = h.next p ∧
    (list_cut_position h head_to head node).prev p = h.prev p := by
  by_cases he : h.next node = head
  · simp [list_cut_position, he]
  · have htn : head_to ≠ node := by rintro rfl; exact hto (by simp)
    have hm1 : h.prev head ∈ head :: (pre ++ node :: post) :=
      cyc_prev_mem hq.2.2 (List.mem_cons_self _ _)
    have hm2 : h.next node ∈ head :: (pre ++ node :: post) :=
      cyc_next_mem hq.2.2 (by simp)
    have h1 : p ≠ node := by rintro rfl; exact hp (by simp)
    have h2 : p ≠ head := by rintro rfl; exact hp (by simp)
    have h3 : p ≠ h.prev head := by rintro rfl; exact hp hm1
    have h4 : p ≠ h.next node := by rintro rfl; exact hp hm2
    rw [list_cut_position_next h head_to head node he hself htn,
      list_cut_position_prev h head_to head node he hself htn]
    simp [h1, h2, h3, h4, hpt]

/-! ## `list_splice_tail_init` -/

@[simp] theorem list_splice_tail_init_value (h : Heap) (list head : Ptr) :
    (list_splice_tail_init h list head).value = h.value := by
  unfold list_splice_tail_init list_splice_tail; simp only []; split_ifs <;> rfl

@[simp] theorem list_splice_tail_init_alive (h : Heap) (list head : Ptr) :
    (list_splice_tail_init h list head).alive = h.alive := by
  unfold list_splice_tail_init list_splice_tail; simp only []; split_ifs <;> rfl

theorem list_splice_tail_init_next (h : Heap) (list head : Ptr) (he : h.next list ≠ list)
    (p : Ptr) :
    (list_splice_tail_init h list head).next p =
      if p = list then list else if p = h.prev head then h.next list
      else if p = h.prev list then head else h.next p := by
  simp [list_splice_tail_init, list_splice_tail, list_empty, he]

theorem list_splice_tail_init_prev (h : Heap) (list head : Ptr) (he : h.next list ≠ list)
    (p : Ptr) :
    (list_splice_tail_init h list head).prev p =
      if p = list then list else if p = h.next list then h.prev head
      else if p = head then h.prev list else h.prev p := by
  simp [list_splice_tail_init, list_splice_tail, list_empty, he]

/-- The remainder flush of `merge`: all nodes of `list` are appended to the queue at
`head`, and `list` is left empty. -/
theorem IsQueue.splice_tail_init {h : Heap} {head : Ptr} {l₁ : List Ptr} {list : Ptr}
    {l₂ : List Ptr} (hq₁ : IsQueue h head l₁) (hq₂ : IsQueue h list l₂)
    (hd : ∀ p ∈ head :: l₁, p ∉ list :: l₂) :
    IsQueue (list_splice_tail_init h list head) head (l₁ ++ l₂) ∧
    IsQueue (list_splice_tail_init h list head) list [] := by
  have hlh : list ∉ head :: l₁ := fun hm => hd list hm (List.mem_cons_self _ _)
  cases l₂ with
  | nil =>
    have hn : h.next list = list := hq₂.next_head
    have hp : h.prev list = list := hq₂.prev_head
    have hN : ∀ p, (list_splice_tail_init h list head).next p = h.next p := by
      intro p
      by_cases hpl : p = list
      · subst hpl; simp [list_splice_tail_init, list_splice_tail, list_empty, hn]
      · simp [list_splice_tail_init, list_splice_tail, list_empty, hn, hpl]
    have hP : ∀ p, (list_splice_tail_init h list head).prev p = h.prev p := by
      intro p
      by_cases hpl : p = list
      · subst hpl; simp [list_splice_tail_init, list_splice_tail, list_empty, hn, hp]
      · simp [list_splice_tail_init, list_splice_tail, list_empty, hn, hpl]
    rw [List.append_nil]
    exact ⟨hq₁.frame (fun p _ => hN p) (fun p _ => hP p),
      hq₂.frame (fun p _ => hN p) (fun p _ => hP p)⟩
  | cons f m =>
    have he : h.next list ≠ list := by
      rw [hq₂.next_head]; simp only [List.headD_cons]
      rintro rfl; exact hq₂.head_not_mem (List.mem_cons_self _ _)
    have hnl : h.next list = f := hq₂.next_head
    have hpl : m.getLastD f = h.prev list := by
      rw [hq₂.prev_head, List.getLastD_cons]
    have hph : l₁.getLastD head = h.prev head := hq₁.prev_head.symm
    have hN := list_splice_tail_init_next h list head he
    have hP := list_splice_tail_init_prev h list head he
    rw [hnl] at hN hP
    have hem : h.prev head ∈ head :: l₁ := hph ▸ getLastD_mem l₁ head
    have hgm : h.prev list ∈ f :: m := hpl ▸ getLastD_mem m f
    have hs₁ : Seg h head l₁ head := hq₁.seg
    have hs₂ : Seg h f m list := hq₂.seg.2
    have hfl : f ≠ list := by rintro rfl; exact hq₂.head_not_mem (List.mem_cons_self _ _)
    have d1 : ∀ p ∈ head :: l₁, p ≠ list ∧ p ∉ f :: m := fun p hp =>
      ⟨fun e => hd p hp (by simp [e]), fun hm => hd p hp (List.mem_cons_of_mem _ hm)⟩
    have d2 : ∀ p ∈ f :: m, p ≠ list ∧ p ∉ head :: l₁ := fun p hp =>
      ⟨fun e => hq₂.head_not_mem (e ▸ hp), fun hm => hd p hm (List.mem_cons_of_mem _ hp)⟩
    generalize list_splice_tail_init h list head = h' at hN hP ⊢
    generalize h.prev head = e at *
    generalize h.prev list = g at *
    refine ⟨⟨?_, ?_, ?_⟩, ?_⟩
    · intro p hp
      simp only [List.mem_cons, List.mem_append] at hp
      rcases hp with rfl | hp | hp | hp
      · exact hq₁.head_ne_zero
      · exact hq₁.mem_ne_zero hp
      · subst hp; exact hq₂.mem_ne_zero (List.mem_cons_self _ _)
      · exact hq₂.mem_ne_zero (List.mem_cons_of_mem _ hp)
    · rw [← List.cons_append]
      exact List.nodup_append.2 ⟨hq₁.2.1, hq₂.nodup, fun p hp hp' => (d1 p hp).2 hp'⟩
    · show Seg h' head (l₁ ++ f :: m) head
      rw [seg_append]
      constructor
      · refine seg_retarget_end hs₁ hq₁.2.1 hph ⟨?_, ?_⟩ ?_ ?_
        · rw [hN]; simp [(d1 e hem).1]
        · rw [hP]; simp [hfl]
        · intro p hp hpe
          have h1 := (d1 p hp).1
          have h2 : p ≠ g := fun e' => (d1 p hp).2 (e' ▸ hgm)
          rw [hN]; simp [h1, h2, hpe]
        · intro p hp
          have h1 := d1 p (List.mem_cons_of_mem _ hp)
          have h2 : p ≠ f := fun e' => h1.2 (by simp [e'])
          have h3 : p ≠ head := by rintro rfl; exact hq₁.head_not_mem hp
          rw [hP]; simp [h1.1, h2, h3]
      · refine seg_retarget_end hs₂ hq₂.nodup hpl ⟨?_, ?_⟩ ?_ ?_
        · have h2 : g ≠ e := fun e' => (d2 g hgm).2 (e' ▸ hem)
          rw [hN]; simp [(d2 g hgm).1, h2]
        · have h1 := d1 head (List.mem_cons_self _ _)
          have h2 : head ≠ f := fun e' => h1.2 (by simp [e'])
          rw [hP]; simp [h1.1, h2]
        · intro p hp hpg
          have h1 := d2 p hp
          have h2 : p ≠ e := fun e' => h1.2 (e' ▸ hem)
          rw [hN]; simp [h1.1, h2, hpg]
        · intro p hp
          have h1 := d2 p (List.mem_cons_of_mem _ hp)
          have h2 : p ≠ f := by rintro rfl; exact (List.nodup_cons.1 hq₂.nodup).1 hp
          have h3 : p ≠ head := fun e' => h1.2 (by simp [e'])
          rw [hP]; simp [h1.1, h2, h3]
    · rw [isQueue_nil_iff]
      refine ⟨hq₂.head_ne_zero, ?_, ?_⟩
      · rw [hN]; simp
      · rw [hP]; simp

theorem IsQueue.splice_tail_init_frame {h : Heap} {head : Ptr} {l₁ : List Ptr} {list : Ptr}
    {l₂ : List Ptr} (hq₁ : IsQueue h head l₁) (hq₂ : IsQueue h list l₂) {p : Ptr}
    (hp₁ : p ∉ head :: l₁) (hp₂ : p ∉ list :: l₂) :
    (list_splice_tail_init h list head).next p = h.next p ∧
    (list_splice_tail_init h list head).prev p = h.prev p := by
  have hpl : p ≠ list := by rintro rfl; exact hp₂ (List.mem_cons_self _ _)
  by_cases he : h.next list = list
  · simp [list_splice_tail_init, list_splice_tail, list_empty, he, hpl]
  · have h1 : p ≠ h.prev head := by
      rintro rfl; exact hp₁ (cyc_prev_mem hq₁.2.2 (List.mem_cons_self _ _))
    have h2 : p ≠ h.prev list := by
      rintro rfl; exact hp₂ (cyc_prev_mem hq₂.2.2 (List.mem_cons_self _ _))
    have h3 : p ≠ h.next list := by
      rintro rfl; exact hp₂ (cyc_next_mem hq₂.2.2 (List.mem_cons_self _ _))
    have h4 : p ≠ head := by rintro rfl; exact hp₁ (List.mem_cons_self _ _)
    rw [list_splice_tail_init_next h list head he, list_splice_tail_init_prev h list head he]
    simp [hpl, h1, h2, h3, h4]

/-! ## `merge` -/

theorem mergeNodes_nil_left (val : Ptr → List Nat) (l₂ : List Ptr) :
    mergeNodes val [] l₂ = l₂ := by
  induction l₂ with
  | nil => rfl
  | cons x l₂ ih => simp [mergeNodes, ih]

theorem merge_advance_spec {h : Heap} {head : Ptr} (x : Ptr) : ∀ (post pre : List Ptr)
    (fuel : Nat), IsQueue h head (pre ++ post) → post.length < fuel →
    merge_advance fuel h head (post.headD head) x =
      some ((post.dropWhile fun y => decide (strcmp (h.value y) (h.value x) < 0)).headD head) := by
  intro post
  induction post with
  | nil =>
    intro pre fuel _ hf
    obtain ⟨fuel, rfl⟩ : ∃ k, fuel = k + 1 := ⟨fuel - 1, by simp at hf; omega⟩
    simp [merge_advance]
  | cons y post ih =>
    intro pre fuel hq hf
    obtain ⟨fuel, rfl⟩ : ∃ k, fuel = k + 1 := ⟨fuel - 1, by simp at hf; omega⟩
    have hyh : y ≠ head := by rintro rfl; exact hq.head_not_mem (by simp)
    have hn : h.next y = post.headD head := hq.next_mid
    by_cases hlt : strcmp (h.value y) (h.value x) < 0
    · rw [List.headD_cons, merge_advance, if_pos ⟨hyh, hlt⟩, hn,
        ih (pre ++ [y]) fuel (by simpa using hq) (by simpa using hf)]
      rw [List.dropWhile_cons_of_pos (by simpa using hlt)]
    · rw [List.headD_cons, merge_advance, if_neg (fun hc => hlt hc.2)]
      rw [List.dropWhile_cons_of_neg (by simpa using hlt)]
      rfl

theorem merge_loop_spec {head head2 : Ptr} : ∀ (l₂ pre post : List Ptr) (h : Heap)
    (fuel : Nat) (i_head2 next : Ptr), IsQueue h head (pre ++ post) → IsQueue h head2 l₂ →
    (∀ p ∈ head :: (pre ++ post), p ∉ head2 :: l₂) →
    (l₂ ≠ [] → i_head2 = l₂.headD head2) → post.length + l₂.length + 1 < fuel →
    ∃ h', merge_loop fuel h head head2 (post.headD head) i_head2 next = some h' ∧
      IsQueue h' head (pre ++ mergeNodes h.value post l₂) ∧ IsQueue h' head2 [] ∧
      h'.value = h.value ∧ h'.alive = h.alive ∧
      ∀ p, p ∉ head :: (pre ++ post) → p ∉ head2 :: l₂ →
        h'.next p = h.next p ∧ h'.prev p = h.prev p := by
  intro l₂
  induction l₂ with
  | nil =>
    intro pre post h fuel i_head2 next hq₁ hq₂ _ _ hf
    obtain ⟨fuel, rfl⟩ : ∃ k, fuel = k + 1 := ⟨fuel - 1, by simp at hf; omega⟩
    refine ⟨h, ?_, hq₁, hq₂, rfl, rfl, fun _ _ _ => ⟨rfl, rfl⟩⟩
    simp [merge_loop, hq₂.list_empty_iff.2 rfl]
  | cons x l₂ ih =>
    intro pre post h fuel i_head2 next hq₁ hq₂ hd hi2 hf
    obtain ⟨fuel, rfl⟩ : ∃ k, fuel = k + 1 := ⟨fuel - 1, by simp at hf; omega⟩
    obtain rfl : i_head2 = x := hi2 (List.cons_ne_nil _ _)
    have hne : ¬ (list_empty h head2 = true) := fun he =>
      List.cons_ne_nil _ _ (hq₂.list_empty_iff.1 he)
    have hadv := merge_advance_spec (h := h) i_head2 post pre fuel hq₁
      (by simp at hf; omega)
    have hsplit : post =
        post.takeWhile (fun y => decide (strcmp (h.value y) (h.value i_head2) < 0)) ++
        post.dropWhile (fun y => decide (strcmp (h.value y) (h.value i_head2) < 0)) :=
      (List.takeWhile_append_dropWhile _ _).symm
    have hlenb : (post.dropWhile
        (fun y => decide (strcmp (h.value y) (h.value i_head2) < 0))).length ≤ post.length :=
      (List.dropWhile_suffix _).length_le
    rw [mergeNodes]
    generalize post.takeWhile (fun y => decide (strcmp (h.value y) (h.value i_head2) < 0)) = a
      at hsplit ⊢
    generalize post.dropWhile (fun y => decide (strcmp (h.value y) (h.value i_head2) < 0)) = b
      at hsplit hadv hlenb ⊢
    subst hsplit
    have hx₁ : i_head2 ∉ head :: (pre ++ (a ++ b)) := fun hm => hd _ hm (by simp)
    have hx0 : i_head2 ≠ 0 := hq₂.mem_ne_zero (List.mem_cons_self _ _)
    cases b with
    | nil =>
      simp only [List.append_nil] at hq₁ hd hf hx₁ hadv ⊢
      have hsp := IsQueue.splice_tail_init hq₁ hq₂ hd
      refine ⟨list_splice_tail_init h head2 head, ?_, ?_, hsp.2, by simp, by simp, ?_⟩
      · rw [merge_loop, if_neg hne, hadv]
        simp only [List.headD_nil, if_true]
        obtain ⟨f, rfl⟩ : ∃ k, fuel = k + 1 := ⟨fuel - 1, by simp at hf; omega⟩
        simp [merge_loop, hsp.2.list_empty_iff.2 rfl]
      · rw [mergeNodes_nil_left]
        simpa using hsp.1
      · intro p hp₁ hp₂
        exact IsQueue.splice_tail_init_frame hq₁ hq₂ hp₁ hp₂
    | cons y b =>
      have hyh : y ≠ head := by rintro rfl; exact hq₁.head_not_mem (by simp)
      have hnx : h.next i_head2 = l₂.headD head2 := by
        have := @IsQueue.next_mid h head2 [] i_head2 l₂ (by simpa using hq₂)
        exact this
      -- unlinking `i_head2` from the second list
      have hq₂' : IsQueue (list_del_init h i_head2) head2 l₂ := hq₂.del_init_head
      have hq₁' : IsQueue (list_del_init h i_head2) head (pre ++ (a ++ y :: b)) := by
        refine hq₁.frame ?_ ?_
        · intro p hp
          exact (hq₂.del_init_frame (List.mem_cons_self _ _) (hd p hp)).1
        · intro p hp
          exact (hq₂.del_init_frame (List.mem_cons_self _ _) (hd p hp)).2
      -- linking it in before `y`
      have hq₁'' : IsQueue (list_add_tail (list_del_init h i_head2) i_head2 y) head
          ((pre ++ a) ++ i_head2 :: (y :: b)) := by
        have := @IsQueue.add_tail (list_del_init h i_head2) head (pre ++ a) (y :: b) i_head2
          (by simpa using hq₁') (by simpa using hx₁) hx0
        simpa using this
      have hym : y ∈ head :: (pre ++ (a ++ y :: b)) := by simp
      have hq₂'' : IsQueue (list_add_tail (list_del_init h i_head2) i_head2 y) head2 l₂ := by
        have hnd := hq₂.2.1
        refine hq₂'.frame ?_ ?_
        · intro p hp
          have hpx : p ≠ i_head2 := by
            rintro rfl
            simp only [List.mem_cons] at hp
            rcases hp with hp | hp
            · exact (List.nodup_cons.1 hnd).1 (by simp [hp])
            · exact (List.nodup_cons.1 (List.nodup_cons.1 hnd).2).1 hp
          have hp₁ : p ∉ head :: (pre ++ (a ++ y :: b)) := fun hm =>
            hd p hm (by simp only [List.mem_cons] at hp ⊢; tauto)
          exact (hq₁'.add_tail_frame hym hpx hp₁).1
        · intro p hp
          have hpx : p ≠ i_head2 := by
            rintro rfl
            simp only [List.mem_cons] at hp
            rcases hp with hp | hp
            · exact (List.nodup_cons.1 hnd).1 (by simp [hp])
            · exact (List.nodup_cons.1 (List.nodup_cons.1 hnd).2).1 hp
          have hp₁ : p ∉ head :: (pre ++ (a ++ y :: b)) := fun hm =>
            hd p hm (by simp only [List.mem_cons] at hp ⊢; tauto)
          exact (hq₁'.add_tail_frame hym hpx hp₁).2
      have hd'' : ∀ p ∈ head :: ((pre ++ a ++ [i_head2]) ++ (y :: b)), p ∉ head2 :: l₂ := by
        intro p hp hp'
        have hnd := hq₂.2.1
        simp only [List.mem_cons, List.mem_append, List.mem_singleton, List.not_mem_nil,
          or_false] at hp
        by_cases hpx : p = i_head2
        · subst hpx
          simp only [List.mem_cons] at hp'
          rcases hp' with hp' | hp'
          · exact (List.nodup_cons.1 hnd).1 (by simp [hp'])
          · exact (List.nodup_cons.1 (List.nodup_cons.1 hnd).2).1 hp'
        · refine hd p ?_ (by simp only [List.mem_cons] at hp' ⊢; tauto)
          simp only [List.mem_cons, List.mem_append]
          tauto
      obtain ⟨h', hrun, hr₁, hr₂, hval, hal, hfr⟩ :=
        ih (pre ++ a ++ [i_head2]) (y :: b) (list_add_tail (list_del_init h i_head2) i_head2 y)
          fuel (l₂.headD head2) (l₂.headD head2) (by simpa using hq₁'') hq₂'' hd''
          (fun _ => rfl) (by simp at hf hlenb ⊢; omega)
      refine ⟨h', ?_, ?_, hr₂, by simpa using hval, by simpa using hal, ?_⟩
      · rw [merge_loop, if_neg hne, hadv]
        simp only [List.headD_cons, if_neg hyh, hnx]
        exact hrun
      · simpa using hr₁
      · intro p hp₁ hp₂
        have hpx : p ≠ i_head2 := by rintro rfl; exact hp₂ (by simp)
        have hp₁' : p ∉ head :: ((pre ++ a ++ [i_head2]) ++ (y :: b)) := by
          simp only [List.mem_cons, List.mem_append, List.mem_singleton, List.not_mem_nil,
            or_false] at hp₁ ⊢
          tauto
        have hp₂' : p ∉ head2 :: l₂ := by
          simp only [List.mem_cons] at hp₂ ⊢; tauto
        have f1 := hfr p hp₁' hp₂'
        have f2 := hq₁'.add_tail_frame hym hpx hp₁
        have f3 := hq₂.del_init_frame (List.mem_cons_self _ _) hp₂
        exact ⟨f1.1.trans (f2.1.trans f3.1), f1.2.trans (f2.2.trans f3.2)⟩

/-- What `merge` does to two disjoint well-formed queues. -/
theorem merge_spec {h : Heap} {head head2 : Ptr} {l₁ l₂ : List Ptr}
    (hq₁ : IsQueue h head l₁) (hq₂ : IsQueue h head2 l₂)
    (hd : ∀ p ∈ head :: l₁, p ∉ head2 :: l₂) {fuel : Nat}
    (hf : l₁.length + l₂.length + 1 < fuel) :
    ∃ h', merge fuel h head head2 = some h' ∧
      IsQueue h' head (mergeNodes h.value l₁ l₂) ∧ IsQueue h' head2 [] ∧
      h'.value = h.value ∧ h'.alive = h.alive ∧
      ∀ p, p ∉ head :: l₁ → p ∉ head2 :: l₂ → h'.next p = h.next p ∧ h'.prev p = h.prev p := by
  have := @merge_loop_spec head head2 l₂ [] l₁ h fuel (h.next head2) 0 (by simpa using hq₁) hq₂
    (by simpa using hd) (fun _ => hq₂.next_head) hf
  rw [← hq₁.next_head] at this
  simpa [merge] using this

/-! ## The order given by `strcmp` -/

theorem strcmp_swap : ∀ a b : List Nat, strcmp b a = - strcmp a b
  | [], [] => by simp [strcmp]
  | [], _ :: _ => by simp [strcmp]
  | _ :: _, [] => by simp [strcmp]
  | x :: as, y :: bs => by
    simp only [strcmp]
    split_ifs <;> first | omega | exact strcmp_swap as bs

theorem strcmp_le_trans : ∀ a b c : List Nat, strcmp a b ≤ 0 → strcmp b c ≤ 0 → strcmp a c ≤ 0
  | [], _, [] => by simp [strcmp]
  | [], _, _ :: _ => by simp [strcmp]
  | _ :: _, [], _ => by simp [strcmp]
  | _ :: _, _ :: _, [] => by simp [strcmp]
  | x :: as, y :: bs, z :: cs => by
    simp only [strcmp]
    split_ifs <;> intro h1 h2 <;> first | omega | exact strcmp_le_trans as bs cs h1 h2

theorem strcmp_le_of_lt {a b : List Nat} (h : strcmp a b < 0) : strcmp a b ≤ 0 := by omega

theorem strcmp_le_of_not_lt {a b : List Nat} (h : ¬ strcmp a b < 0) : strcmp b a ≤ 0 := by
  rw [strcmp_swap a b]; omega

theorem strcmp_ne_of_lt_of_le {a x b : List Nat} (h1 : strcmp a x < 0) (h2 : strcmp x b ≤ 0) :
    b ≠ a := by
  rintro rfl
  rw [strcmp_swap b x] at h2
  omega

/-! ## The node sequence left by `merge` -/

theorem mergeNodes_perm (val : Ptr → List Nat) : ∀ (l₂ l₁ : List Ptr),
    List.Perm (mergeNodes val l₁ l₂) (l₁ ++ l₂) := by
  intro l₂
  induction l₂ with
  | nil => intro l₁; simp [mergeNodes]
  | cons x l₂ ih =>
    intro l₁
    rw [mergeNodes]
    have h1 := ih (l₁.dropWhile fun y => decide (strcmp (val y) (val x) < 0))
    have h2 : l₁ ++ x :: l₂ =
        l₁.takeWhile (fun y => decide (strcmp (val y) (val x) < 0)) ++
        (l₁.dropWhile (fun y => decide (strcmp (val y) (val x) < 0)) ++ x :: l₂) := by
      rw [← List.append_assoc, List.takeWhile_append_dropWhile]
    rw [h2]
    refine List.Perm.append_left _ ?_
    exact (List.Perm.cons x h1).trans List.perm_middle.symm

theorem ascending_dropWhile_ge {h : Heap} {l₁ : List Ptr} (x : Ptr) (hs : Ascending h l₁) :
    ∀ b ∈ l₁.dropWhile (fun y => decide (strcmp (h.value y) (h.value x) < 0)),
      strcmp (h.value x) (h.value b) ≤ 0 := by
  induction l₁ with
  | nil => simp
  | cons y l₁ ih =>
    by_cases hlt : strcmp (h.value y) (h.value x) < 0
    · rw [List.dropWhile_cons_of_pos (by simpa using hlt)]
      exact ih (List.Pairwise.of_cons hs)
    · rw [List.dropWhile_cons_of_neg (by simpa using hlt)]
      intro b hb
      have hxy : strcmp (h.value x) (h.value y) ≤ 0 := strcmp_le_of_not_lt hlt
      rcases List.mem_cons.1 hb with rfl | hb
      · exact hxy
      · exact strcmp_le_trans _ _ _ hxy (List.rel_of_pairwise_cons hs hb)

theorem takeWhile_lt {h : Heap} (l₁ : List Ptr) (x : Ptr) :
    ∀ a ∈ l₁.takeWhile (fun y => decide (strcmp (h.value y) (h.value x) < 0)),
      strcmp (h.value a) (h.value x) < 0 := by
  intro a ha
  simpa using List.mem_takeWhile_imp ha

/-- The merge of two ascending sequences is ascending. -/
theorem mergeNodes_ascending (h : Heap) : ∀ (l₂ l₁ : List Ptr), Ascending h l₁ →
    Ascending h l₂ → Ascending h (mergeNodes h.value l₁ l₂) := by
  intro l₂
  induction l₂ with
  | nil => intro l₁ h1 _; simpa [mergeNodes] using h1
  | cons x l₂ ih =>
    intro l₁ h1 h2
    rw [mergeNodes]
    have hsplit := List.takeWhile_append_dropWhile
      (fun y => decide (strcmp (h.value y) (h.value x) < 0)) l₁
    have htw := takeWhile_lt (h := h) l₁ x
    have hdw := ascending_dropWhile_ge x h1
    have hperm := mergeNodes_perm h.value l₂
      (l₁.dropWhile fun y => decide (strcmp (h.value y) (h.value x) < 0))
    have hrec := ih (l₁.dropWhile fun y => decide (strcmp (h.value y) (h.value x) < 0))
    generalize l₁.takeWhile (fun y => decide (strcmp (h.value y) (h.value x) < 0)) = a at *
    generalize l₁.dropWhile (fun y => decide (strcmp (h.value y) (h.value x) < 0)) = b at *
    subst hsplit
    unfold Ascending at h1 h2 hrec ⊢
    rw [List.pairwise_append] at h1
    have hx2 := List.pairwise_cons.1 h2
    have hM := hrec h1.2.1 hx2.2
    have hxM : ∀ m ∈ mergeNodes h.value b l₂, strcmp (h.value x) (h.value m) ≤ 0 := by
      intro m hm
      have := hperm.mem_iff.1 hm
      rcases List.mem_append.1 this with hb | hl
      · exact hdw m hb
      · exact hx2.1 m hl
    rw [List.pairwise_append]
    refine ⟨h1.1, List.pairwise_cons.2 ⟨hxM, hM⟩, ?_⟩
    intro p hp q hq
    have hpx := strcmp_le_of_lt (htw p hp)
    rcases List.mem_cons.1 hq with rfl | hq
    · exact hpx
    · exact strcmp_le_trans _ _ _ hpx (hxM q hq)

/-- The merge keeps, among nodes of equal payload, those of the second sequence before
those of the first, and each group in its order. -/
theorem mergeNodes_filter (h : Heap) (v : List Nat) : ∀ (l₂ l₁ : List Ptr), Ascending h l₁ →
    Ascending h l₂ →
    (mergeNodes h.value l₁ l₂).filter (fun p => decide (h.value p = v)) =
      l₂.filter (fun p => decide (h.value p = v)) ++
      l₁.filter (fun p => decide (h.value p = v)) := by
  intro l₂
  induction l₂ with
  | nil => intro l₁ _ _; simp [mergeNodes]
  | cons x l₂ ih =>
    intro l₁ h1 h2
    rw [mergeNodes]
    have hsplit := List.takeWhile_append_dropWhile
      (fun y => decide (strcmp (h.value y) (h.value x) < 0)) l₁
    have htw := takeWhile_lt (h := h) l₁ x
    have hrec := ih (l₁.dropWhile fun y => decide (strcmp (h.value y) (h.value x) < 0))
    generalize l₁.takeWhile (fun y => decide (strcmp (h.value y) (h.value x) < 0)) = a at *
    generalize l₁.dropWhile (fun y => decide (strcmp (h.value y) (h.value x) < 0)) = b at *
    subst hsplit
    unfold Ascending at h1 h2
    rw [List.pairwise_append] at h1
    have hx2 := List.pairwise_cons.1 h2
    have hM := hrec h1.2.1 hx2.2
    rw [List.filter_append, List.filter_append]
    by_cases hex : ∃ p ∈ a, h.value p = v
    · obtain ⟨p, hp, hpv⟩ := hex
      have hpx := htw p hp
      have hne : ∀ q ∈ x :: l₂, h.value q ≠ v := by
        intro q hq
        rw [← hpv]
        rcases List.mem_cons.1 hq with rfl | hq
        · exact strcmp_ne_of_lt_of_le hpx (by rw [(strcmp_eq_zero_iff _ _).2 rfl])
        · exact strcmp_ne_of_lt_of_le hpx (hx2.1 q hq)
      have hnil : (x :: l₂).filter (fun p => decide (h.value p = v)) = [] := by
        rw [List.filter_eq_nil_iff]
        intro q hq
        simpa using hne q hq
      have hnil'' : l₂.filter (fun p => decide (h.value p = v)) = [] := by
        rw [List.filter_eq_nil_iff]
        intro q hq
        simpa using hne q (List.mem_cons_of_mem _ hq)
      rw [hnil, List.filter_cons_of_neg (by simpa using hne x (List.mem_cons_self _ _)), hM,
        hnil'']
      rfl
    · have hnil : a.filter (fun p => decide (h.value p = v)) = [] := by
        rw [List.filter_eq_nil_iff]
        intro q hq
        simp only [decide_eq_true_eq]
        exact fun hv => hex ⟨q, hq, hv⟩
      rw [hnil, List.nil_append, List.nil_append]
      by_cases hxv : h.value x = v
      · rw [List.filter_cons_of_pos (by simpa using hxv),
          List.filter_cons_of_pos (by simpa using hxv), hM]
        rfl
      · rw [List.filter_cons_of_neg (by simpa using hxv),
          List.filter_cons_of_neg (by simpa using hxv), hM]

/-! ## `q_sort` -/

theorem ascending_congr {h h' : Heap} (hv : h'.value = h.value) (ns : List Ptr) :
    Ascending h' ns ↔ Ascending h ns := by
  unfold Ascending; rw [hv]

theorem ascending_of_length_le_one (h : Heap) {ns : List Ptr} (hn : ns.length ≤ 1) :
    Ascending h ns := by
  match ns, hn with
  | [], _ => exact List.Pairwise.nil
  | [_], _ => exact List.pairwise_singleton _ _

theorem IsQueue.init_other {h : Heap} {head : Ptr} {ns : List Ptr} (hq : IsQueue h head ns)
    {sp : Ptr} (hsp : sp ∉ head :: ns) : IsQueue (INIT_LIST_HEAD h sp) head ns := by
  refine hq.frame ?_ ?_
  · intro p hp
    have : p ≠ sp := by rintro rfl; exact hsp hp
    simp [this]
  · intro p hp
    have : p ≠ sp := by rintro rfl; exact hsp hp
    simp [this]

theorem filter_reverse_of_length_le_one (h : Heap) (v : List Nat) {ns : List Ptr}
    (hn : ns.length ≤ 1) :
    ns.filter (fun p => decide (h.value p = v)) =
      (ns.filter (fun p => decide (h.value p = v))).reverse := by
  match ns, hn with
  | [], _ => rfl
  | [x], _ =>
    by_cases hx : h.value x = v <;> simp [List.filter_cons, hx]

set_option maxHeartbeats 1000000 in
/-- What `q_sort` does to a well-formed queue whose nodes lie below the stack
address `sp`: it terminates and leaves at `head` a queue of the same nodes in
ascending order of payload, nodes of equal payload in the reverse of their
original order; payloads are not touched, nor any link outside the queue and
the stack. -/
theorem q_sort_spec : ∀ (fuel : Nat) (h : Heap) (head sp : Ptr) (ns : List Ptr),
    IsQueue h head ns → (∀ p ∈ head :: ns, p < sp) → ns.length + 3 ≤ fuel →
    ∃ h' ns', q_sort fuel h head sp = some h' ∧ IsQueue h' head ns' ∧ List.Perm ns' ns ∧
      Ascending h ns' ∧
      (∀ v, ns'.filter (fun p => decide (h.value p = v)) =
        (ns.filter (fun p => decide (h.value p = v))).reverse) ∧
      h'.value = h.value ∧ h'.alive = h.alive ∧
      ∀ p, p ∉ head :: ns → p < sp → h'.next p = h.next p ∧ h'.prev p = h.prev p := by
  intro fuel
  induction fuel with
  | zero => intro h head sp ns _ _ hf; omega
  | succ fuel ih =>
    intro h head sp ns hq hlt hf
    have hsize : q_size fuel h head = some ns.length := q_size_eq hq (by omega)
    by_cases hn : ns.length ≤ 1
    · refine ⟨h, ns, ?_, hq, List.Perm.refl _, ascending_of_length_le_one h hn,
        fun v => filter_reverse_of_length_le_one h v hn, rfl, rfl, fun _ _ _ => ⟨rfl, rfl⟩⟩
      simp [q_sort, hq.head_ne_zero, hsize, hn]
    · have hspn : sp ∉ head :: ns := fun hm => Nat.lt_irrefl sp (hlt sp hm)
      have hsp0 : sp ≠ 0 := Nat.not_eq_zero_of_lt (hlt head (List.mem_cons_self _ _))
      have hq0 : IsQueue (INIT_LIST_HEAD h sp) head ns := hq.init_other hspn
      have hk : (ns.length - 1) / 2 < ns.length := by omega
      have hmid : list_get_mid fuel (INIT_LIST_HEAD h sp) head = some ns[(ns.length - 1) / 2] := by
        rw [list_get_mid_eq hq0 (by omega), List.getD_eq_getElem _ _ hk]
      obtain ⟨hsplit, -⟩ := eraseIdx_split ns _ hk
      generalize ns[(ns.length - 1) / 2] = mid at hmid hsplit
      generalize hpre : ns.take ((ns.length - 1) / 2) = pre at hsplit
      generalize hpost : ns.drop ((ns.length - 1) / 2 + 1) = post at hsplit
      have hprelen : pre.length = (ns.length - 1) / 2 := by
        rw [← hpre, List.length_take]; omega
      have hpostlen : post.length = ns.length - ((ns.length - 1) / 2 + 1) := by
        rw [← hpost, List.length_drop]
      have hself : (INIT_LIST_HEAD h sp).next sp = sp ∧ (INIT_LIST_HEAD h sp).prev sp = sp := by
        simp
      obtain ⟨hc₁, hc₂⟩ := IsQueue.cut_position (by rw [← hsplit]; exact hq0)
        (by rw [← hsplit]; exact hspn) hsp0 hself
      have hmem : ∀ p, p ∈ ns ↔ (p ∈ pre ∨ p = mid) ∨ p ∈ post := by
        intro p; rw [hsplit]; simp only [List.mem_append, List.mem_cons]; tauto
      have hnd : (pre ++ mid :: post).Nodup := by rw [← hsplit]; exact hq.nodup
      have hdisj : ∀ p, (p ∈ pre ∨ p = mid) → p ∉ post := by
        intro p hp hp'
        have n1 := List.nodup_append.1 hnd
        rcases hp with hp | rfl
        · exact n1.2.2 hp (List.mem_cons_of_mem _ hp')
        · exact (List.nodup_cons.1 n1.2.1).1 hp'
      generalize hh1 : list_cut_position (INIT_LIST_HEAD h sp) sp head mid = h1 at hc₁ hc₂
      have hv1 : h1.value = h.value := by rw [← hh1]; simp
      have ha1 : h1.alive = h.alive := by rw [← hh1]; simp
      have hfm : ∀ p, p ∈ pre ++ [mid] ↔ (p ∈ pre ∨ p = mid) := by
        intro p; simp
      -- the first recursive call, on the nodes up to the middle
      obtain ⟨h2, front', hrun₁, hq₁, hperm₁, hasc₁, hfil₁, hv2, ha2, hfr₁⟩ :=
        ih h1 head (sp + 1) (pre ++ [mid]) hc₁
          (by
            intro p hp
            exact Nat.lt_succ_of_lt (hlt p (by
              simp only [List.mem_cons, hfm] at hp ⊢
              rcases hp with hp | hp
              · exact Or.inl hp
              · exact Or.inr ((hmem p).2 (Or.inl hp)))))
          (by simp only [List.length_append, List.length_singleton]; omega)
      have hq₂ : IsQueue h2 sp post := by
        refine hc₂.frame ?_ ?_ <;>
        · intro p hp
          have hp1 : p ∉ head :: (pre ++ [mid]) := by
            simp only [List.mem_cons, hfm] at hp ⊢
            rintro (rfl | hp')
            · rcases hp with rfl | hp
              · exact hspn (List.mem_cons_self _ _)
              · exact hq.head_not_mem ((hmem _).2 (Or.inr hp))
            · rcases hp with rfl | hp
              · exact hspn (List.mem_cons_of_mem _ ((hmem _).2 (Or.inl hp')))
              · exact hdisj p hp' hp
          have hp2 : p < sp + 1 := by
            simp only [List.mem_cons] at hp
            rcases hp with rfl | hp
            · exact Nat.lt_succ_self _
            · exact Nat.lt_succ_of_lt
                (hlt p (List.mem_cons_of_mem _ ((hmem _).2 (Or.inr hp))))
          first
            | exact (hfr₁ p hp1 hp2).1
            | exact (hfr₁ p hp1 hp2).2
      -- the second recursive call, on the nodes after the middle
      obtain ⟨h3, post', hrun₂, hq₃, hperm₂, hasc₂, hfil₂, hv3, ha3, hfr₂⟩ :=
        ih h2 sp (sp + 1) post hq₂
          (by
            intro p hp
            simp only [List.mem_cons] at hp
            rcases hp with rfl | hp
            · exact Nat.lt_succ_self _
            · exact Nat.lt_succ_of_lt
                (hlt p (List.mem_cons_of_mem _ ((hmem _).2 (Or.inr hp)))))
          (by omega)
      have hmem₁ : ∀ p, p ∈ front' ↔ (p ∈ pre ∨ p = mid) := by
        intro p; rw [hperm₁.mem_iff]; simp
      have hmem₂ : ∀ p, p ∈ post' ↔ p ∈ post := fun p => hperm₂.mem_iff
      have hd₁₂ : ∀ p ∈ head :: front', p ∉ sp :: post' := by
        intro p hp hp'
        simp only [List.mem_cons, hmem₁, hmem₂] at hp hp'
        rcases hp with rfl | hp
        · rcases hp' with rfl | hp'
          · exact hspn (List.mem_cons_self _ _)
          · exact hq.head_not_mem ((hmem _).2 (Or.inr hp'))
        · rcases hp' with rfl | hp'
          · exact hspn (List.mem_cons_of_mem _ ((hmem _).2 (Or.inl hp)))
          · exact hdisj p hp hp'
      have hq₄ : IsQueue h3 head front' := by
        refine hq₁.frame ?_ ?_ <;>
        · intro p hp
          have hp1 : p ∉ sp :: post := by
            intro hm
            refine hd₁₂ p hp ?_
            simp only [List.mem_cons, hmem₂] at hm ⊢
            exact hm
          have hp2 : p < sp + 1 := by
            exact Nat.lt_succ_of_lt (hlt p (by
              simp only [List.mem_cons, hmem₁] at hp ⊢
              rcases hp with hp | hp
              · exact Or.inl hp
              · exact Or.inr ((hmem p).2 (Or.inl hp))))
          first
            | exact (hfr₂ p hp1 hp2).1
            | exact (hfr₂ p hp1 hp2).2
      have hlen₁ : front'.length = pre.length + 1 := by
        rw [hperm₁.length_eq]; simp
      have hlen₂ : post'.length = post.length := hperm₂.length_eq
      obtain ⟨h4, hrun₃, hq₅, -, hv4, ha4, hfr₃⟩ :=
        merge_spec hq₄ hq₃ hd₁₂ (show front'.length + post'.length + 1 < fuel by omega)
      have hv3' : h3.value = h.value := by rw [hv3, hv2, hv1]
      refine ⟨h4, mergeNodes h3.value front' post', ?_, hq₅, ?_, ?_, ?_, by rw [hv4, hv3'],
        by rw [ha4, ha3, ha2, ha1], ?_⟩
      · rw [q_sort, if_neg hq.head_ne_zero, hsize]
        simp only [if_neg hn, hmid, hh1, hrun₁, hrun₂]
        exact hrun₃
      · refine (mergeNodes_perm _ _ _).trans ?_
        rw [hsplit]
        refine (List.Perm.append hperm₁ hperm₂).trans ?_
        simp
      · have e1 : Ascending h3 front' := by
          rw [ascending_congr hv3, ascending_congr hv2]; exact hasc₁
        have e2 : Ascending h3 post' := by
          rw [ascending_congr hv3]; exact hasc₂
        rw [← ascending_congr hv3']
        exact mergeNodes_ascending h3 post' front' e1 e2
      · intro v
        have e1 : Ascending h3 front' := by
          rw [ascending_congr hv3, ascending_congr hv2]; exact hasc₁
        have e2 : Ascending h3 post' := by
          rw [ascending_congr hv3]; exact hasc₂
        have := mergeNodes_filter h3 v post' front' e1 e2
        rw [hv3'] at this
        have f1 := hfil₁ v
        have f2 := hfil₂ v
        rw [hv1] at f1
        rw [hv2, hv1] at f2
        rw [hv3', this, f1, f2, hsplit]
        have e3 : pre ++ mid :: post = (pre ++ [mid]) ++ post := by simp
        rw [e3, List.filter_append (pre ++ [mid]) post, List.reverse_append]
      · intro p hp hps
        have hpsp : p ≠ sp := Nat.ne_of_lt hps
        have hpn : p ∉ head :: (pre ++ mid :: post) := by rw [← hsplit]; exact hp
        have g0 : (INIT_LIST_HEAD h sp).next p = h.next p ∧
            (INIT_LIST_HEAD h sp).prev p = h.prev p := by simp [hpsp]
        have g1 := @IsQueue.cut_position_frame _ head pre mid post (by rw [← hsplit]; exact hq0) sp
          (by rw [← hsplit]; exact hspn) hself.1 p hpn hpsp
        rw [hh1] at g1
        have hp' : p ∉ head :: (pre ++ [mid]) ∧ p ∉ sp :: post ∧ p ∉ head :: front' ∧
            p ∉ sp :: post' := by
          simp only [List.mem_cons, hfm, hmem₁, hmem₂, hmem, not_or] at hp ⊢
          tauto
        have g2 := hfr₁ p hp'.1 (Nat.lt_succ_of_lt hps)
        have g3 := hfr₂ p hp'.2.1 (Nat.lt_succ_of_lt hps)
        have g4 := hfr₃ p hp'.2.2.1 hp'.2.2.2
        exact ⟨g4.1.trans (g3.1.trans (g2.1.trans (g1.1.trans g0.1))),
          g4.2.trans (g3.2.trans (g2.2.trans (g1.2.trans g0.2)))⟩

theorem q_sort_null (fuel : Nat) (h : Heap) (sp : Ptr) : q_sort (fuel + 1) h 0 sp = some h := by
  simp [q_sort]

/-! ## The claims -/

theorem count_two_of_twin {h : Heap} : ∀ (ns : List Ptr) (x d : Ptr), x ∈ ns → d ∈ ns → d ≠ x →
    h.value d = h.value x → 2 ≤ (payloads h ns).count (h.value x) := by
  intro ns
  induction ns with
  | nil => intro x d hx; simp at hx
  | cons a ns ih =>
    intro x d hx hd hne hv
    unfold payloads at ih ⊢
    rw [List.map_cons, List.count_cons]
    rcases List.mem_cons.1 hx with rfl | hx'
    · rcases List.mem_cons.1 hd with rfl | hd'
      · exact absurd rfl hne
      · have : 0 < (ns.map h.value).count (h.value x) := by
          rw [List.count_pos_iff, ← hv]
          exact List.mem_map_of_mem _ hd'
        simp only [beq_self_eq_true, if_true]
        omega
    · rcases List.mem_cons.1 hd with rfl | hd'
      · have : 0 < (ns.map h.value).count (h.value x) := by
          rw [List.count_pos_iff]
          exact List.mem_map_of_mem _ hx'
        rw [hv]
        simp only [beq_self_eq_true, if_true]
        omega
      · have := ih x d hx' hd' hne hv
        omega

/-- C1: for every well-formed queue whose nodes lie below the stack, `q_sort`
returns (given enough fuel), the payloads read front to back are then in
ascending order under `strcmp`, and the node sequence is a permutation of the
one before the call; no payload is changed and nothing is allocated or freed. -/
theorem q_sort_ascending_perm (h : Heap) (head sp : Ptr) (ns : List Ptr) (fuel : Nat)
    (hq : IsQueue h head ns) (hsp : ∀ p ∈ head :: ns, p < sp) (hf : ns.length + 3 ≤ fuel) :
    ∃ h' ns', q_sort fuel h head sp = some h' ∧ IsQueue h' head ns' ∧
      Ascending h' ns' ∧ List.Perm ns' ns ∧ h'.value = h.value ∧ h'.alive = h.alive := by
  obtain ⟨h', ns', hrun, hq', hperm, hasc, -, hv, ha, -⟩ := q_sort_spec fuel h head sp ns hq hsp hf
  exact ⟨h', ns', hrun, hq', (ascending_congr hv ns').2 hasc, hperm, hv, ha⟩

theorem q_sort_ascending_perm_witness :
    IsQueue (sampleQueue [[5], [3], [9], [3]]) 1 [2, 3, 4, 5] ∧
    (∀ p ∈ [1, 2, 3, 4, 5], p < 100) ∧ [2, 3, 4, 5].length + 3 ≤ 10 ∧
    ∃ h' ns', q_sort 10 (sampleQueue [[5], [3], [9], [3]]) 1 100 = some h' ∧
      IsQueue h' 1 ns' ∧ Ascending h' ns' ∧ List.Perm ns' [2, 3, 4, 5] ∧
      h'.value = (sampleQueue [[5], [3], [9], [3]]).value ∧
      h'.alive = (sampleQueue [[5], [3], [9], [3]]).alive :=
  ⟨by decide, by decide, by decide,
    q_sort_ascending_perm (sampleQueue [[5], [3], [9], [3]]) 1 100 [2, 3, 4, 5] 10
      (by decide) (by decide) (by decide)⟩

/-- C3: on the ascending queue `["a","a","b","b"]` `q_delete_dup` returns true and
leaves `["b","b"]`: after the run of `"a"` has been freed the scan resumes one
node too far, and the run of `"b"` survives. -/
theorem q_delete_dup_adjacent_runs :
    IsQueue (sampleQueue [[97], [97], [98], [98]]) 1 [2, 3, 4, 5] ∧
    Ascending (sampleQueue [[97], [97], [98], [98]]) [2, 3, 4, 5] ∧
    (q_delete_dup 30 (sampleQueue [[97], [97], [98], [98]]) 1).map
      (fun r => (r.1, q_view 10 r.2 1)) = some (true, [(4, [98]), (5, [98])]) := by
  decide

/-- C4: `q_delete_dup` terminates on every well-formed queue (sorted or not) and
returns true; every node whose payload occurs exactly once in the queue is
still in it afterwards, the nodes left are in their original relative order,
no payload is changed and no node left has been freed. -/
theorem q_delete_dup_keeps_unique (h : Heap) (head : Ptr) (ns : List Ptr) (fuel : Nat)
    (hq : IsQueue h head ns) (hf : ns.length * ns.length + ns.length + 1 ≤ fuel) :
    ∃ h' ns', q_delete_dup fuel h head = some (true, h') ∧ IsQueue h' head ns' ∧
      List.Sublist ns' ns ∧
      (∀ x ∈ ns, (payloads h ns).count (h.value x) = 1 → x ∈ ns') ∧
      h'.value = h.value ∧ ∀ p ∈ ns', h'.alive p = h.alive p := by
  obtain ⟨h', ns', hrun, hq', hsub, hv, htw, hal⟩ :=
    @q_delete_dup_loop_spec head fuel [] ns h (by simpa using hq) (by simpa using hf)
  rw [← hq.next_head] at hrun
  simp only [List.nil_append] at hsub htw
  refine ⟨h', ns', ?_, hq', hsub, ?_, hv, hal⟩
  · simp [q_delete_dup, hq.head_ne_zero, hrun]
  · intro x hx hc
    by_contra hn
    obtain ⟨d, hd, hne, hdv⟩ := htw x hx hn
    have := count_two_of_twin ns x d hx hd hne hdv
    omega

theorem q_delete_dup_keeps_unique_witness :
    IsQueue (sampleQueue [[97], [97], [98], [99], [99], [99]]) 1 [2, 3, 4, 5, 6, 7] ∧
    [2, 3, 4, 5, 6, 7].length * [2, 3, 4, 5, 6, 7].length + [2, 3, 4, 5, 6, 7].length + 1 ≤ 50 ∧
    ∃ h' ns', q_delete_dup 50 (sampleQueue [[97], [97], [98], [99], [99], [99]]) 1
        = some (true, h') ∧ IsQueue h' 1 ns' ∧ List.Sublist ns' [2, 3, 4, 5, 6, 7] ∧
      (∀ x ∈ [2, 3, 4, 5, 6, 7],
        (payloads (sampleQueue [[97], [97], [98], [99], [99], [99]]) [2, 3, 4, 5, 6, 7]).count
          ((sampleQueue [[97], [97], [98], [99], [99], [99]]).value x) = 1 → x ∈ ns') ∧
      h'.value = (sampleQueue [[97], [97], [98], [99], [99], [99]]).value ∧
      ∀ p ∈ ns', h'.alive p = (sampleQueue [[97], [97], [98], [99], [99], [99]]).alive p :=
  ⟨by decide, by decide,
    q_delete_dup_keeps_unique (sampleQueue [[97], [97], [98], [99], [99], [99]]) 1
      [2, 3, 4, 5, 6, 7] 50 (by decide) (by decide)⟩

theorem q_delete_mid_null (fuel : Nat) (h : Heap) : q_delete_mid fuel h 0 = some (false, h) := by
  simp [q_delete_mid]

/-- C5: on the two-node queue `["a","b"]` `q_delete_mid` returns true and leaves
`["b"]`: it unlinks and frees the node at index `0`, where the node at index
`⌊2 / 2⌋ = 1` is the one to go, which would leave `["a"]`.  On a null or empty
queue it returns false and changes nothing. -/
theorem q_delete_mid_two_nodes :
    IsQueue (sampleQueue [[97], [98]]) 1 [2, 3] ∧
    (q_delete_mid 10 (sampleQueue [[97], [98]]) 1).map
      (fun r => (r.1, q_view 10 r.2 1, r.2.alive 2, r.2.alive 3)) =
      some (true, [(3, [98])], false, true) ∧
    ([2, 3].length / 2 = 1 ∧ ([2, 3].eraseIdx ([2, 3].length / 2)).map
      (fun p => (p, (sampleQueue [[97], [98]]).value p)) = [(2, [97])]) ∧
    (q_delete_mid 10 (sampleQueue [[97], [98]]) 0).map
      (fun r => (r.1, q_view 10 r.2 1)) = some (false, [(2, [97]), (3, [98])]) ∧
    (q_delete_mid 10 (sampleQueue []) 1).map
      (fun r => (r.1, q_view 10 r.2 1)) = some (false, []) :=
  ⟨by decide, by decide, ⟨by decide, by decide⟩, by decide, by decide⟩

/-- C6: on a queue of exactly six nodes `q_delete_mid` returns true and removes the
third node (index 2), which it frees; the other five keep their order and all
payloads their value. -/
theorem q_delete_mid_six (h : Heap) (head e0 e1 e2 e3 e4 e5 : Ptr) (fuel : Nat)
    (hq : IsQueue h head [e0, e1, e2, e3, e4, e5]) (hf : 6 < fuel) :
    ∃ h', q_delete_mid fuel h head = some (true, h') ∧
      IsQueue h' head [e0, e1, e3, e4, e5] ∧ h'.value = h.value ∧ h'.alive e2 = false := by
  obtain ⟨h', hrun, hq', hv, ha⟩ :=
    (q_delete_mid_spec hq (show [e0, e1, e2, e3, e4, e5].length < fuel from hf)).2 (by simp)
  have he : [e0, e1, e2, e3, e4, e5].eraseIdx (([e0, e1, e2, e3, e4, e5].length - 1) / 2)
      = [e0, e1, e3, e4, e5] := by
    simp [List.eraseIdx]
  rw [he] at hq'
  refine ⟨h', hrun, hq', hv, ?_⟩
  have := ha e2
  simpa using this

theorem q_delete_mid_six_witness :
    IsQueue (sampleQueue [[0], [1], [2], [3], [4], [5]]) 1 [2, 3, 4, 5, 6, 7] ∧ 6 < 10 ∧
    ∃ h', q_delete_mid 10 (sampleQueue [[0], [1], [2], [3], [4], [5]]) 1 = some (true, h') ∧
      IsQueue h' 1 [2, 3, 5, 6, 7] ∧
      h'.value = (sampleQueue [[0], [1], [2], [3], [4], [5]]).value ∧ h'.alive 4 = false :=
  ⟨by decide, by decide,
    q_delete_mid_six (sampleQueue [[0], [1], [2], [3], [4], [5]]) 1 2 3 4 5 6 7 10
      (by decide) (by decide)⟩

/-- C7: after `q_reverse` the queue holds the same nodes in the reverse order, with
the same payloads, nothing allocated or freed; on a null queue and on a queue
of at most one node the heap is not changed at all. -/
theorem q_reverse_reverses (h : Heap) (head : Ptr) (ns : List Ptr) (fuel : Nat)
    (hq : IsQueue h head ns) (hf : ns.length < fuel) :
    q_reverse fuel h 0 = some h ∧
    ∃ h', q_reverse fuel h head = some h' ∧ IsQueue h' head ns.reverse ∧
      h'.value = h.value ∧ h'.alive = h.alive ∧ (ns.length ≤ 1 → h' = h) := by
  obtain ⟨h', hrun, hq', hv, ha, hsame, -, -⟩ := q_reverse_spec hq hf
  exact ⟨q_reverse_null fuel h, h', hrun, hq', hv, ha, hsame⟩

theorem q_reverse_reverses_witness :
    IsQueue (sampleQueue [[1], [2], [3]]) 1 [2, 3, 4] ∧ [2, 3, 4].length < 10 ∧
    (q_reverse 10 (sampleQueue [[1], [2], [3]]) 0 = some (sampleQueue [[1], [2], [3]]) ∧
    ∃ h', q_reverse 10 (sampleQueue [[1], [2], [3]]) 1 = some h' ∧
      IsQueue h' 1 [2, 3, 4].reverse ∧
      h'.value = (sampleQueue [[1], [2], [3]]).value ∧
      h'.alive = (sampleQueue [[1], [2], [3]]).alive ∧
      ([2, 3, 4].length ≤ 1 → h' = sampleQueue [[1], [2], [3]])) :=
  ⟨by decide, by decide,
    q_reverse_reverses (sampleQueue [[1], [2], [3]]) 1 [2, 3, 4] 10 (by decide) (by decide)⟩

/-- C8: after `q_swap` the nodes are where they were, the payloads of the nodes at
positions `2i` and `2i + 1` are exchanged for every `i < n / 2`, and for odd
`n` the payload of the last node is unchanged. -/
theorem q_swap_pairs (h : Heap) (head : Ptr) (ns : List Ptr) (fuel : Nat)
    (hq : IsQueue h head ns) (hf : ns.length < fuel) :
    ∃ h', q_swap fuel h head = some h' ∧ IsQueue h' head ns ∧
      (∀ i, i < ns.length / 2 →
        h'.value (ns.getD (2 * i) head) = h.value (ns.getD (2 * i + 1) head) ∧
        h'.value (ns.getD (2 * i + 1) head) = h.value (ns.getD (2 * i) head)) ∧
      (ns.length % 2 = 1 →
        h'.value (ns.getD (ns.length - 1) head) = h.value (ns.getD (ns.length - 1) head)) := by
  obtain ⟨h', hrun, hq', -, -, -, hpairs, hrest⟩ := q_swap_spec hq hf
  refine ⟨h', hrun, hq', hpairs, ?_⟩
  intro hodd
  apply hrest
  have hlt : ns.length - 1 < ns.length := by omega
  have he : 2 * (ns.length / 2) = ns.length - 1 := by omega
  rw [he, List.getD_eq_getElem _ _ hlt]
  exact getElem_not_mem_take hq.nodup _ hlt

theorem q_swap_pairs_witness :
    IsQueue (sampleQueue [[1], [2], [3], [4], [5]]) 1 [2, 3, 4, 5, 6] ∧
    [2, 3, 4, 5, 6].length < 10 ∧
    ∃ h', q_swap 10 (sampleQueue [[1], [2], [3], [4], [5]]) 1 = some h' ∧
      IsQueue h' 1 [2, 3, 4, 5, 6] ∧
      (∀ i, i < [2, 3, 4, 5, 6].length / 2 →
        h'.value ([2, 3, 4, 5, 6].getD (2 * i) 1)
          = (sampleQueue [[1], [2], [3], [4], [5]]).value ([2, 3, 4, 5, 6].getD (2 * i + 1) 1) ∧
        h'.value ([2, 3, 4, 5, 6].getD (2 * i + 1) 1)
          = (sampleQueue [[1], [2], [3], [4], [5]]).value ([2, 3, 4, 5, 6].getD (2 * i) 1)) ∧
      ([2, 3, 4, 5, 6].length % 2 = 1 →
        h'.value ([2, 3, 4, 5, 6].getD ([2, 3, 4, 5, 6].length - 1) 1)
          = (sampleQueue [[1], [2], [3], [4], [5]]).value
              ([2, 3, 4, 5, 6].getD ([2, 3, 4, 5, 6].length - 1) 1)) :=
  ⟨by decide, by decide,
    q_swap_pairs (sampleQueue [[1], [2], [3], [4], [5]]) 1 [2, 3, 4, 5, 6] 10
      (by decide) (by decide)⟩

theorem IsQueue.not_mem_of_cons {h : Heap} {head x : Ptr} {rest : List Ptr}
    (hq : IsQueue h head (x :: rest)) : x ∉ rest :=
  (List.nodup_cons.1 hq.nodup).1

theorem IsQueue.not_mem_of_concat {h : Heap} {head x : Ptr} {rest : List Ptr}
    (hq : IsQueue h head (rest ++ [x])) : x ∉ rest := fun hm =>
  (List.nodup_append.1 hq.nodup).2.2 hm (List.mem_singleton_self _)

/-- C9: `q_remove_head` and `q_remove_tail` return `NULL` on a null queue and on an
empty queue and leave heap and buffer alone; on a non-empty queue they return
the first (the last) node, which is no longer in the queue and is not freed,
and the other nodes stay in their order with their payloads. -/
theorem q_remove_ends (h : Heap) (head : Ptr) (ns : List Ptr) (sp : Option (Nat → Nat))
    (bufsize : Nat) (hq : IsQueue h head ns) :
    q_remove_head h 0 sp bufsize = (none, h, sp) ∧
    q_remove_tail h 0 sp bufsize = (none, h, sp) ∧
    (ns = [] → q_remove_head h head sp bufsize = (none, h, sp) ∧
      q_remove_tail h head sp bufsize = (none, h, sp)) ∧
    (∀ x rest, ns = x :: rest → ∃ h' sp', q_remove_head h head sp bufsize = (some x, h', sp') ∧
      IsQueue h' head rest ∧ x ∉ rest ∧ h'.value = h.value ∧ h'.alive = h.alive) ∧
    (∀ x rest, ns = rest ++ [x] → ∃ h' sp', q_remove_tail h head sp bufsize = (some x, h', sp') ∧
      IsQueue h' head rest ∧ x ∉ rest ∧ h'.value = h.value ∧ h'.alive = h.alive) := by
  refine ⟨q_remove_head_null h sp bufsize, q_remove_tail_null h sp bufsize, ?_, ?_, ?_⟩
  · rintro rfl
    exact ⟨q_remove_head_empty hq sp bufsize, q_remove_tail_empty hq sp bufsize⟩
  · rintro x rest rfl
    exact ⟨_, _, q_remove_head_cons hq sp bufsize, hq.del_init_head, hq.not_mem_of_cons, rfl, rfl⟩
  · rintro x rest rfl
    exact ⟨_, _, q_remove_tail_concat hq sp bufsize, hq.del_init_last, hq.not_mem_of_concat,
      rfl, rfl⟩

theorem q_remove_ends_witness :
    IsQueue (sampleQueue [[97], [98], [99]]) 1 [2, 3, 4] ∧
    (q_remove_head (sampleQueue [[97], [98], [99]]) 0 none 8
        = (none, sampleQueue [[97], [98], [99]], none) ∧
      q_remove_tail (sampleQueue [[97], [98], [99]]) 0 none 8
        = (none, sampleQueue [[97], [98], [99]], none) ∧
      ([2, 3, 4] = [] → q_remove_head (sampleQueue [[97], [98], [99]]) 1 none 8
          = (none, sampleQueue [[97], [98], [99]], none) ∧
        q_remove_tail (sampleQueue [[97], [98], [99]]) 1 none 8
          = (none, sampleQueue [[97], [98], [99]], none)) ∧
      (∀ x rest, [2, 3, 4] = x :: rest → ∃ h' sp',
        q_remove_head (sampleQueue [[97], [98], [99]]) 1 none 8 = (some x, h', sp') ∧
        IsQueue h' 1 rest ∧ x ∉ rest ∧ h'.value = (sampleQueue [[97], [98], [99]]).value ∧
        h'.alive = (sampleQueue [[97], [98], [99]]).alive) ∧
      (∀ x rest, [2, 3, 4] = rest ++ [x] → ∃ h' sp',
        q_remove_tail (sampleQueue [[97], [98], [99]]) 1 none 8 = (some x, h', sp') ∧
        IsQueue h' 1 rest ∧ x ∉ rest ∧ h'.value = (sampleQueue [[97], [98], [99]]).value ∧
        h'.alive = (sampleQueue [[97], [98], [99]]).alive)) :=
  ⟨by decide, q_remove_ends (sampleQueue [[97], [98], [99]]) 1 [2, 3, 4] none 8 (by decide)⟩

/-- C10: when `q_remove_head` or `q_remove_tail` detaches a node with payload `p` and
is given a buffer of capacity `c ≥ 1`, the buffer afterwards starts with the
first `min (len p) (c - 1)` bytes of `p` followed by a zero byte, its byte
`c - 1` is zero, and no byte at an offset `≥ c` is changed. -/
theorem q_remove_copies_truncated (h : Heap) (head : Ptr) (ns : List Ptr) (buf : Nat → Nat)
    (c : Nat) (hq : IsQueue h head ns) (hc1 : 1 ≤ c) (hc2 : c < 2 ^ 64) :
    (∀ x rest, ns = x :: rest → ∃ out, (q_remove_head h head (some buf) c).2.2 = some out ∧
      (List.range (min (h.value x).length (c - 1) + 1)).map out = (h.value x).take (c - 1) ++ [0] ∧
      out (c - 1) = 0 ∧ ∀ i, c ≤ i → out i = buf i) ∧
    (∀ x rest, ns = rest ++ [x] → ∃ out, (q_remove_tail h head (some buf) c).2.2 = some out ∧
      (List.range (min (h.value x).length (c - 1) + 1)).map out = (h.value x).take (c - 1) ++ [0] ∧
      out (c - 1) = 0 ∧ ∀ i, c ≤ i → out i = buf i) := by
  have hc2' : c ≤ 2 ^ 64 := Nat.le_of_lt hc2
  have key : ∀ p : List Nat,
      (List.range (min p.length (c - 1) + 1)).map (copyOut buf p c) = p.take (c - 1) ++ [0] ∧
      copyOut buf p c (c - 1) = 0 ∧ ∀ i, c ≤ i → copyOut buf p c i = buf i := by
    intro p
    refine ⟨copyOut_leading buf p hc1 hc2', ?_, ?_⟩
    · rw [copyOut_apply buf p hc1 hc2', if_pos rfl]
    · intro i hi
      rw [copyOut_apply buf p hc1 hc2', if_neg (by omega), if_neg (by omega)]
  constructor
  · rintro x rest rfl
    refine ⟨copyOut buf (h.value x) c, ?_, key _⟩
    rw [q_remove_head_cons hq]
    rfl
  · rintro x rest rfl
    refine ⟨copyOut buf (h.value x) c, ?_, key _⟩
    rw [q_remove_tail_concat hq]
    rfl

theorem q_remove_copies_truncated_witness :
    IsQueue (sampleQueue [[104, 101, 108, 108, 111], [98]]) 1 [2, 3] ∧ 1 ≤ 4 ∧ 4 < 2 ^ 64 ∧
    ((∀ x rest, [2, 3] = x :: rest → ∃ out,
        (q_remove_head (sampleQueue [[104, 101, 108, 108, 111], [98]]) 1
          (some fun _ => 7) 4).2.2 = some out ∧
        (List.range (min ((sampleQueue [[104, 101, 108, 108, 111], [98]]).value x).length
            (4 - 1) + 1)).map out
          = ((sampleQueue [[104, 101, 108, 108, 111], [98]]).value x).take (4 - 1) ++ [0] ∧
        out (4 - 1) = 0 ∧ ∀ i, 4 ≤ i → out i = (fun _ => 7) i) ∧
      (∀ x rest, [2, 3] = rest ++ [x] → ∃ out,
        (q_remove_tail (sampleQueue [[104, 101, 108, 108, 111], [98]]) 1
          (some fun _ => 7) 4).2.2 = some out ∧
        (List.range (min ((sampleQueue [[104, 101, 108, 108, 111], [98]]).value x).length
            (4 - 1) + 1)).map out
          = ((sampleQueue [[104, 101, 108, 108, 111], [98]]).value x).take (4 - 1) ++ [0] ∧
        out (4 - 1) = 0 ∧ ∀ i, 4 ≤ i → out i = (fun _ => 7) i)) :=
  ⟨by decide, by decide, by decide,
    q_remove_copies_truncated (sampleQueue [[104, 101, 108, 108, 111], [98]]) 1 [2, 3]
      (fun _ => 7) 4 (by decide) (by decide) (by decide)⟩

/-! ## `list_add` -/

@[simp] theorem Heap.allocate_next (h : Heap) (p : Ptr) : (h.allocate p).next = h.next := rfl
@[simp] theorem Heap.allocate_prev (h : Heap) (p : Ptr) : (h.allocate p).prev = h.prev := rfl
@[simp] theorem Heap.allocate_value (h : Heap) (p : Ptr) : (h.allocate p).value = h.value := rfl
@[simp] theorem Heap.allocate_alive (h : Heap) (p q : Ptr) :
    (h.allocate p).alive q = if q = p then true else h.alive q := rfl

@[simp] theorem list_add_value (h : Heap) (x a : Ptr) : (list_add h x a).value = h.value := rfl
@[simp] theorem list_add_alive (h : Heap) (x a : Ptr) : (list_add h x a).alive = h.alive := rfl

theorem list_add_next (h : Heap) (x head p : Ptr) :
    (list_add h x head).next p =
      if p = head then x else if p = x then h.next head else h.next p := by
  simp [list_add]

theorem list_add_prev (h : Heap) (x head p : Ptr) :
    (list_add h x head).prev p =
      if p = x then head else if p = h.next head then x else h.prev p := by
  simp [list_add]

/-- Linking a new node in right after the sentinel. -/
theorem IsQueue.add_head {h : Heap} {head : Ptr} {ns : List Ptr} {x : Ptr}
    (hq : IsQueue h head ns) (hx : x ∉ head :: ns) (hx0 : x ≠ 0) :
    IsQueue (list_add h x head) head (x :: ns) := by
  have ht := @IsQueue.add_tail h head [] ns x (by simpa using hq) (by simpa using hx) hx0
  rw [← hq.next_head] at ht
  simp only [List.nil_append] at ht
  have hxh : x ≠ head := by rintro rfl; exact hx (List.mem_cons_self _ _)
  have hxa : x ≠ h.next head := by
    intro e
    exact hx (e ▸ cyc_next_mem hq.2.2 (List.mem_cons_self _ _))
  have hpa : h.prev (h.next head) = head := by
    have := hq.seg
    cases ns with
    | nil => rw [this.1]; exact this.2
    | cons n ns => rw [this.1.1]; exact this.1.2
  refine ht.frame ?_ ?_
  · intro p _
    rw [list_add_next, list_add_tail_next, hpa]
    by_cases h1 : p = head
    · subst h1; simp [Ne.symm hxh]
    · simp [h1]
  · intro p _
    rw [list_add_prev, list_add_tail_prev]
    by_cases h1 : p = x
    · subst h1; simp [hxa, hpa]
    · simp [h1]

theorem IsQueue.add_head_frame {h : Heap} {head : Ptr} {ns : List Ptr}
    (hq : IsQueue h head ns) {x p : Ptr} (hpx : p ≠ x) (hp : p ∉ head :: ns) :
    (list_add h x head).next p = h.next p ∧ (list_add h x head).prev p = h.prev p := by
  have h1 : p ≠ head := by rintro rfl; exact hp (List.mem_cons_self _ _)
  have h2 : p ≠ h.next head := by
    rintro rfl; exact hp (cyc_next_mem hq.2.2 (List.mem_cons_self _ _))
  simp [list_add_next, list_add_prev, hpx, h1, h2]

/-! ## The copy of the string into the new element -/

theorem takeWhile_ne_zero_append (s : List Nat) (hs : 0 ∉ s) (t : List Nat) :
    (s ++ 0 :: t).takeWhile (fun b => decide (b ≠ 0)) = s := by
  induction s with
  | nil => simp
  | cons a s ih =>
    simp only [List.mem_cons, not_or] at hs
    rw [List.cons_append, List.takeWhile_cons_of_pos (by simpa using Ne.symm hs.1), ih hs.2]

theorem strncpy_whole (buf : Nat → Nat) (s : List Nat) :
    (List.range (s.length + 1)).map (strncpy buf s (s.length + 1)) = s ++ [0] := by
  apply List.ext_getElem
  · simp
  · intro i h1 h2
    simp only [List.length_map, List.length_range] at h1
    simp only [List.getElem_map, List.getElem_range, strncpy, if_pos h1]
    by_cases hi : i < s.length
    · rw [List.getD_eq_getElem _ _ hi, List.getElem_append_left hi]
    · have hie : i = s.length := by omega
      subst hie
      rw [List.getD_eq_default _ _ (Nat.le_refl _), List.getElem_append_right (Nat.le_refl _)]
      simp

/-- The string read back from the buffer `strncpy(new->value, s, strlen(s) + 1)` has
filled is `s`, whatever the buffer held before. -/
theorem readString_strncpy (buf : Nat → Nat) (s : List Nat) (hs : 0 ∉ s) :
    readString (strncpy buf s (s.length + 1)) (s.length + 1) = s := by
  rw [readString, strncpy_whole]
  exact takeWhile_ne_zero_append s hs []

/-! ## `q_insert_head` and `q_insert_tail` -/

theorem q_insert_head_null (h : Heap) (s : List Nat) (new : Ptr) (vbuf : Option (Nat → Nat)) :
    q_insert_head h 0 s new vbuf = (false, h) := by
  simp [q_insert_head]

theorem q_insert_tail_null (h : Heap) (s : List Nat) (new : Ptr) (vbuf : Option (Nat → Nat)) :
    q_insert_tail h 0 s new vbuf = (false, h) := by
  simp [q_insert_tail]

theorem IsQueue.prepare_new {h : Heap} {head : Ptr} {ns : List Ptr} (hq : IsQueue h head ns)
    {new : Ptr} (hfresh : new ∉ head :: ns) (v : List Nat) :
    IsQueue ((INIT_LIST_HEAD (h.allocate new) new).setValue new v) head ns := by
  refine hq.frame ?_ ?_
  · intro p hp
    have : p ≠ new := by rintro rfl; exact hfresh hp
    simp [this]
  · intro p hp
    have : p ≠ new := by rintro rfl; exact hfresh hp
    simp [this]

/-- What a successful `q_insert_head` does to a well-formed queue. -/
theorem q_insert_head_spec {h : Heap} {head : Ptr} {ns : List Ptr} (hq : IsQueue h head ns)
    {s : List Nat} (hs : 0 ∉ s) {new : Ptr} (hnew : new ≠ 0) (hfresh : new ∉ head :: ns)
    (buf : Nat → Nat) :
    ∃ h', q_insert_head h head s new (some buf) = (true, h') ∧ IsQueue h' head (new :: ns) ∧
      h'.value new = s ∧ (∀ p, p ≠ new → h'.value p = h.value p) ∧
      ∀ p, h'.alive p = if p = new then true else h.alive p := by
  refine ⟨list_add ((INIT_LIST_HEAD (h.allocate new) new).setValue new
    (readString (strncpy buf s (s.length + 1)) (s.length + 1))) new head, ?_,
    (hq.prepare_new hfresh _).add_head hfresh hnew, ?_, ?_, ?_⟩
  · simp only [q_insert_head, if_neg hq.head_ne_zero, if_neg hnew]
  · simp [readString_strncpy buf s hs]
  · intro p hp; simp [hp]
  · intro p; simp

/-- What a successful `q_insert_tail` does to a well-formed queue. -/
theorem q_insert_tail_spec {h : Heap} {head : Ptr} {ns : List Ptr} (hq : IsQueue h head ns)
    {s : List Nat} (hs : 0 ∉ s) {new : Ptr} (hnew : new ≠ 0) (hfresh : new ∉ head :: ns)
    (buf : Nat → Nat) :
    ∃ h', q_insert_tail h head s new (some buf) = (true, h') ∧ IsQueue h' head (ns ++ [new]) ∧
      h'.value new = s ∧ (∀ p, p ≠ new → h'.value p = h.value p) ∧
      ∀ p, h'.alive p = if p = new then true else h.alive p := by
  have hprep := hq.prepare_new hfresh (readString (strncpy buf s (s.length + 1)) (s.length + 1))
  have ht := @IsQueue.add_tail _ head ns [] new (by simpa using hprep) (by simpa using hfresh)
    hnew
  simp only [List.headD_nil] at ht
  refine ⟨list_add_tail ((INIT_LIST_HEAD (h.allocate new) new).setValue new
    (readString (strncpy buf s (s.length + 1)) (s.length + 1))) new head, ?_, ht, ?_, ?_, ?_⟩
  · simp only [q_insert_tail, if_neg hq.head_ne_zero, if_neg hnew]
  · simp [readString_strncpy buf s hs]
  · intro p hp; simp [hp]
  · intro p; simp

/-! ## Reversing twice -/

theorem Heap.eq_of_fields {h h' : Heap} (hn : ∀ p, h'.next p = h.next p)
    (hp : ∀ p, h'.prev p = h.prev p) (hv : h'.value = h.value) (ha : h'.alive = h.alive) :
    h' = h := by
  cases h; cases h'
  simp only [Heap.mk.injEq]
  exact ⟨funext hn, funext hp, hv, ha⟩

theorem q_reverse_twice {h : Heap} {head : Ptr} {ns : List Ptr} (hq : IsQueue h head ns)
    {fuel : Nat} (hf : ns.length < fuel) :
    ∃ h₁, q_reverse fuel h head = some h₁ ∧ IsQueue h₁ head ns.reverse ∧
      q_reverse fuel h₁ head = some h := by
  obtain ⟨h₁, hrun₁, hq₁, hv₁, ha₁, -, hin₁, hout₁⟩ := q_reverse_spec hq hf
  obtain ⟨h₂, hrun₂, -, hv₂, ha₂, -, hin₂, hout₂⟩ :=
    q_reverse_spec hq₁ (show ns.reverse.length < fuel by simpa using hf)
  refine ⟨h₁, hrun₁, hq₁, ?_⟩
  have hmem : ∀ p, p ∈ head :: ns.reverse ↔ p ∈ head :: ns := by
    intro p; simp
  have he : h₂ = h := by
    refine Heap.eq_of_fields ?_ ?_ (hv₂.trans hv₁) (ha₂.trans ha₁)
    · intro p
      by_cases hp : p ∈ head :: ns
      · rw [(hin₂ p ((hmem p).2 hp)).1, (hin₁ p hp).2]
      · rw [(hout₂ p (fun hm => hp ((hmem p).1 hm))).1, (hout₁ p hp).1]
    · intro p
      by_cases hp : p ∈ head :: ns
      · rw [(hin₂ p ((hmem p).2 hp)).2, (hin₁ p hp).1]
      · rw [(hout₂ p (fun hm => hp ((hmem p).1 hm))).2, (hout₁ p hp).2]
  rw [hrun₂, he]

/-! ## Sorting twice -/

theorem strcmp_self (a : List Nat) : strcmp a a = 0 := (strcmp_eq_zero_iff a a).2 rfl

theorem seg_iterate_next {h : Heap} : ∀ (l : List Ptr) (a b : Ptr), Seg h a l b →
    h.next^[l.length + 1] a = b := by
  intro l
  induction l with
  | nil => intro a b hs; exact hs.1
  | cons n l ih =>
    intro a b hs
    rw [List.length_cons, Function.iterate_succ_apply, hs.1.1]
    exact ih n b hs.2

theorem seg_iterate_prev {h : Heap} : ∀ (l : List Ptr) (a b : Ptr), Seg h a l b →
    h.prev^[l.length + 1] b = a := by
  intro l
  induction l with
  | nil => intro a b hs; exact hs.2
  | cons n l ih =>
    intro a b hs
    rw [List.length_cons, Function.iterate_succ_apply', ih n b hs.2]
    exact hs.1.2

/-! ## Link symmetry and the two traversals -/

theorem walk_seg {h : Heap} {head : Ptr} : ∀ (l : List Ptr) (a : Ptr) (fuel : Nat),
    Seg h a l head → head ∉ l → l.length < fuel → walk fuel h head (h.next a) = l := by
  intro l
  induction l with
  | nil =>
    intro a fuel hs _ hf
    obtain ⟨fuel, rfl⟩ : ∃ k, fuel = k + 1 := ⟨fuel - 1, by simp at hf; omega⟩
    simp [walk, hs.1]
  | cons n l ih =>
    intro a fuel hs hm hf
    obtain ⟨fuel, rfl⟩ : ∃ k, fuel = k + 1 := ⟨fuel - 1, by simp at hf; omega⟩
    simp only [List.mem_cons, not_or] at hm
    rw [walk, hs.1.1, if_neg (Ne.symm hm.1), ih n fuel hs.2 hm.2 (by simpa using hf)]

theorem walkPrev_seg {h : Heap} {head : Ptr} : ∀ (l : List Ptr) (b : Ptr) (fuel : Nat),
    Seg h head l b → head ∉ l → l.length < fuel →
    walkPrev fuel h head (h.prev b) = l.reverse := by
  intro l
  induction l using List.reverseRecOn with
  | nil =>
    intro b fuel hs _ hf
    obtain ⟨fuel, rfl⟩ : ∃ k, fuel = k + 1 := ⟨fuel - 1, by simp at hf; omega⟩
    simp [walkPrev, hs.2]
  | append_singleton l x ih =>
    intro b fuel hs hm hf
    obtain ⟨fuel, rfl⟩ : ∃ k, fuel = k + 1 := ⟨fuel - 1, by simp at hf; omega⟩
    rw [seg_snoc] at hs
    simp only [List.mem_append, List.mem_singleton, not_or] at hm
    rw [walkPrev, hs.2.2, if_neg (Ne.symm hm.2), ih x fuel hs.1 hm.1 (by simp at hf; omega)]
    simp

theorem seg_first_sym {h : Heap} {a : Ptr} {l : List Ptr} {b : Ptr} (hs : Seg h a l b) :
    h.prev (h.next a) = a := by
  cases l with
  | nil => rw [hs.1]; exact hs.2
  | cons n l => rw [hs.1.1]; exact hs.1.2

theorem seg_last_sym {h : Heap} {a : Ptr} {l : List Ptr} {b : Ptr} (hs : Seg h a l b) :
    h.next (h.prev b) = b := by
  induction l generalizing a with
  | nil => rw [hs.2]; exact hs.1
  | cons n l ih => exact ih hs.2

theorem cyc_linkSymmetric {h : Heap} {c : List Ptr} (hc : Cyc h c) : LinkSymmetric h c := by
  intro a ha
  obtain ⟨xs, ys, rfl⟩ := List.append_of_mem ha
  rw [cyc_rotate] at hc
  have hs : Seg h a (ys ++ xs) a := hc
  exact ⟨seg_first_sym hs, seg_last_sym hs⟩

theorem IsQueue.walk_eq {h : Heap} {head : Ptr} {ns : List Ptr} (hq : IsQueue h head ns)
    {fuel : Nat} (hf : ns.length < fuel) : walk fuel h head (h.next head) = ns :=
  walk_seg ns head fuel hq.seg hq.head_not_mem hf

theorem IsQueue.walkPrev_eq {h : Heap} {head : Ptr} {ns : List Ptr} (hq : IsQueue h head ns)
    {fuel : Nat} (hf : ns.length < fuel) : walkPrev fuel h head (h.prev head) = ns.reverse :=
  walkPrev_seg ns head fuel hq.seg hq.head_not_mem hf

theorem IsQueue.wellLinked {h : Heap} {head : Ptr} {ns : List Ptr} (hq : IsQueue h head ns) :
    WellLinked h head ns :=
  ⟨hq.1, hq.walk_eq (Nat.lt_succ_self _), cyc_linkSymmetric hq.2.2⟩

theorem seg_of_walk {h : Heap} {head : Ptr} : ∀ (l : List Ptr) (a : Ptr) (fuel : Nat),
    walk fuel h head (h.next a) = l → l.length < fuel →
    (∀ x ∈ a :: l, h.prev (h.next x) = x) → Seg h a l head ∧ head ∉ l := by
  intro l
  induction l with
  | nil =>
    intro a fuel hw hf hsym
    obtain ⟨fuel, rfl⟩ : ∃ k, fuel = k + 1 := ⟨fuel - 1, by simp at hf; omega⟩
    rw [walk] at hw
    by_cases he : h.next a = head
    · refine ⟨⟨he, ?_⟩, by simp⟩
      rw [← he]; exact hsym a (by simp)
    · rw [if_neg he] at hw; exact absurd hw (List.cons_ne_nil _ _)
  | cons n l ih =>
    intro a fuel hw hf hsym
    obtain ⟨fuel, rfl⟩ : ∃ k, fuel = k + 1 := ⟨fuel - 1, by simp at hf; omega⟩
    rw [walk] at hw
    by_cases he : h.next a = head
    · rw [if_pos he] at hw; exact absurd hw.symm (List.cons_ne_nil _ _)
    · rw [if_neg he] at hw
      obtain ⟨h1, h2⟩ := List.cons.inj hw
      rw [h1] at he h2
      obtain ⟨hs, hm⟩ := ih n fuel h2 (by simpa using hf)
        (fun x hx => hsym x (List.mem_cons_of_mem _ hx))
      refine ⟨⟨⟨h1, ?_⟩, hs⟩, ?_⟩
      · rw [← h1]; exact hsym a (by simp)
      · simp only [List.mem_cons, not_or]
        exact ⟨Ne.symm he, hm⟩

theorem seg_prev_mem {h : Heap} {n : Ptr} {t : List Ptr} {b : Ptr} (hs : Seg h n t b)
    {x : Ptr} (hx : x ∈ t) : h.prev x ∈ n :: t := by
  obtain ⟨xs, ys, rfl⟩ := List.append_of_mem hx
  rw [seg_append] at hs
  rw [seg_prev_last hs.1]
  have := getLastD_mem xs n
  simp only [List.mem_cons, List.mem_append] at this ⊢
  tauto

theorem seg_nodup {h : Heap} : ∀ (l : List Ptr) (a b : Ptr), Seg h a l b → a ∉ l → l.Nodup := by
  intro l
  induction l with
  | nil => intro a b _ _; exact List.nodup_nil
  | cons n t ih =>
    intro a b hs ha
    have hnt : n ∉ t := by
      intro hm
      have := seg_prev_mem hs.2 hm
      rw [hs.1.2] at this
      exact ha this
    exact List.nodup_cons.2 ⟨hnt, ih n b hs.2 hnt⟩

theorem WellLinked.isQueue {h : Heap} {head : Ptr} {ns : List Ptr} (hw : WellLinked h head ns) :
    IsQueue h head ns := by
  obtain ⟨h0, hwalk, hsym⟩ := hw
  obtain ⟨hs, hm⟩ := seg_of_walk ns head (ns.length + 1) hwalk (Nat.lt_succ_self _)
    (fun x hx => (hsym x hx).1)
  exact ⟨h0, List.nodup_cons.2 ⟨hm, seg_nodup ns head head hs hm⟩, hs⟩

/-- Well-formedness of a queue is link symmetry at the nodes met from the sentinel. -/
theorem wellLinked_iff_isQueue (h : Heap) (head : Ptr) (ns : List Ptr) :
    WellLinked h head ns ↔ IsQueue h head ns :=
  ⟨WellLinked.isQueue, IsQueue.wellLinked⟩

theorem IsQueue.linked_both_ways {h : Heap} {head : Ptr} {ns : List Ptr}
    (hq : IsQueue h head ns) :
    WellLinked h head ns ∧ walkPrev (ns.length + 1) h head (h.prev head) = ns.reverse :=
  ⟨hq.wellLinked, hq.walkPrev_eq (Nat.lt_succ_self _)⟩

/-! ## Every operation leaves a well-formed queue -/

theorem q_insert_head_isQueue {h : Heap} {head : Ptr} {ns : List Ptr} (hq : IsQueue h head ns)
    (s : List Nat) {new : Ptr} (hnew : new = 0 ∨ new ∉ head :: ns) (vbuf : Option (Nat → Nat)) :
    ∃ ns', IsQueue (q_insert_head h head s new vbuf).2 head ns' ∧
      ns'.length = ns.length + if (q_insert_head h head s new vbuf).1 = true then 1 else 0 := by
  by_cases h0 : new = 0
  · refine ⟨ns, ?_, ?_⟩ <;> simp [q_insert_head, hq.head_ne_zero, h0, hq]
  · have hfresh : new ∉ head :: ns := hnew.resolve_left h0
    cases vbuf with
    | none =>
      refine ⟨ns, ?_, ?_⟩
      · simp only [q_insert_head, if_neg hq.head_ne_zero, if_neg h0]
        exact hq.frame (fun _ _ => rfl) (fun _ _ => rfl)
      · simp [q_insert_head, hq.head_ne_zero, h0]
    | some buf =>
      refine ⟨new :: ns, ?_, ?_⟩
      · simp only [q_insert_head, if_neg hq.head_ne_zero, if_neg h0]
        exact (hq.prepare_new hfresh _).add_head hfresh h0
      · simp [q_insert_head, hq.head_ne_zero, h0]

theorem q_insert_tail_isQueue {h : Heap} {head : Ptr} {ns : List Ptr} (hq : IsQueue h head ns)
    (s : List Nat) {new : Ptr} (hnew : new = 0 ∨ new ∉ head :: ns) (vbuf : Option (Nat → Nat)) :
    ∃ ns', IsQueue (q_insert_tail h head s new vbuf).2 head ns' ∧
      ns'.length = ns.length + if (q_insert_tail h head s new vbuf).1 = true then 1 else 0 := by
  by_cases h0 : new = 0
  · refine ⟨ns, ?_, ?_⟩ <;> simp [q_insert_tail, hq.head_ne_zero, h0, hq]
  · have hfresh : new ∉ head :: ns := hnew.resolve_left h0
    cases vbuf with
    | none =>
      refine ⟨ns, ?_, ?_⟩
      · simp only [q_insert_tail, if_neg hq.head_ne_zero, if_neg h0]
        exact hq.frame (fun _ _ => rfl) (fun _ _ => rfl)
      · simp [q_insert_tail, hq.head_ne_zero, h0]
    | some buf =>
      refine ⟨ns ++ [new], ?_, ?_⟩
      · simp only [q_insert_tail, if_neg hq.head_ne_zero, if_neg h0]
        have hprep := hq.prepare_new hfresh
          (readString (strncpy buf s (s.length + 1)) (s.length + 1))
        have ht := @IsQueue.add_tail _ head ns [] new (by simpa using hprep)
          (by simpa using hfresh) h0
        simpa using ht
      · simp [q_insert_tail, hq.head_ne_zero, h0]

theorem q_remove_head_isQueue {h : Heap} {head : Ptr} {ns : List Ptr} (hq : IsQueue h head ns)
    (sp : Option (Nat → Nat)) (bufsize : Nat) :
    ∃ ns', IsQueue (q_remove_head h head sp bufsize).2.1 head ns' ∧
      ns'.length + (if (q_remove_head h head sp bufsize).1.isSome = true then 1 else 0)
        = ns.length := by
  cases ns with
  | nil =>
    refine ⟨[], ?_, ?_⟩ <;> simp [q_remove_head_empty hq, hq]
  | cons x rest =>
    refine ⟨rest, ?_, ?_⟩
    · rw [q_remove_head_cons hq]; exact hq.del_init_head
    · rw [q_remove_head_cons hq]; simp

theorem q_remove_tail_isQueue {h : Heap} {head : Ptr} {ns : List Ptr} (hq : IsQueue h head ns)
    (sp : Option (Nat → Nat)) (bufsize : Nat) :
    ∃ ns', IsQueue (q_remove_tail h head sp bufsize).2.1 head ns' ∧
      ns'.length + (if (q_remove_tail h head sp bufsize).1.isSome = true then 1 else 0)
        = ns.length := by
  rcases List.eq_nil_or_concat ns with rfl | ⟨rest, x, rfl⟩
  · refine ⟨[], ?_, ?_⟩ <;> simp [q_remove_tail_empty hq, hq]
  · simp only [List.concat_eq_append] at hq ⊢
    refine ⟨rest, ?_, ?_⟩
    · rw [q_remove_tail_concat hq]; exact hq.del_init_last
    · rw [q_remove_tail_concat hq]; simp

theorem q_delete_mid_isQueue {h : Heap} {head : Ptr} {ns : List Ptr} (hq : IsQueue h head ns)
    {fuel : Nat} (hf : ns.length < fuel) :
    ∃ r ns', q_delete_mid fuel h head = some r ∧ IsQueue r.2 head ns' ∧
      ns'.length + (if r.1 = true then 1 else 0) = ns.length := by
  by_cases hn : ns = []
  · subst hn
    exact ⟨(false, h), [], (q_delete_mid_spec hq hf).1 rfl, hq, rfl⟩
  · obtain ⟨h', hrun, hq', -, -⟩ := (q_delete_mid_spec hq hf).2 hn
    refine ⟨(true, h'), _, hrun, hq', ?_⟩
    have hpos : 0 < ns.length := List.length_pos.2 hn
    rw [List.length_eraseIdx]
    simp only [if_true]
    rw [if_pos (by omega)]
    omega

/-! ## Sequences of calls -/

theorem q_new_isQueue (h₀ : Heap) {p : Ptr} (hp : p ≠ 0) :
    q_new h₀ p = (some p, INIT_LIST_HEAD (h₀.allocate p) p) ∧
    IsQueue (q_new h₀ p).2 p [] ∧ (q_new h₀ p).2.alive p = true := by
  refine ⟨by simp [q_new, hp], ?_, ?_⟩
  · rw [isQueue_nil_iff]; simp [q_new, hp]
  · simp [q_new, hp]

theorem not_mem_of_not_alive {h : Heap} {c : List Ptr} (ha : ∀ p ∈ c, h.alive p = true)
    {new : Ptr} (hn : h.alive new = false) : new ∉ c := by
  intro hm
  rw [ha new hm] at hn
  exact absurd hn (by decide)

/-- One call keeps the queue well formed and its nodes allocated, and changes its
length by what the call counts for. -/
theorem applyOp_step {h : Heap} {head : Ptr} {ns : List Ptr} (hq : IsQueue h head ns)
    (ha : ∀ p ∈ head :: ns, h.alive p = true) (op : Op) (hm : MallocOk h op) {fuel : Nat}
    (hf : ns.length < fuel) :
    ∃ r ns', applyOp fuel h head op = some r ∧ IsQueue r.1 head ns' ∧
      (∀ p ∈ head :: ns', r.1.alive p = true) ∧ (ns'.length : Int) = ns.length + r.2 ∧
      r.2 ≤ 1 := by
  cases op with
  | insertHead s new vbuf =>
    by_cases h0 : new = 0
    · refine ⟨(h, 0), ns, ?_, hq, ha, by simp, by simp⟩
      simp [applyOp, q_insert_head, h0, hq.head_ne_zero]
    · have hfresh : new ∉ head :: ns := not_mem_of_not_alive ha (hm.resolve_left h0)
      cases vbuf with
      | none =>
        refine ⟨((h.allocate new).release new, 0), ns, ?_,
          hq.frame (fun _ _ => rfl) (fun _ _ => rfl), ?_, by simp, by simp⟩
        · simp [applyOp, q_insert_head, h0, hq.head_ne_zero]
        · intro p hp
          have : p ≠ new := by rintro rfl; exact hfresh hp
          simp [this, ha p hp]
      | some buf =>
        refine ⟨(list_add ((INIT_LIST_HEAD (h.allocate new) new).setValue new
          (readString (strncpy buf s (s.length + 1)) (s.length + 1))) new head, 1), new :: ns,
          ?_, (hq.prepare_new hfresh _).add_head hfresh h0, ?_, by simp, by simp⟩
        · simp [applyOp, q_insert_head, h0, hq.head_ne_zero]
        · intro p hp
          by_cases hpn : p = new
          · simp [hpn]
          · have : p ∈ head :: ns := by
              simp only [List.mem_cons] at hp ⊢; tauto
            simp [hpn, ha p this]
  | insertTail s new vbuf =>
    by_cases h0 : new = 0
    · refine ⟨(h, 0), ns, ?_, hq, ha, by simp, by simp⟩
      simp [applyOp, q_insert_tail, h0, hq.head_ne_zero]
    · have hfresh : new ∉ head :: ns := not_mem_of_not_alive ha (hm.resolve_left h0)
      cases vbuf with
      | none =>
        refine ⟨((h.allocate new).release new, 0), ns, ?_,
          hq.frame (fun _ _ => rfl) (fun _ _ => rfl), ?_, by simp, by simp⟩
        · simp [applyOp, q_insert_tail, h0, hq.head_ne_zero]
        · intro p hp
          have : p ≠ new := by rintro rfl; exact hfresh hp
          simp [this, ha p hp]
      | some buf =>
        have hprep := hq.prepare_new hfresh
          (readString (strncpy buf s (s.length + 1)) (s.length + 1))
        have ht := @IsQueue.add_tail _ head ns [] new (by simpa using hprep)
          (by simpa using hfresh) h0
        simp only [List.headD_nil] at ht
        refine ⟨(list_add_tail ((INIT_LIST_HEAD (h.allocate new) new).setValue new
          (readString (strncpy buf s (s.length + 1)) (s.length + 1))) new head, 1), ns ++ [new],
          ?_, ht, ?_, by simp, by simp⟩
        · simp [applyOp, q_insert_tail, h0, hq.head_ne_zero]
        · intro p hp
          by_cases hpn : p = new
          · simp [hpn]
          · have : p ∈ head :: ns := by
              simp only [List.mem_cons, List.mem_append, List.mem_singleton] at hp ⊢; tauto
            simp [hpn, ha p this]
  | removeHead sp bufsize =>
    cases ns with
    | nil =>
      refine ⟨(h, 0), [], ?_, hq, ha, by simp, by simp⟩
      simp [applyOp, q_remove_head_empty hq]
    | cons x rest =>
      refine ⟨(list_del_init h x, -1), rest, ?_, hq.del_init_head, ?_, by simp, by simp⟩
      · simp [applyOp, q_remove_head_cons hq]
      · intro p hp
        rw [list_del_init_alive]
        exact ha p (by simp only [List.mem_cons] at hp ⊢; tauto)
  | removeTail sp bufsize =>
    rcases List.eq_nil_or_concat ns with rfl | ⟨rest, x, rfl⟩
    · refine ⟨(h, 0), [], ?_, hq, ha, by simp, by simp⟩
      simp [applyOp, q_remove_tail_empty hq]
    · simp only [List.concat_eq_append] at hq ha hf ⊢
      refine ⟨(list_del_init h x, -1), rest, ?_, hq.del_init_last, ?_, by simp, by simp⟩
      · simp [applyOp, q_remove_tail_concat hq]
      · intro p hp
        rw [list_del_init_alive]
        exact ha p (by simp only [List.mem_cons, List.mem_append] at hp ⊢; tauto)
  | deleteMid =>
    by_cases hn : ns = []
    · subst hn
      refine ⟨(h, 0), [], ?_, hq, ha, by simp, by simp⟩
      simp [applyOp, (q_delete_mid_spec hq hf).1 rfl]
    · obtain ⟨h', hrun, hq', -, hal⟩ := (q_delete_mid_spec hq hf).2 hn
      have hk : (ns.length - 1) / 2 < ns.length := by
        have : 0 < ns.length := List.length_pos.2 hn
        omega
      refine ⟨(h', -1), _, ?_, hq', ?_, ?_, by simp⟩
      · simp [applyOp, hrun]
      · intro p hp
        have hmid : ns.getD ((ns.length - 1) / 2) head = ns[(ns.length - 1) / 2] :=
          List.getD_eq_getElem _ _ hk
        obtain ⟨hsplit, herase⟩ := eraseIdx_split ns _ hk
        have hpn : p ∈ head :: ns := by
          simp only [List.mem_cons] at hp ⊢
          rcases hp with hp | hp
          · exact Or.inl hp
          · exact Or.inr ((List.eraseIdx_sublist ns _).subset hp)
        have hne : p ≠ ns[(ns.length - 1) / 2] := by
          intro e
          have hnd := hq.2.1
          rw [hsplit] at hnd
          rw [herase] at hp
          have hmem : ns[(ns.length - 1) / 2] ∈
              head :: (ns.take ((ns.length - 1) / 2) ++ ns.drop ((ns.length - 1) / 2 + 1)) :=
            e ▸ hp
          have n1 := List.nodup_cons.1 hnd
          have n2 := List.nodup_append.1 n1.2
          simp only [List.mem_cons, List.mem_append] at hmem
          rcases hmem with h1 | h1 | h1
          · exact n1.1 (by rw [← h1]; simp)
          · exact n2.2.2 h1 (List.mem_cons_self _ _)
          · exact (List.nodup_cons.1 n2.2.1).1 h1
        rw [hal p, hmid, if_neg hne]
        exact ha p hpn
      · rw [List.length_eraseIdx, if_pos hk]
        have : 0 < ns.length := List.length_pos.2 hn
        omega

theorem runOps_spec {head : Ptr} {fuel : Nat} : ∀ (ops : List Op) (h : Heap) (ns : List Ptr),
    IsQueue h head ns → (∀ p ∈ head :: ns, h.alive p = true) → RunOk fuel h head ops →
    ns.length + ops.length < fuel →
    ∃ r ns', runOps fuel h head ops = some r ∧ IsQueue r.1 head ns' ∧
      (ns'.length : Int) = ns.length + r.2 ∧ ns'.length ≤ ns.length + ops.length := by
  intro ops
  induction ops with
  | nil =>
    intro h ns hq _ _ _
    exact ⟨(h, 0), ns, rfl, hq, by simp, by simp⟩
  | cons op ops ih =>
    intro h ns hq ha hok hf
    simp only [List.length_cons] at hf
    obtain ⟨r, ns₁, hstep, hq₁, ha₁, hlen₁, hr⟩ :=
      applyOp_step hq ha op hok.1 (show ns.length < fuel by omega)
    have hok' : RunOk fuel r.1 head ops := by
      have := hok.2
      rw [hstep] at this
      exact this
    have hle : ns₁.length ≤ ns.length + 1 := by omega
    obtain ⟨r', ns', hrun, hq', hlen', hle'⟩ := ih r.1 ns₁ hq₁ ha₁ hok' (by omega)
    refine ⟨(r'.1, r.2 + r'.2), ns', ?_, hq', ?_, ?_⟩
    · simp [runOps, hstep, hrun]
    · simp only []; omega
    · simp only [List.length_cons]; omega

theorem payloads_congr {h h' : Heap} {ns : List Ptr} (hv : ∀ p ∈ ns, h'.value p = h.value p) :
    payloads h' ns = payloads h ns :=
  List.map_congr_left hv

/-- C11: on a well-formed queue with node sequence `L`, when both calls of `malloc`
succeed (the element block being a fresh one), `q_insert_head` returns true and
the queue becomes the new node followed by `L`, `q_insert_tail` returns true
and the queue becomes `L` followed by the new node; the payload of the new
node is `s` and the payloads of the other nodes are unchanged. -/
theorem q_insert_both_ends (h : Heap) (head : Ptr) (ns : List Ptr) (s : List Nat) (new : Ptr)
    (buf : Nat → Nat) (hq : IsQueue h head ns) (hs : 0 ∉ s) (hnew : new ≠ 0)
    (hfresh : new ∉ head :: ns) :
    (∃ h', q_insert_head h head s new (some buf) = (true, h') ∧ IsQueue h' head (new :: ns) ∧
      payloads h' (new :: ns) = s :: payloads h ns ∧ ∀ p, p ≠ new → h'.value p = h.value p) ∧
    (∃ h', q_insert_tail h head s new (some buf) = (true, h') ∧ IsQueue h' head (ns ++ [new]) ∧
      payloads h' (ns ++ [new]) = payloads h ns ++ [s] ∧
      ∀ p, p ≠ new → h'.value p = h.value p) := by
  have hne : ∀ p ∈ ns, p ≠ new := fun p hp e => hfresh (e ▸ List.mem_cons_of_mem _ hp)
  obtain ⟨h₁, hrun₁, hq₁, hv₁, ho₁, -⟩ := q_insert_head_spec hq hs hnew hfresh buf
  obtain ⟨h₂, hrun₂, hq₂, hv₂, ho₂, -⟩ := q_insert_tail_spec hq hs hnew hfresh buf
  refine ⟨⟨h₁, hrun₁, hq₁, ?_, ho₁⟩, ⟨h₂, hrun₂, hq₂, ?_, ho₂⟩⟩
  · have := @payloads_congr h h₁ ns (fun p hp => ho₁ p (hne p hp))
    unfold payloads at this ⊢
    rw [List.map_cons, hv₁, this]
  · have := @payloads_congr h h₂ ns (fun p hp => ho₂ p (hne p hp))
    unfold payloads at this ⊢
    rw [List.map_append, this, List.map_singleton, hv₂]

theorem q_insert_both_ends_witness :
    IsQueue (sampleQueue [[97], [98]]) 1 [2, 3] ∧ 0 ∉ [104, 105] ∧ 9 ≠ 0 ∧ 9 ∉ [1, 2, 3] ∧
    ((∃ h', q_insert_head (sampleQueue [[97], [98]]) 1 [104, 105] 9 (some fun _ => 7)
        = (true, h') ∧ IsQueue h' 1 [9, 2, 3] ∧
      payloads h' [9, 2, 3] = [104, 105] :: payloads (sampleQueue [[97], [98]]) [2, 3] ∧
      ∀ p, p ≠ 9 → h'.value p = (sampleQueue [[97], [98]]).value p) ∧
    (∃ h', q_insert_tail (sampleQueue [[97], [98]]) 1 [104, 105] 9 (some fun _ => 7)
        = (true, h') ∧ IsQueue h' 1 ([2, 3] ++ [9]) ∧
      payloads h' ([2, 3] ++ [9]) = payloads (sampleQueue [[97], [98]]) [2, 3] ++ [[104, 105]] ∧
      ∀ p, p ≠ 9 → h'.value p = (sampleQueue [[97], [98]]).value p)) :=
  ⟨by decide, by decide, by decide, by decide,
    q_insert_both_ends (sampleQueue [[97], [98]]) 1 [2, 3] [104, 105] 9 (fun _ => 7)
      (by decide) (by decide) (by decide) (by decide)⟩

/-- C12: a successful `q_insert_tail` of `s` followed at once by `q_remove_tail`
returns the inserted element, whose payload is `s`, and leaves the queue with
the nodes it had before the insertion, in the same order and with the same
payloads. -/
theorem q_insert_tail_remove_tail (h : Heap) (head : Ptr) (ns : List Ptr) (s : List Nat)
    (new : Ptr) (buf : Nat → Nat) (sp : Option (Nat → Nat)) (bufsize : Nat)
    (hq : IsQueue h head ns) (hs : 0 ∉ s) (hnew : new ≠ 0) (hfresh : new ∉ head :: ns) :
    ∃ h₁ h₂ sp', q_insert_tail h head s new (some buf) = (true, h₁) ∧
      q_remove_tail h₁ head sp bufsize = (some new, h₂, sp') ∧ h₂.value new = s ∧
      IsQueue h₂ head ns ∧ payloads h₂ ns = payloads h ns := by
  obtain ⟨h₁, hrun₁, hq₁, hv₁, ho₁, -⟩ := q_insert_tail_spec hq hs hnew hfresh buf
  refine ⟨h₁, list_del_init h₁ new, _, hrun₁, q_remove_tail_concat hq₁ sp bufsize, ?_,
    hq₁.del_init_last, ?_⟩
  · rw [list_del_init_value]; exact hv₁
  · apply payloads_congr
    intro p hp
    rw [list_del_init_value]
    exact ho₁ p (fun e => hfresh (e ▸ List.mem_cons_of_mem _ hp))

theorem q_insert_tail_remove_tail_witness :
    IsQueue (sampleQueue [[97], [98]]) 1 [2, 3] ∧ 0 ∉ [104, 105] ∧ 9 ≠ 0 ∧ 9 ∉ [1, 2, 3] ∧
    ∃ h₁ h₂ sp', q_insert_tail (sampleQueue [[97], [98]]) 1 [104, 105] 9 (some fun _ => 7)
        = (true, h₁) ∧
      q_remove_tail h₁ 1 none 0 = (some 9, h₂, sp') ∧ h₂.value 9 = [104, 105] ∧
      IsQueue h₂ 1 [2, 3] ∧ payloads h₂ [2, 3] = payloads (sampleQueue [[97], [98]]) [2, 3] :=
  ⟨by decide, by decide, by decide, by decide,
    q_insert_tail_remove_tail (sampleQueue [[97], [98]]) 1 [2, 3] [104, 105] 9 (fun _ => 7)
      none 0 (by decide) (by decide) (by decide) (by decide)⟩

/-- C13: on a queue freshly made by `q_new`, after any sequence of calls of
`q_insert_head`, `q_insert_tail`, `q_remove_head`, `q_remove_tail` and
`q_delete_mid` in which `malloc` only hands out unallocated blocks, `q_size`
returns the number of successful insertions minus the number of successful
removals and deletions; it returns 0 on the fresh queue and on a null handle. -/
theorem q_size_counts (h₀ : Heap) (p : Ptr) (ops : List Op) (fuel : Nat) (hp : p ≠ 0)
    (hok : RunOk fuel (q_new h₀ p).2 p ops) (hf : ops.length < fuel) :
    (q_new h₀ p).1 = some p ∧ q_size fuel (q_new h₀ p).2 p = some 0 ∧
    (∃ r, runOps fuel (q_new h₀ p).2 p ops = some r ∧ 0 ≤ r.2 ∧
      q_size fuel r.1 p = some r.2.toNat) ∧
    ∀ h : Heap, q_size fuel h 0 = some 0 := by
  obtain ⟨hnew, hq, ha⟩ := q_new_isQueue h₀ hp
  refine ⟨by rw [hnew], ?_, ?_, fun h => by simp [q_size]⟩
  · exact q_size_eq hq (by simp; omega)
  · obtain ⟨r, ns', hrun, hq', hlen, hle⟩ := runOps_spec ops (q_new h₀ p).2 [] hq
      (by intro x hx; simp only [List.mem_singleton] at hx; rw [hx]; exact ha) hok
      (by simpa using hf)
    simp only [List.length_nil, Nat.zero_add] at hle
    refine ⟨r, hrun, by simp at hlen; omega, ?_⟩
    rw [q_size_eq hq' (by omega)]
    congr 1
    simp at hlen
    omega

theorem q_size_counts_witness :
    (1 : Ptr) ≠ 0 ∧
    RunOk 10 (q_new Heap.blank 1).2 1
      [Op.insertHead [97] 2 (some fun _ => 0), Op.insertTail [98] 3 (some fun _ => 0),
        Op.insertTail [99] 0 none, Op.removeHead none 0, Op.insertHead [100] 4 none,
        Op.deleteMid, Op.deleteMid, Op.insertTail [101] 3 (some fun _ => 0)] ∧
    [Op.insertHead [97] 2 (some fun _ => 0), Op.insertTail [98] 3 (some fun _ => 0),
        Op.insertTail [99] 0 none, Op.removeHead none 0, Op.insertHead [100] 4 none,
        Op.deleteMid, Op.deleteMid, Op.insertTail [101] 3 (some fun _ => 0)].length < 10 ∧
    ((q_new Heap.blank 1).1 = some 1 ∧ q_size 10 (q_new Heap.blank 1).2 1 = some 0 ∧
    (∃ r, runOps 10 (q_new Heap.blank 1).2 1
        [Op.insertHead [97] 2 (some fun _ => 0), Op.insertTail [98] 3 (some fun _ => 0),
          Op.insertTail [99] 0 none, Op.removeHead none 0, Op.insertHead [100] 4 none,
          Op.deleteMid, Op.deleteMid, Op.insertTail [101] 3 (some fun _ => 0)] = some r ∧
      0 ≤ r.2 ∧ q_size 10 r.1 1 = some r.2.toNat) ∧
    ∀ h : Heap, q_size 10 h 0 = some 0) :=
  ⟨by decide, by decide, by decide,
    q_size_counts Heap.blank 1
      [Op.insertHead [97] 2 (some fun _ => 0), Op.insertTail [98] 3 (some fun _ => 0),
        Op.insertTail [99] 0 none, Op.removeHead none 0, Op.insertHead [100] 4 none,
        Op.deleteMid, Op.deleteMid, Op.insertTail [101] 3 (some fun _ => 0)] 10
      (by decide) (by decide) (by decide)⟩

/-- C14: given a null handle every operation returns without changing the heap:
`q_insert_head`, `q_insert_tail`, `q_delete_mid` and `q_delete_dup` return
false, `q_remove_head` and `q_remove_tail` return `NULL` and leave the buffer
alone, `q_size` returns 0, and `q_free`, `q_swap`, `q_reverse` and `q_sort`
return at once. -/
theorem null_handle_graceful (fuel : Nat) (h : Heap) (s : List Nat) (new : Ptr)
    (vbuf sp : Option (Nat → Nat)) (bufsize : Nat) (stack : Ptr) :
    q_insert_head h 0 s new vbuf = (false, h) ∧ q_insert_tail h 0 s new vbuf = (false, h) ∧
    q_delete_mid fuel h 0 = some (false, h) ∧ q_delete_dup fuel h 0 = some (false, h) ∧
    q_remove_head h 0 sp bufsize = (none, h, sp) ∧ q_remove_tail h 0 sp bufsize = (none, h, sp) ∧
    q_size fuel h 0 = some 0 ∧ q_free fuel h 0 = some h ∧ q_swap fuel h 0 = some h ∧
    q_reverse fuel h 0 = some h ∧ q_sort (fuel + 1) h 0 stack = some h :=
  ⟨q_insert_head_null h s new vbuf, q_insert_tail_null h s new vbuf, q_delete_mid_null fuel h,
    by simp [q_delete_dup], q_remove_head_null h sp bufsize, q_remove_tail_null h sp bufsize,
    by simp [q_size], by simp [q_free], q_swap_null fuel h, q_reverse_null fuel h,
    q_sort_null fuel h stack⟩

/-- C15: `q_reverse` applied twice gives back the heap it started from: the same
node order, and the same `next` and `prev` fields of every node and of the
sentinel. -/
theorem q_reverse_involutive (h : Heap) (head : Ptr) (ns : List Ptr) (fuel : Nat)
    (hq : IsQueue h head ns) (hf : ns.length < fuel) :
    ∃ h₁, q_reverse fuel h head = some h₁ ∧ IsQueue h₁ head ns.reverse ∧
      q_reverse fuel h₁ head = some h :=
  q_reverse_twice hq hf

theorem q_reverse_involutive_witness :
    IsQueue (sampleQueue [[1], [2], [3], [4]]) 1 [2, 3, 4, 5] ∧ [2, 3, 4, 5].length < 10 ∧
    ∃ h₁, q_reverse 10 (sampleQueue [[1], [2], [3], [4]]) 1 = some h₁ ∧
      IsQueue h₁ 1 [2, 3, 4, 5].reverse ∧
      q_reverse 10 h₁ 1 = some (sampleQueue [[1], [2], [3], [4]]) :=
  ⟨by decide, by decide,
    q_reverse_involutive (sampleQueue [[1], [2], [3], [4]]) 1 [2, 3, 4, 5] 10
      (by decide) (by decide)⟩

theorem IsQueue.symmetric {h : Heap} {head : Ptr} {ns : List Ptr} (hq : IsQueue h head ns) :
    Symmetric h head :=
  ⟨ns, hq.linked_both_ways.1, hq.linked_both_ways.2⟩

theorem q_delete_dup_isQueue {h : Heap} {head : Ptr} {ns : List Ptr} (hq : IsQueue h head ns)
    {fuel : Nat} (hf : ns.length * ns.length + ns.length + 1 ≤ fuel) :
    ∃ h' ns', q_delete_dup fuel h head = some (true, h') ∧ IsQueue h' head ns' := by
  obtain ⟨h', ns', hrun, hq', -⟩ :=
    @q_delete_dup_loop_spec head fuel [] ns h (by simpa using hq) (by simpa using hf)
  rw [← hq.next_head] at hrun
  exact ⟨h', ns', by simp [q_delete_dup, hq.head_ne_zero, hrun], hq'⟩

/-- C17: link symmetry is kept by every operation.  When the nodes met from the
sentinel are link symmetric (`a->next->prev == a` and `a->prev->next == a` at
the sentinel and at each of them), then after `q_insert_head`,
`q_insert_tail`, `q_remove_head`, `q_remove_tail`, `q_delete_mid`,
`q_delete_dup`, `q_swap`, `q_reverse` and `q_sort` the nodes then met from the
sentinel are link symmetric again, and the traversal along `prev` is the
reverse of the traversal along `next`. -/
theorem link_symmetry_kept (h : Heap) (head : Ptr) (ns : List Ptr)
    (hw : WellLinked h head ns) :
    (walkPrev (ns.length + 1) h head (h.prev head) = ns.reverse) ∧
    (∀ s new vbuf, new = 0 ∨ new ∉ head :: ns →
      Symmetric (q_insert_head h head s new vbuf).2 head ∧
      Symmetric (q_insert_tail h head s new vbuf).2 head) ∧
    (∀ sp bufsize, Symmetric (q_remove_head h head sp bufsize).2.1 head ∧
      Symmetric (q_remove_tail h head sp bufsize).2.1 head) ∧
    (∀ fuel, ns.length < fuel →
      (∃ r, q_delete_mid fuel h head = some r ∧ Symmetric r.2 head) ∧
      (∃ h', q_swap fuel h head = some h' ∧ Symmetric h' head) ∧
      (∃ h', q_reverse fuel h head = some h' ∧ Symmetric h' head)) ∧
    (∀ fuel, ns.length * ns.length + ns.length + 1 ≤ fuel →
      ∃ r, q_delete_dup fuel h head = some r ∧ Symmetric r.2 head) ∧
    (∀ fuel sp, (∀ p ∈ head :: ns, p < sp) → ns.length + 3 ≤ fuel →
      ∃ h', q_sort fuel h head sp = some h' ∧ Symmetric h' head) := by
  have hq : IsQueue h head ns := hw.isQueue
  refine ⟨hq.linked_both_ways.2, ?_, ?_, ?_, ?_, ?_⟩
  · intro s new vbuf hnew
    obtain ⟨n₁, hq₁, -⟩ := q_insert_head_isQueue hq s hnew vbuf
    obtain ⟨n₂, hq₂, -⟩ := q_insert_tail_isQueue hq s hnew vbuf
    exact ⟨hq₁.symmetric, hq₂.symmetric⟩
  · intro sp bufsize
    obtain ⟨n₁, hq₁, -⟩ := q_remove_head_isQueue hq sp bufsize
    obtain ⟨n₂, hq₂, -⟩ := q_remove_tail_isQueue hq sp bufsize
    exact ⟨hq₁.symmetric, hq₂.symmetric⟩
  · intro fuel hf
    obtain ⟨r, n₁, hrun₁, hq₁, -⟩ := q_delete_mid_isQueue hq hf
    obtain ⟨h₂, hrun₂, hq₂, -⟩ := q_swap_spec hq hf
    obtain ⟨h₃, hrun₃, hq₃, -⟩ := q_reverse_spec hq hf
    exact ⟨⟨r, hrun₁, hq₁.symmetric⟩, ⟨h₂, hrun₂, hq₂.symmetric⟩, ⟨h₃, hrun₃, hq₃.symmetric⟩⟩
  · intro fuel hf
    obtain ⟨h', ns', hrun, hq'⟩ := q_delete_dup_isQueue hq hf
    exact ⟨(true, h'), hrun, hq'.symmetric⟩
  · intro fuel sp hsp hf
    obtain ⟨h', ns', hrun, hq', -⟩ := q_sort_spec fuel h head sp ns hq hsp hf
    exact ⟨h', hrun, hq'.symmetric⟩

theorem link_symmetry_kept_witness :
    WellLinked (sampleQueue [[5], [3], [9], [3]]) 1 [2, 3, 4, 5] ∧
    (∀ p ∈ [1, 2, 3, 4, 5], p < 100) ∧ [2, 3, 4, 5].length + 3 ≤ 10 ∧
    ∃ h', q_sort 10 (sampleQueue [[5], [3], [9], [3]]) 1 100 = some h' ∧ Symmetric h' 1 :=
  ⟨by decide, by decide, by decide,
    (link_symmetry_kept (sampleQueue [[5], [3], [9], [3]]) 1 [2, 3, 4, 5]
      (by decide)).2.2.2.2.2 10 100 (by decide) (by decide)⟩

/-- C18, as the code has it: in a well-formed queue of size `n` (the value `q_size`
returns), `n + 1` steps along `next` from the sentinel lead back to the
sentinel, and so do `n + 1` steps along `prev`; the sentinel is one of the
`n + 1` nodes of the cycle.  When the queue is not empty, `n` steps along
`next` lead to its last node and `n` steps along `prev` to its first node,
neither of which is the sentinel. -/
theorem circular_size_succ (h : Heap) (head : Ptr) (ns : List Ptr) (fuel : Nat)
    (hq : IsQueue h head ns) (hf : ns.length < fuel) :
    q_size fuel h head = some ns.length ∧ h.next^[ns.length + 1] head = head ∧
    h.prev^[ns.length + 1] head = head ∧
    (ns ≠ [] → ns.getLast? = some (h.next^[ns.length] head) ∧
      ns.head? = some (h.prev^[ns.length] head) ∧
      h.next^[ns.length] head ≠ head ∧ h.prev^[ns.length] head ≠ head) := by
  refine ⟨q_size_eq hq hf, seg_iterate_next ns head head hq.seg,
    seg_iterate_prev ns head head hq.seg, ?_⟩
  intro hn
  have hlast : ns.getLast? = some (h.next^[ns.length] head) ∧
      h.next^[ns.length] head ≠ head := by
    rcases List.eq_nil_or_concat ns with rfl | ⟨rest, x, rfl⟩
    · exact absurd rfl hn
    · simp only [List.concat_eq_append] at hq ⊢
      have hs := hq.seg
      rw [seg_snoc] at hs
      have hx : x ≠ head := by rintro rfl; exact hq.head_not_mem (by simp)
      have hlen : (rest ++ [x]).length = rest.length + 1 := by simp
      rw [hlen, seg_iterate_next rest head x hs.1]
      exact ⟨by simp, hx⟩
  have hfirst : ns.head? = some (h.prev^[ns.length] head) ∧
      h.prev^[ns.length] head ≠ head := by
    cases ns with
    | nil => exact absurd rfl hn
    | cons y t =>
      have hs : Seg h head (y :: t) head := hq.seg
      have hy : y ≠ head := by rintro rfl; exact hq.head_not_mem (by simp)
      rw [List.length_cons, seg_iterate_prev t y head hs.2]
      exact ⟨rfl, hy⟩
  exact ⟨hlast.1, hfirst.1, hlast.2, hfirst.2⟩

theorem circular_size_succ_witness :
    IsQueue (sampleQueue [[97], [98], [99]]) 1 [2, 3, 4] ∧ [2, 3, 4].length < 10 ∧
    (q_size 10 (sampleQueue [[97], [98], [99]]) 1 = some [2, 3, 4].length ∧
      (sampleQueue [[97], [98], [99]]).next^[[2, 3, 4].length + 1] 1 = 1 ∧
      (sampleQueue [[97], [98], [99]]).prev^[[2, 3, 4].length + 1] 1 = 1 ∧
      ([2, 3, 4] ≠ [] →
        [2, 3, 4].getLast? = some ((sampleQueue [[97], [98], [99]]).next^[[2, 3, 4].length] 1) ∧
        [2, 3, 4].head? = some ((sampleQueue [[97], [98], [99]]).prev^[[2, 3, 4].length] 1) ∧
        (sampleQueue [[97], [98], [99]]).next^[[2, 3, 4].length] 1 ≠ 1 ∧
        (sampleQueue [[97], [98], [99]]).prev^[[2, 3, 4].length] 1 ≠ 1)) :=
  ⟨by decide, by decide,
    circular_size_succ (sampleQueue [[97], [98], [99]]) 1 [2, 3, 4] 10 (by decide) (by decide)⟩

/-- C18 as stated fails: the queue `["a"]` made through the public operations is
well formed and `q_size` returns 1, but one step along `next` from the
sentinel, and one step along `prev`, lead to the element, not to the
sentinel. -/
theorem circular_size_steps_fail :
    (q_insert_tail (q_new Heap.blank 1).2 1 [97] 2 (some fun _ => 0)).1 = true ∧
    IsQueue (q_insert_tail (q_new Heap.blank 1).2 1 [97] 2 (some fun _ => 0)).2 1 [2] ∧
    q_size 10 (q_insert_tail (q_new Heap.blank 1).2 1 [97] 2 (some fun _ => 0)).2 1 = some 1 ∧
    (q_insert_tail (q_new Heap.blank 1).2 1 [97] 2 (some fun _ => 0)).2.next^[1] 1 ≠ 1 ∧
    (q_insert_tail (q_new Heap.blank 1).2 1 [97] 2 (some fun _ => 0)).2.prev^[1] 1 ≠ 1 := by
  decide

theorem length_mergeNodes (val : Ptr → List Nat) (l₁ l₂ : List Ptr) :
    (mergeNodes val l₁ l₂).length = l₁.length + l₂.length := by
  rw [(mergeNodes_perm val l₂ l₁).length_eq, List.length_append]

/-- C19: for two disjoint well-formed queues `head` and `head2` whose payloads are
ascending, of `m` and `n` nodes, `merge` returns (given enough fuel), leaves
`head2` empty and leaves at `head` `m + n` nodes in ascending order that are a
permutation of the nodes of the two queues; payloads are not changed. -/
theorem merge_ascending (h : Heap) (head head2 : Ptr) (l₁ l₂ : List Ptr) (fuel : Nat)
    (hq₁ : IsQueue h head l₁) (hq₂ : IsQueue h head2 l₂)
    (hd : ∀ p ∈ head :: l₁, p ∉ head2 :: l₂) (ha₁ : Ascending h l₁) (ha₂ : Ascending h l₂)
    (hf : l₁.length + l₂.length + 1 < fuel) :
    ∃ h' ns', merge fuel h head head2 = some h' ∧ IsQueue h' head2 [] ∧ IsQueue h' head ns' ∧
      ns'.length = l₁.length + l₂.length ∧ Ascending h' ns' ∧ List.Perm ns' (l₁ ++ l₂) ∧
      h'.value = h.value ∧ h'.alive = h.alive := by
  obtain ⟨h', hrun, hr₁, hr₂, hv, ha, -⟩ := merge_spec hq₁ hq₂ hd hf
  exact ⟨h', mergeNodes h.value l₁ l₂, hrun, hr₂, hr₁, length_mergeNodes _ _ _,
    (ascending_congr hv _).2 (mergeNodes_ascending h l₂ l₁ ha₁ ha₂), mergeNodes_perm _ _ _, hv, ha⟩

theorem merge_ascending_witness :
    IsQueue (sampleTwoQueues [[1], [4], [4]] [[2], [4]]) 1 [2, 3, 4] ∧
    IsQueue (sampleTwoQueues [[1], [4], [4]] [[2], [4]]) 50 [51, 52] ∧
    (∀ p ∈ [1, 2, 3, 4], p ∉ [50, 51, 52]) ∧
    Ascending (sampleTwoQueues [[1], [4], [4]] [[2], [4]]) [2, 3, 4] ∧
    Ascending (sampleTwoQueues [[1], [4], [4]] [[2], [4]]) [51, 52] ∧
    [2, 3, 4].length + [51, 52].length + 1 < 10 ∧
    ∃ h' ns', merge 10 (sampleTwoQueues [[1], [4], [4]] [[2], [4]]) 1 50 = some h' ∧
      IsQueue h' 50 [] ∧ IsQueue h' 1 ns' ∧ ns'.length = [2, 3, 4].length + [51, 52].length ∧
      Ascending h' ns' ∧ List.Perm ns' ([2, 3, 4] ++ [51, 52]) ∧
      h'.value = (sampleTwoQueues [[1], [4], [4]] [[2], [4]]).value ∧
      h'.alive = (sampleTwoQueues [[1], [4], [4]] [[2], [4]]).alive :=
  ⟨by decide, by decide, by decide, by decide, by decide, by decide,
    merge_ascending (sampleTwoQueues [[1], [4], [4]] [[2], [4]]) 1 50 [2, 3, 4] [51, 52] 10
      (by decide) (by decide) (by decide) (by decide) (by decide) (by decide)⟩

theorem take_length_succ (pre : List Ptr) (mid : Ptr) (post : List Ptr) :
    (pre ++ mid :: post).take (pre.length + 1) = pre ++ [mid] := by
  induction pre with
  | nil => simp
  | cons a pre ih => simp [ih]

theorem drop_length_succ (pre : List Ptr) (mid : Ptr) (post : List Ptr) :
    (pre ++ mid :: post).drop (pre.length + 1) = post := by
  induction pre with
  | nil => simp
  | cons a pre ih => simp [ih]

/-- C20: on a well-formed queue of `n` nodes `list_get_mid` returns (given enough
fuel): the sentinel when `n = 0`, and otherwise the node at index
`(n - 1) / 2` from the front, which is not the sentinel.  For `n ≥ 2` the cut
of `q_sort` at that node therefore leaves two well-formed queues, one of the
first `(n + 1) / 2` nodes at `head` and one of the last `n / 2` nodes at the
new sentinel, both non-empty. -/
theorem list_get_mid_lower_middle (h : Heap) (head : Ptr) (ns : List Ptr) (fuel : Nat)
    (hq : IsQueue h head ns) (hf : ns.length < fuel) :
    (ns = [] → list_get_mid fuel h head = some head) ∧
    (ns ≠ [] → ∃ mid, list_get_mid fuel h head = some mid ∧
      ns[(ns.length - 1) / 2]? = some mid ∧ mid ≠ head) ∧
    (2 ≤ ns.length → ∀ sp, sp ≠ 0 → sp ∉ head :: ns →
      ∃ mid, list_get_mid fuel (INIT_LIST_HEAD h sp) head = some mid ∧
        IsQueue (list_cut_position (INIT_LIST_HEAD h sp) sp head mid) head
          (ns.take ((ns.length + 1) / 2)) ∧
        IsQueue (list_cut_position (INIT_LIST_HEAD h sp) sp head mid) sp
          (ns.drop ((ns.length + 1) / 2)) ∧
        (ns.take ((ns.length + 1) / 2)).length = (ns.length + 1) / 2 ∧
        (ns.drop ((ns.length + 1) / 2)).length = ns.length / 2 ∧
        0 < (ns.length + 1) / 2 ∧ 0 < ns.length / 2) := by
  refine ⟨?_, ?_, ?_⟩
  · rintro rfl
    rw [list_get_mid_eq hq hf]; rfl
  · intro hn
    have hk : (ns.length - 1) / 2 < ns.length := by
      have : 0 < ns.length := List.length_pos.2 hn
      omega
    refine ⟨ns[(ns.length - 1) / 2], ?_, List.getElem?_eq_getElem hk, ?_⟩
    · rw [list_get_mid_eq hq hf, List.getD_eq_getElem _ _ hk]
    · intro e
      exact hq.head_not_mem (e ▸ List.getElem_mem hk)
  · intro hn sp hsp0 hsp
    have hk : (ns.length - 1) / 2 < ns.length := by omega
    have hq0 : IsQueue (INIT_LIST_HEAD h sp) head ns := hq.init_other hsp
    have hke : (ns.length + 1) / 2 = (ns.length - 1) / 2 + 1 := by omega
    obtain ⟨hsplit, -⟩ := eraseIdx_split ns _ hk
    have hmid : list_get_mid fuel (INIT_LIST_HEAD h sp) head = some ns[(ns.length - 1) / 2] := by
      rw [list_get_mid_eq hq0 hf, List.getD_eq_getElem _ _ hk]
    have hlt : (ns.take ((ns.length + 1) / 2)).length = (ns.length + 1) / 2 := by
      rw [List.length_take]; omega
    have hld : (ns.drop ((ns.length + 1) / 2)).length = ns.length / 2 := by
      rw [List.length_drop]; omega
    have hself : (INIT_LIST_HEAD h sp).next sp = sp ∧ (INIT_LIST_HEAD h sp).prev sp = sp := by
      simp
    refine ⟨ns[(ns.length - 1) / 2], hmid, ?_, ?_, hlt, hld, by omega, by omega⟩
    · rw [hke]
      generalize ns[(ns.length - 1) / 2] = mid at hsplit
      generalize hpre : ns.take ((ns.length - 1) / 2) = pre at hsplit
      generalize hpost : ns.drop ((ns.length - 1) / 2 + 1) = post at hsplit
      have hprelen : pre.length = (ns.length - 1) / 2 := by
        rw [← hpre, List.length_take]; omega
      have hcut := IsQueue.cut_position (by rw [← hsplit]; exact hq0)
        (by rw [← hsplit]; exact hsp) hsp0 hself
      rw [← hprelen]
      have e : ns.take (pre.length + 1) = pre ++ [mid] := by
        conv_lhs => rw [hsplit]
        exact take_length_succ pre mid post
      rw [e]; exact hcut.1
    · rw [hke]
      generalize ns[(ns.length - 1) / 2] = mid at hsplit
      generalize hpre : ns.take ((ns.length - 1) / 2) = pre at hsplit
      generalize hpost : ns.drop ((ns.length - 1) / 2 + 1) = post at hsplit ⊢
      exact (IsQueue.cut_position (by rw [← hsplit]; exact hq0)
        (by rw [← hsplit]; exact hsp) hsp0 hself).2

theorem list_get_mid_lower_middle_witness :
    IsQueue (sampleQueue [[1], [2], [3], [4], [5]]) 1 [2, 3, 4, 5, 6] ∧
    [2, 3, 4, 5, 6].length < 10 ∧
    (∃ mid, list_get_mid 10 (INIT_LIST_HEAD (sampleQueue [[1], [2], [3], [4], [5]]) 100) 1
        = some mid ∧
      IsQueue (list_cut_position (INIT_LIST_HEAD (sampleQueue [[1], [2], [3], [4], [5]]) 100)
        100 1 mid) 1 ([2, 3, 4, 5, 6].take (([2, 3, 4, 5, 6].length + 1) / 2)) ∧
      IsQueue (list_cut_position (INIT_LIST_HEAD (sampleQueue [[1], [2], [3], [4], [5]]) 100)
        100 1 mid) 100 ([2, 3, 4, 5, 6].drop (([2, 3, 4, 5, 6].length + 1) / 2)) ∧
      ([2, 3, 4, 5, 6].take (([2, 3, 4, 5, 6].length + 1) / 2)).length
        = ([2, 3, 4, 5, 6].length + 1) / 2 ∧
      ([2, 3, 4, 5, 6].drop (([2, 3, 4, 5, 6].length + 1) / 2)).length
        = [2, 3, 4, 5, 6].length / 2 ∧
      0 < ([2, 3, 4, 5, 6].length + 1) / 2 ∧ 0 < [2, 3, 4, 5, 6].length / 2) :=
  ⟨by decide, by decide,
    (list_get_mid_lower_middle (sampleQueue [[1], [2], [3], [4], [5]]) 1 [2, 3, 4, 5, 6] 10
      (by decide) (by decide)).2.2 (by decide) 100 (by decide) (by decide)⟩

end Queue
